import Mathlib

/-!
# TOTP generation (lucasepe/totp): a shallow embedding

The Go sources `totp.go` and `internal/generator/generator.go` are embedded as
Lean functions.  Conventions:

* a Go `string` is a `List Char` (a sequence of Unicode code points); wherever
  Go works on the bytes of a string (`len`, base32 decoding) the UTF-8 bytes of
  the text are used;
* a Go `[]byte` is a `List Nat` whose entries are below 256;
* Go's `int`, `int64` are `Int` (`int` has 64 bits), `uint32`/`uint64` values
  are `Nat` reduced modulo `2^32`/`2^64` where the program converts;
* a call that returns `(value, error)` or panics yields a `Result`; a call
  that cannot panic yields an `Except`.

The standard-library routines the program calls (HMAC with SHA-1, SHA-256 and
SHA-512, `encoding/base32`, `strings.Fields`, `strings.ToUpper`,
`strings.EqualFold`, `strconv.Atoi`, `strconv.ParseInt`, `url.Parse`, `fmt`) are
embedded as executable functions as well.
-/

/-! ## Bytes, words -/

/-- The `n` low-order bytes of `x`, most significant first
(`binary.BigEndian.PutUint32`, `PutUint64`). -/
def bytesBE : Nat → Nat → List Nat
  | 0, _ => []
  | k + 1, x => (x >>> (8 * k)) % 256 :: bytesBE k x

/-- Big-endian value of a byte string. -/
def beValue (bs : List Nat) : Nat :=
  bs.foldl (fun acc b => acc * 256 + b) 0

/-- Split into consecutive pieces of `n` entries (the last may be shorter). -/
def chunks (n : Nat) : Nat → List Nat → List (List Nat)
  | 0, _ => []
  | f + 1, l => if l.isEmpty then [] else l.take n :: chunks n f (l.drop n)

/-- Rotate the `w`-bit word `x` left by `n`. -/
def rotl (w x n : Nat) : Nat := ((x <<< n) ||| (x >>> (w - n))) % 2 ^ w

/-- Rotate the `w`-bit word `x` right by `n`. -/
def rotr (w x n : Nat) : Nat := ((x >>> n) ||| (x <<< (w - n))) % 2 ^ w

/-- Merkle–Damgård padding: a `0x80` byte, zeros, and the bit length of the
message in `lenBytes` bytes, filling a whole number of `block`-byte blocks. -/
def mdPad (block lenBytes : Nat) (msg : List Nat) : List Nat :=
  let l := msg.length
  let z := (2 * block - 1 - lenBytes - l % block) % block
  msg ++ 128 :: List.replicate z 0 ++ bytesBE lenBytes (8 * l)

/-- Words of `n` bytes each, read big-endian. -/
def wordsBE (n : Nat) (blk : List Nat) : List Nat :=
  (chunks n blk.length blk).map beValue

/-! ## SHA-1 (`crypto/sha1`) -/

namespace sha1

/-- Chaining value of SHA-1: five 32-bit words. -/
structure State where
  a : Nat
  b : Nat
  c : Nat
  d : Nat
  e : Nat
deriving DecidableEq

/-- Initial chaining value. -/
def init : State := ⟨0x67452301, 0xEFCDAB89, 0x98BADCFE, 0x10325476, 0xC3D2E1F0⟩

/-- Message schedule: from the window of the last 16 words (oldest first),
the next `k` words. -/
def schedule : Nat → List Nat → List Nat
  | 0, _ => []
  | k + 1, w =>
    match w with
    | w0 :: w1 :: w2 :: w3 :: w4 :: w5 :: w6 :: w7 :: w8 :: w9 :: w10 :: w11 :: w12 ::
        w13 :: w14 :: w15 :: _ =>
      let x := rotl 32 (w13 ^^^ w8 ^^^ w2 ^^^ w0) 1
      x :: schedule k [w1, w2, w3, w4, w5, w6, w7, w8, w9, w10, w11, w12, w13, w14, w15, x]
    | _ => []

/-- Round function `f_t`. -/
def f (t b c d : Nat) : Nat :=
  if t < 20 then (b &&& c) ||| ((b ^^^ 0xFFFFFFFF) &&& d)
  else if t < 40 then b ^^^ c ^^^ d
  else if t < 60 then (b &&& c) ||| (b &&& d) ||| (c &&& d)
  else b ^^^ c ^^^ d

/-- Round constant `K_t`. -/
def K (t : Nat) : Nat :=
  if t < 20 then 0x5A827999 else if t < 40 then 0x6ED9EBA1
  else if t < 60 then 0x8F1BBCDC else 0xCA62C1D6

/-- The rounds, one per schedule word, starting at round `t`. -/
def rounds : Nat → List Nat → State → State
  | _, [], s => s
  | t, w :: ws, s =>
    let tmp := (rotl 32 s.a 5 + f t s.b s.c s.d + s.e + K t + w) % 2 ^ 32
    rounds (t + 1) ws ⟨tmp, s.a, rotl 32 s.b 30, s.c, s.d⟩

/-- Compression of one 64-byte block. -/
def block (h : State) (blk : List Nat) : State :=
  let w := wordsBE 4 blk
  let r := rounds 0 (w ++ schedule 64 w) h
  ⟨(h.a + r.a) % 2 ^ 32, (h.b + r.b) % 2 ^ 32, (h.c + r.c) % 2 ^ 32,
   (h.d + r.d) % 2 ^ 32, (h.e + r.e) % 2 ^ 32⟩

/-- The 20-byte SHA-1 digest of a message. -/
def Sum (msg : List Nat) : List Nat :=
  let p := mdPad 64 8 msg
  let h := (chunks 64 p.length p).foldl block init
  bytesBE 4 h.a ++ bytesBE 4 h.b ++ bytesBE 4 h.c ++ bytesBE 4 h.d ++ bytesBE 4 h.e

end sha1

/-! ## SHA-256 and SHA-512 (`crypto/sha256`, `crypto/sha512`) -/

namespace sha2

/-- Chaining value of SHA-2: eight words. -/
structure State where
  a : Nat
  b : Nat
  c : Nat
  d : Nat
  e : Nat
  f : Nat
  g : Nat
  h : Nat
deriving DecidableEq

/-- The parameters in which SHA-256 and SHA-512 differ: word size in bits,
rotation amounts of the four sigma functions, round constants and initial
chaining value. -/
structure Params where
  w : Nat
  s0 : Nat × Nat × Nat
  s1 : Nat × Nat × Nat
  S0 : Nat × Nat × Nat
  S1 : Nat × Nat × Nat
  K : List Nat
  init : State

/-- Small sigma: two rotations and a shift. -/
def ssig (w : Nat) (r : Nat × Nat × Nat) (x : Nat) : Nat :=
  rotr w x r.1 ^^^ rotr w x r.2.1 ^^^ (x >>> r.2.2)

/-- Capital sigma: three rotations. -/
def bsig (w : Nat) (r : Nat × Nat × Nat) (x : Nat) : Nat :=
  rotr w x r.1 ^^^ rotr w x r.2.1 ^^^ rotr w x r.2.2

/-- Message schedule: from the window of the last 16 words (oldest first),
the next `k` words. -/
def schedule (P : Params) : Nat → List Nat → List Nat
  | 0, _ => []
  | k + 1, win =>
    match win with
    | w0 :: w1 :: w2 :: w3 :: w4 :: w5 :: w6 :: w7 :: w8 :: w9 :: w10 :: w11 :: w12 ::
        w13 :: w14 :: w15 :: _ =>
      let x := (ssig P.w P.s1 w14 + w9 + ssig P.w P.s0 w1 + w0) % 2 ^ P.w
      x :: schedule P k [w1, w2, w3, w4, w5, w6, w7, w8, w9, w10, w11, w12, w13, w14, w15, x]
    | _ => []

/-- The rounds, one per pair of round constant and schedule word. -/
def rounds (P : Params) : List Nat → List Nat → State → State
  | k :: ks, w :: ws, s =>
    let m := 2 ^ P.w
    let ch := (s.e &&& s.f) ^^^ ((s.e ^^^ (m - 1)) &&& s.g)
    let maj := (s.a &&& s.b) ^^^ (s.a &&& s.c) ^^^ (s.b &&& s.c)
    let t1 := (s.h + bsig P.w P.S1 s.e + ch + k + w) % m
    let t2 := (bsig P.w P.S0 s.a + maj) % m
    rounds P ks ws ⟨(t1 + t2) % m, s.a, s.b, s.c, (s.d + t1) % m, s.e, s.f, s.g⟩
  | _, _, s => s

/-- Compression of one block of 16 words. -/
def block (P : Params) (h : State) (blk : List Nat) : State :=
  let w := wordsBE (P.w / 8) blk
  let r := rounds P P.K (w ++ schedule P (P.K.length - 16) w) h
  let m := 2 ^ P.w
  ⟨(h.a + r.a) % m, (h.b + r.b) % m, (h.c + r.c) % m, (h.d + r.d) % m,
   (h.e + r.e) % m, (h.f + r.f) % m, (h.g + r.g) % m, (h.h + r.h) % m⟩

/-- The digest: all eight words of the final chaining value, big-endian. -/
def Sum (P : Params) (msg : List Nat) : List Nat :=
  let n := P.w / 8
  let p := mdPad (16 * n) (2 * n) msg
  let h := (chunks (16 * n) p.length p).foldl (block P) P.init
  bytesBE n h.a ++ bytesBE n h.b ++ bytesBE n h.c ++ bytesBE n h.d ++
    bytesBE n h.e ++ bytesBE n h.f ++ bytesBE n h.g ++ bytesBE n h.h

/-- SHA-256. -/
def p256 : Params where
  w := 32
  s0 := (7, 18, 3)
  s1 := (17, 19, 10)
  S0 := (2, 13, 22)
  S1 := (6, 11, 25)
  K := [
    0x428a2f98, 0x71374491, 0xb5c0fbcf, 0xe9b5dba5, 0x3956c25b, 0x59f111f1, 0x923f82a4, 0xab1c5ed5,
    0xd807aa98, 0x12835b01, 0x243185be, 0x550c7dc3, 0x72be5d74, 0x80deb1fe, 0x9bdc06a7, 0xc19bf174,
    0xe49b69c1, 0xefbe4786, 0x0fc19dc6, 0x240ca1cc, 0x2de92c6f, 0x4a7484aa, 0x5cb0a9dc, 0x76f988da,
    0x983e5152, 0xa831c66d, 0xb00327c8, 0xbf597fc7, 0xc6e00bf3, 0xd5a79147, 0x06ca6351, 0x14292967,
    0x27b70a85, 0x2e1b2138, 0x4d2c6dfc, 0x53380d13, 0x650a7354, 0x766a0abb, 0x81c2c92e, 0x92722c85,
    0xa2bfe8a1, 0xa81a664b, 0xc24b8b70, 0xc76c51a3, 0xd192e819, 0xd6990624, 0xf40e3585, 0x106aa070,
    0x19a4c116, 0x1e376c08, 0x2748774c, 0x34b0bcb5, 0x391c0cb3, 0x4ed8aa4a, 0x5b9cca4f, 0x682e6ff3,
    0x748f82ee, 0x78a5636f, 0x84c87814, 0x8cc70208, 0x90befffa, 0xa4506ceb, 0xbef9a3f7, 0xc67178f2]
  init := ⟨0x6a09e667, 0xbb67ae85, 0x3c6ef372, 0xa54ff53a,
           0x510e527f, 0x9b05688c, 0x1f83d9ab, 0x5be0cd19⟩

/-- SHA-512. -/
def p512 : Params where
  w := 64
  s0 := (1, 8, 7)
  s1 := (19, 61, 6)
  S0 := (28, 34, 39)
  S1 := (14, 18, 41)
  K := [
    0x428a2f98d728ae22, 0x7137449123ef65cd, 0xb5c0fbcfec4d3b2f, 0xe9b5dba58189dbbc,
    0x3956c25bf348b538, 0x59f111f1b605d019, 0x923f82a4af194f9b, 0xab1c5ed5da6d8118,
    0xd807aa98a3030242, 0x12835b0145706fbe, 0x243185be4ee4b28c, 0x550c7dc3d5ffb4e2,
    0x72be5d74f27b896f, 0x80deb1fe3b1696b1, 0x9bdc06a725c71235, 0xc19bf174cf692694,
    0xe49b69c19ef14ad2, 0xefbe4786384f25e3, 0x0fc19dc68b8cd5b5, 0x240ca1cc77ac9c65,
    0x2de92c6f592b0275, 0x4a7484aa6ea6e483, 0x5cb0a9dcbd41fbd4, 0x76f988da831153b5,
    0x983e5152ee66dfab, 0xa831c66d2db43210, 0xb00327c898fb213f, 0xbf597fc7beef0ee4,
    0xc6e00bf33da88fc2, 0xd5a79147930aa725, 0x06ca6351e003826f, 0x142929670a0e6e70,
    0x27b70a8546d22ffc, 0x2e1b21385c26c926, 0x4d2c6dfc5ac42aed, 0x53380d139d95b3df,
    0x650a73548baf63de, 0x766a0abb3c77b2a8, 0x81c2c92e47edaee6, 0x92722c851482353b,
    0xa2bfe8a14cf10364, 0xa81a664bbc423001, 0xc24b8b70d0f89791, 0xc76c51a30654be30,
    0xd192e819d6ef5218, 0xd69906245565a910, 0xf40e35855771202a, 0x106aa07032bbd1b8,
    0x19a4c116b8d2d0c8, 0x1e376c085141ab53, 0x2748774cdf8eeb99, 0x34b0bcb5e19b48a8,
    0x391c0cb3c5c95a63, 0x4ed8aa4ae3418acb, 0x5b9cca4f7763e373, 0x682e6ff3d6b2b8a3,
    0x748f82ee5defb2fc, 0x78a5636f43172f60, 0x84c87814a1f0ab72, 0x8cc702081a6439ec,
    0x90befffa23631e28, 0xa4506cebde82bde9, 0xbef9a3f7b2c67915, 0xc67178f2e372532b,
    0xca273eceea26619c, 0xd186b8c721c0c207, 0xeada7dd6cde0eb1e, 0xf57d4f7fee6ed178,
    0x06f067aa72176fba, 0x0a637dc5a2c898a6, 0x113f9804bef90dae, 0x1b710b35131c471b,
    0x28db77f523047d84, 0x32caab7b40c72493, 0x3c9ebe0a15c9bebc, 0x431d67c49c100d4c,
    0x4cc5d4becb3e42b6, 0x597f299cfc657e2a, 0x5fcb6fab3ad6faec, 0x6c44198c4a475817]
  init := ⟨0x6a09e667f3bcc908, 0xbb67ae8584caa73b, 0x3c6ef372fe94f82b, 0xa54ff53a5f1d36f1,
           0x510e527fade682d1, 0x9b05688c2b3e6c1f, 0x1f83d9abfb41bd6b, 0x5be0cd19137e2179⟩

end sha2

/-! ## HMAC (`crypto/hmac`) -/

namespace hmac

/-- The hash functions `hmac.New` is given in `Generate`. -/
inductive Hash where
  | sha1
  | sha256
  | sha512
deriving DecidableEq

/-- Digest of a message under the hash function. -/
def Hash.sum : Hash → List Nat → List Nat
  | .sha1 => sha1.Sum
  | .sha256 => sha2.Sum sha2.p256
  | .sha512 => sha2.Sum sha2.p512

/-- Block size in bytes (`hash.Hash.BlockSize`). -/
def Hash.blockSize : Hash → Nat
  | .sha1 => 64
  | .sha256 => 64
  | .sha512 => 128

/-- Digest size in bytes (`hash.Hash.Size`). -/
def Hash.size : Hash → Nat
  | .sha1 => 20
  | .sha256 => 32
  | .sha512 => 64

/-- The digest `Sum(nil)` of `hmac.New(h, key)` after `Write(msg)`: a key longer
than a block is hashed first, the key is zero-padded to a block, and
`H(key ^ opad ‖ H(key ^ ipad ‖ msg))` is returned. -/
def Sum (h : Hash) (key msg : List Nat) : List Nat :=
  let key := if key.length > h.blockSize then h.sum key else key
  let k := key ++ List.replicate (h.blockSize - key.length) 0
  h.sum (k.map (· ^^^ 0x5c) ++ h.sum (k.map (· ^^^ 0x36) ++ msg))

end hmac

/-! ## Text (`unicode`, `strings`, `fmt`) -/

/-- UTF-8 encoding of one code point. -/
def utf8Encode (c : Char) : List Nat :=
  let n := c.toNat
  if n < 0x80 then [n]
  else if n < 0x800 then [0xC0 + n / 64, 0x80 + n % 64]
  else if n < 0x10000 then [0xE0 + n / 4096, 0x80 + n / 64 % 64, 0x80 + n % 64]
  else [0xF0 + n / 262144, 0x80 + n / 4096 % 64, 0x80 + n / 64 % 64, 0x80 + n % 64]

/-- The bytes of a Go string (`[]byte(s)`). -/
def bytesOf : List Char → List Nat
  | [] => []
  | c :: cs => utf8Encode c ++ bytesOf cs

/-- Byte length of a Go string (`len(s)`). -/
def len (s : List Char) : Nat := (bytesOf s).length

/-- Worker of `utf8Decode`: `need` continuation bytes are still to come for the
code point whose bits read so far are `acc`; `lo` is the least value its
encoding length admits. -/
def utf8DecodeFrom : Nat → Nat → Nat → List Nat → Option (List Char)
  | 0, _, _, [] => some []
  | _ + 1, _, _, [] => none
  | 0, _, _, b :: bs =>
    if b < 0x80 then (utf8DecodeFrom 0 0 0 bs).map (fun r => Char.ofNat b :: r)
    else if 0xC0 ≤ b ∧ b < 0xE0 then utf8DecodeFrom 1 (b - 0xC0) 0x80 bs
    else if 0xE0 ≤ b ∧ b < 0xF0 then utf8DecodeFrom 2 (b - 0xE0) 0x800 bs
    else if 0xF0 ≤ b ∧ b < 0xF8 then utf8DecodeFrom 3 (b - 0xF0) 0x10000 bs
    else none
  | need + 1, acc, lo, b :: bs =>
    if 0x80 ≤ b ∧ b < 0xC0 then
      if need = 0 then
        if lo ≤ acc * 64 + (b - 0x80) ∧ acc * 64 + (b - 0x80) < 0x110000 ∧
            ¬ (0xD800 ≤ acc * 64 + (b - 0x80) ∧ acc * 64 + (b - 0x80) < 0xE000) then
          (utf8DecodeFrom 0 0 0 bs).map (fun r => Char.ofNat (acc * 64 + (b - 0x80)) :: r)
        else none
      else utf8DecodeFrom need (acc * 64 + (b - 0x80)) lo bs
    else none

/-- The text whose UTF-8 encoding the bytes are, if they are the encoding of a
text: the Go string with these bytes, where the embedding has one. -/
def utf8Decode (bs : List Nat) : Option (List Char) := utf8DecodeFrom 0 0 0 bs

namespace unicode

/-- Go's `unicode.IsSpace`: the Latin-1 spaces and the `White_Space` table. -/
def IsSpace (r : Char) : Bool :=
  let n := r.toNat
  (9 ≤ n && n ≤ 13) || n == 0x20 || n == 0x85 || n == 0xA0 || n == 0x1680 ||
    (0x2000 ≤ n && n ≤ 0x200A) || n == 0x2028 || n == 0x2029 || n == 0x202F ||
    n == 0x205F || n == 0x3000

/-- Go's `unicode.ToUpper`: ASCII letters are handled directly, every other
code point is looked up in the Unicode case tables, which are the parameter
`tbl` here. -/
def ToUpper (tbl : Char → Char) (r : Char) : Char :=
  if r.toNat ≤ 0x7F then
    if 97 ≤ r.toNat ∧ r.toNat ≤ 122 then Char.ofNat (r.toNat - 32) else r
  else tbl r

end unicode

namespace strings

/-- Worker of `Fields`: `cur` is the field being read. -/
def fieldsFrom : List Char → List Char → List (List Char)
  | [], cur => if cur.isEmpty then [] else [cur]
  | c :: cs, cur =>
    if unicode.IsSpace c then
      if cur.isEmpty then fieldsFrom cs [] else cur :: fieldsFrom cs []
    else fieldsFrom cs (cur ++ [c])

/-- Go's `strings.Fields`: the maximal runs of non-space code points. -/
def Fields (s : List Char) : List (List Char) := fieldsFrom s []

/-- Go's `strings.Join`. -/
def Join (elems : List (List Char)) (sep : List Char) : List Char :=
  sep.intercalate elems

/-- Go's `strings.ToUpper`. -/
def ToUpper (tbl : Char → Char) (s : List Char) : List Char :=
  s.map (unicode.ToUpper tbl)

end strings

namespace fmt

/-- Decimal digits of `x`, most significant first; `fuel` bounds their number
(a `uint64` has at most 20). -/
def decimal : Nat → Nat → List Char
  | 0, _ => []
  | f + 1, x =>
    if x < 10 then [Nat.digitChar x] else decimal f (x / 10) ++ [Nat.digitChar (x % 10)]

/-- The verb `%0<width>d` applied to an unsigned integer: its decimal digits,
left-padded with zeros to `width` characters. -/
def zeroPad (width x : Nat) : List Char :=
  let ds := decimal 20 x
  List.replicate (width - ds.length) '0' ++ ds

end fmt

/-- Value of a string of decimal digits. -/
def decimalValue (s : List Char) : Nat :=
  s.foldl (fun acc c => acc * 10 + (c.toNat - 48)) 0

/-! ## Standard base32 (`encoding/base32`, `StdEncoding`) -/

namespace base32

/-- The alphabet of RFC 4648: the character of a 5-bit value. -/
def encodeStd (v : Nat) : Char :=
  if v < 26 then Char.ofNat (65 + v) else Char.ofNat (24 + v)

/-- The table `decodeMap`: the 5-bit value of a byte of the alphabet, `0xFF`
for every other byte. -/
def decodeMap (c : Nat) : Nat :=
  if 65 ≤ c ∧ c ≤ 90 then c - 65 else if 50 ≤ c ∧ c ≤ 55 then c - 24 else 0xFF

/-- The eight 5-bit groups `Encode` unpacks from a quantum of up to five
bytes (absent bytes count as zero). -/
def unpack (src : List Nat) : List Nat :=
  let s (i : Nat) := src.getD i 0
  [s 0 >>> 3,
   ((s 0 <<< 2) &&& 0x1F) ||| ((s 1 >>> 6) &&& 0x1F),
   (s 1 >>> 1) &&& 0x1F,
   ((s 1 <<< 4) &&& 0x1F) ||| ((s 2 >>> 4) &&& 0x1F),
   ((s 2 <<< 1) &&& 0x1F) ||| (s 3 >>> 7),
   (s 3 >>> 2) &&& 0x1F,
   ((s 3 <<< 3) &&& 0x1F) ||| (s 4 >>> 5),
   s 4 &&& 0x1F]

/-- Number of characters that carry data in the quantum of `n < 5` bytes;
the rest of the quantum is padding. -/
def dataChars (n : Nat) : Nat :=
  match n with
  | 1 => 2
  | 2 => 4
  | 3 => 5
  | 4 => 7
  | _ => 8

/-- `StdEncoding.EncodeToString`. -/
def EncodeToString : List Nat → List Char
  | [] => []
  | b0 :: b1 :: b2 :: b3 :: b4 :: rest =>
    (unpack [b0, b1, b2, b3, b4]).map encodeStd ++ EncodeToString rest
  | src =>
    ((unpack src).take (dataChars src.length)).map encodeStd ++
      List.replicate (8 - dataChars src.length) '='

/-- What reading one quantum in `decode` ends in. -/
inductive Quantum where
  /-- `return n, false, CorruptInputError(offset)` -/
  | corrupt (offset : Nat)
  /-- eight values were read (`dlen = 8`), `rest` is the remaining input -/
  | full (dbuf : List Nat) (rest : List Nat)
  /-- padding was met after `dlen` values (`end = true`) -/
  | padded (dlen : Nat) (dbuf : List Nat)
deriving DecidableEq

/-- The loop `for k := 0; k < 8-1-j; k++` of `decode`: the first `k` at which
`len(src) > k && src[k] != '='`, where `r` rounds remain. -/
def badPadding (src : List Nat) : Nat → Nat → Option Nat
  | 0, _ => none
  | r + 1, k =>
    if k < src.length ∧ src.getD k 0 ≠ 61 then some k else badPadding src r (k + 1)

/-- The loop `for j := 0; j < 8;` of `decode`, with `r = 8 - j` rounds left,
`olen` the length of the whole input and `dbuf` the values read so far. -/
def readQuantum (olen : Nat) : Nat → Nat → List Nat → List Nat → Quantum
  | 0, _, src, dbuf => .full dbuf src
  | r + 1, j, src, dbuf =>
    match src with
    | [] => .corrupt (olen - j)
    | c :: src =>
      if c = 61 ∧ 2 ≤ j ∧ src.length < 8 then
        if src.length + j < 8 - 1 then .corrupt olen
        else
          match badPadding src (8 - 1 - j) 0 with
          | some k => .corrupt (olen - src.length + k - 1)
          | none =>
            if j = 1 ∨ j = 3 ∨ j = 6 then .corrupt (olen - src.length - 1)
            else .padded j dbuf
      else if decodeMap c = 0xFF then .corrupt (olen - src.length - 1)
      else readQuantum olen r (j + 1) src (dbuf ++ [decodeMap c])

/-- The `switch dlen` of `decode`: the bytes packed from the 5-bit values of
one quantum. -/
def pack (dlen : Nat) (dbuf : List Nat) : List Nat :=
  let d (i : Nat) := dbuf.getD i 0
  let n := if dlen = 8 then 5 else if dlen = 7 then 4 else if dlen = 5 then 3
    else if dlen = 4 then 2 else if dlen = 2 then 1 else 0
  [((d 0 <<< 3) ||| (d 1 >>> 2)) % 256,
   ((d 1 <<< 6) ||| (d 2 <<< 1) ||| (d 3 >>> 4)) % 256,
   ((d 3 <<< 4) ||| (d 4 >>> 1)) % 256,
   ((d 4 <<< 7) ||| (d 5 <<< 2) ||| (d 6 >>> 3)) % 256,
   ((d 6 <<< 5) ||| d 7) % 256].take n

/-- The loop `for len(src) > 0 && !end` of `decode`; `out` are the bytes
decoded so far.  The result is the decoded bytes and the offset of a
`CorruptInputError`, if any.  Every round consumes input, so `fuel` at least
the length of `src` is never used up. -/
def decodeLoop (olen : Nat) : Nat → List Nat → List Nat → List Nat × Option Nat
  | 0, _, out => (out, none)
  | fuel + 1, src, out =>
    if src.isEmpty then (out, none)
    else
      match readQuantum olen 8 0 src [] with
      | .corrupt off => (out, some off)
      | .full dbuf rest => decodeLoop olen fuel rest (out ++ pack 8 dbuf)
      | .padded dlen dbuf => (out ++ pack dlen dbuf, none)

/-- `stripNewlines`: drops every `\r` and `\n`. -/
def stripNewlines (src : List Nat) : List Nat :=
  src.filter (fun c => !(c == 13 || c == 10))

/-- `StdEncoding.DecodeString`: the decoded bytes (those decoded before the
error, when there is one) and the offset of the `CorruptInputError`, if any. -/
def DecodeString (s : List Char) : List Nat × Option Nat :=
  let src := stripNewlines (bytesOf s)
  decodeLoop src.length src.length src []

end base32

/-! ## Case-insensitive comparison (`strings.EqualFold`) -/

namespace strings

/-- One step of Go's `strings.EqualFold`: the code points `sr` and `tr` are
equal under simple case folding.  Two ASCII code points are compared directly;
when one of them is above ASCII, Go walks the `unicode.SimpleFold` orbit of the
smaller one, which is the parameter `orbit` here. -/
def equalFoldRune (orbit : Char → Char → Bool) (sr tr : Char) : Bool :=
  if tr = sr then true
  else
    let lo := if tr.toNat < sr.toNat then tr else sr
    let hi := if tr.toNat < sr.toNat then sr else tr
    if hi.toNat < 0x80 then
      decide (65 ≤ lo.toNat ∧ lo.toNat ≤ 90 ∧ hi.toNat = lo.toNat + 32)
    else orbit lo hi

/-- Go's `strings.EqualFold`. -/
def EqualFold (orbit : Char → Char → Bool) : List Char → List Char → Bool
  | [], [] => true
  | sr :: s, tr :: t => equalFoldRune orbit sr tr && EqualFold orbit s t
  | _, _ => false

end strings

/-! ## Integers in text (`strconv`) -/

namespace strconv

/-- The field `Err` of a `*strconv.NumError`. -/
inductive ErrKind where
  /-- `ErrSyntax`: "invalid syntax" -/
  | invalid
  /-- `ErrRange`: "value out of range" -/
  | range
deriving DecidableEq

/-- The field `Func` of a `*strconv.NumError`. -/
inductive Func where
  | Atoi
  | ParseInt
deriving DecidableEq

/-- A `*strconv.NumError`. -/
structure NumError where
  Func : Func
  Err : ErrKind
deriving DecidableEq

/-- The value of a decimal digit, `none` for any other code point. -/
def digit? (c : Char) : Option Nat :=
  if 48 ≤ c.toNat ∧ c.toNat ≤ 57 then some (c.toNat - 48) else none

/-- The loop of `ParseUint(s, 10, 64)`; `n` is the value read so far. -/
def parseUintLoop : Nat → List Char → Except ErrKind Nat
  | n, [] => .ok n
  | n, c :: cs =>
    match digit? c with
    | none => .error .invalid
    | some d =>
      if n ≥ (2 ^ 64 - 1) / 10 + 1 then .error .range
      else if n * 10 + d > 2 ^ 64 - 1 then .error .range
      else parseUintLoop (n * 10 + d) cs

/-- `ParseUint(s, 10, 64)`. -/
def ParseUint (s : List Char) : Except ErrKind Nat :=
  if s = [] then .error .invalid else parseUintLoop 0 s

/-- `ParseInt(s, 10, 64)` up to the field `Func` of the error. -/
def parseInt64 (s : List Char) : Except ErrKind Int :=
  if s = [] then .error .invalid
  else
    let neg := s.head? = some '-'
    let s1 := if s.head? = some '+' ∨ s.head? = some '-' then s.tail else s
    match ParseUint s1 with
    | .error .invalid => .error .invalid
    | .error .range => .error .range
    | .ok un =>
      if ¬ neg ∧ un ≥ 2 ^ 63 then .error .range
      else if neg ∧ un > 2 ^ 63 then .error .range
      else .ok (if neg then -(un : Int) else (un : Int))

/-- `strconv.ParseInt(s, 10, 64)`. -/
def ParseInt (s : List Char) : Except NumError Int :=
  match parseInt64 s with
  | .ok v => .ok v
  | .error k => .error ⟨.ParseInt, k⟩

/-- The loop of the fast path of `Atoi`. -/
def atoiLoop : Nat → List Char → Option Nat
  | n, [] => some n
  | n, c :: cs =>
    match digit? c with
    | none => none
    | some d => atoiLoop (n * 10 + d) cs

/-- `strconv.Atoi` where `int` has 64 bits: a fast path for texts of fewer than
19 bytes, `ParseInt(s, 10, 0)` for the others. -/
def Atoi (s : List Char) : Except NumError Int :=
  if 0 < len s ∧ len s < 19 then
    let s1 := if s.head? = some '-' ∨ s.head? = some '+' then s.tail else s
    if s1 = [] then .error ⟨.Atoi, .invalid⟩
    else
      match atoiLoop 0 s1 with
      | none => .error ⟨.Atoi, .invalid⟩
      | some n => .ok (if s.head? = some '-' then -(n : Int) else (n : Int))
  else
    match parseInt64 s with
    | .ok v => .ok v
    | .error k => .error ⟨.Atoi, k⟩

end strconv

/-! ## URLs (`net/url`) -/

namespace url

/-- The errors of `url.Parse`. -/
inductive Error where
  /-- "net/url: invalid control character in URL" -/
  | invalidControlCharacter
  /-- "missing protocol scheme" -/
  | missingProtocolScheme
  /-- "first path segment in URL cannot contain colon" -/
  | firstPathSegmentColon
  /-- "net/url: invalid userinfo" -/
  | invalidUserinfo
  /-- "missing ']' in host" -/
  | missingBracket
  /-- "invalid port ... after host" -/
  | invalidPort
  /-- an `InvalidHostError` -/
  | invalidHost
  /-- an `EscapeError` -/
  | invalidEscape
  /-- No error of Go: the `%`-escapes of the URL give a byte string that is not
  the UTF-8 encoding of a text.  Go accepts it; a Go string of this kind has no
  counterpart in the embedding, and the URL is outside this model of `Parse`. -/
  | notText
deriving DecidableEq

/-- The type `url.Values`, a map from keys to lists of values, as the list of
the key-value pairs in the order in which `ParseQuery` adds them. -/
abbrev Values := List (List Char × List Char)

/-- `Values.Get`: the first value associated with the key, the empty string if
there is none. -/
def Values.Get : Values → List Char → List Char
  | [], _ => []
  | (k, v) :: rest, key => if k = key then v else Values.Get rest key

/-- What `ParseURI` reads of a `*url.URL`: the field `Host` and the value of
the method `Query()`. -/
structure URL where
  Host : List Char
  Query : Values
deriving DecidableEq

/-- The modes of `unescape` that differ in their checks or results. -/
inductive Mode where
  | host
  | zone
  | queryComponent
  | other
deriving DecidableEq

/-- `ishex`. -/
def ishex (c : Char) : Bool :=
  (48 ≤ c.toNat && c.toNat ≤ 57) || (97 ≤ c.toNat && c.toNat ≤ 102) ||
    (65 ≤ c.toNat && c.toNat ≤ 70)

/-- `unhex`. -/
def unhex (c : Char) : Nat :=
  if 48 ≤ c.toNat ∧ c.toNat ≤ 57 then c.toNat - 48
  else if 97 ≤ c.toNat ∧ c.toNat ≤ 102 then c.toNat - 97 + 10
  else if 65 ≤ c.toNat ∧ c.toNat ≤ 70 then c.toNat - 65 + 10
  else 0

/-- `shouldEscape(c, encodeHost)` for an ASCII byte `c`. -/
def shouldEscapeHost (c : Nat) : Bool :=
  if (97 ≤ c ∧ c ≤ 122) ∨ (65 ≤ c ∧ c ≤ 90) ∨ (48 ≤ c ∧ c ≤ 57) then false
  else if c ∈ [33, 36, 38, 39, 40, 41, 42, 43, 44, 59, 61, 58, 91, 93, 60, 62, 34] then false
  else if c ∈ [45, 95, 46, 126] then false
  else true

/-- The first loop of `unescape`, which checks the text: the error it returns,
if any. -/
def unescapeCheck (mode : Mode) : List Char → Option Error
  | [] => none
  | '%' :: a :: b :: rest =>
    if !(ishex a && ishex b) then some .invalidEscape
    else if mode = .host ∧ unhex a < 8 ∧ ¬ (a = '2' ∧ b = '5') then some .invalidEscape
    else if mode = .zone ∧ ¬ (a = '2' ∧ b = '5') ∧ unhex a * 16 + unhex b ≠ 32 ∧
        shouldEscapeHost (unhex a * 16 + unhex b) then some .invalidEscape
    else unescapeCheck mode rest
  | '%' :: _ => some .invalidEscape
  | c :: rest =>
    if (mode = .host ∨ mode = .zone) ∧ c.toNat < 0x80 ∧ shouldEscapeHost c.toNat then
      some .invalidHost
    else unescapeCheck mode rest

/-- The second loop of `unescape`, which builds the result from a text that
passed the check: the bytes of the result. -/
def unescapeBytes (mode : Mode) : List Char → List Nat
  | [] => []
  | '%' :: a :: b :: rest => (unhex a * 16 + unhex b) :: unescapeBytes mode rest
  | c :: rest =>
    (if c = '+' ∧ mode = .queryComponent then [0x20] else utf8Encode c) ++
      unescapeBytes mode rest

/-- `unescape`. -/
def unescape (mode : Mode) (s : List Char) : Except Error (List Char) :=
  match unescapeCheck mode s with
  | some e => .error e
  | none =>
    match utf8Decode (unescapeBytes mode s) with
    | some r => .ok r
    | none => .error .notText

/-- `strings.Cut` with a separator of one character: the text before the first
separator and the text after it (all of the text and nothing, if there is
none). -/
def cut (sep : Char) : List Char → List Char × List Char
  | [] => ([], [])
  | c :: cs => if c = sep then ([], cs) else ((cut sep cs).1.cons c, (cut sep cs).2)

/-- The text from the last occurrence of `sep` on, that occurrence left out;
`none` if there is no occurrence (`strings.LastIndex`). -/
def afterLast (sep : Char) : List Char → Option (List Char)
  | [] => none
  | c :: cs =>
    match afterLast sep cs with
    | some r => some r
    | none => if c = sep then some cs else none

/-- The text before the last occurrence of `sep`. -/
def beforeLast (sep : Char) (s : List Char) : List Char :=
  match afterLast sep s with
  | some r => s.take (s.length - r.length - 1)
  | none => s

/-- `getScheme`: the scheme and the rest; a text without scheme has the empty
scheme. -/
def getScheme (rawURL : List Char) : Nat → List Char → Except Error (List Char × List Char)
  | _, [] => .ok ([], rawURL)
  | i, c :: cs =>
    if (97 ≤ c.toNat ∧ c.toNat ≤ 122) ∨ (65 ≤ c.toNat ∧ c.toNat ≤ 90) then
      getScheme rawURL (i + 1) cs
    else if (48 ≤ c.toNat ∧ c.toNat ≤ 57) ∨ c = '+' ∨ c = '-' ∨ c = '.' then
      if i = 0 then .ok ([], rawURL) else getScheme rawURL (i + 1) cs
    else if c = ':' then
      if i = 0 then .error .missingProtocolScheme else .ok (rawURL.take i, cs)
    else .ok ([], rawURL)

/-- `validOptionalPort`. -/
def validOptionalPort : List Char → Bool
  | [] => true
  | c :: cs => c = ':' && cs.all (fun b => 48 ≤ b.toNat && b.toNat ≤ 57)

/-- `validUserinfo`. -/
def validUserinfo (s : List Char) : Bool :=
  s.all fun r =>
    (65 ≤ r.toNat && r.toNat ≤ 90) || (97 ≤ r.toNat && r.toNat ≤ 122) ||
    (48 ≤ r.toNat && r.toNat ≤ 57) ||
    r ∈ ['-', '.', '_', ':', '~', '!', '$', '&', '\'', '(', ')', '*', '+', ',', ';', '=',
      '%', '@']

/-- The index of the first occurrence of `%25` (`strings.Index`). -/
def indexZone : List Char → Option Nat
  | [] => none
  | c :: cs =>
    if (c :: cs).take 3 = ['%', '2', '5'] then some 0 else (indexZone cs).map (· + 1)

/-- `parseHost`, as in the releases of Go up to 1.25.1.  Later releases also
require the text between `[` and `]` to be an IPv6 address; a host in brackets
is never equal to `totp`, so `ParseURI` fails on it in either case. -/
def parseHost (host : List Char) : Except Error (List Char) :=
  if host.head? = some '[' then
    match afterLast ']' host with
    | none => .error .missingBracket
    | some colonPort =>
      if !validOptionalPort colonPort then .error .invalidPort
      else
        let i := host.length - colonPort.length - 1
        match indexZone (host.take i) with
        | some zone =>
          match unescape .host (host.take zone), unescape .zone ((host.take i).drop zone),
            unescape .host (host.drop i) with
          | .ok host1, .ok host2, .ok host3 => .ok (host1 ++ host2 ++ host3)
          | .error e, _, _ => .error e
          | _, .error e, _ => .error e
          | _, _, .error e => .error e
        | none => unescape .host host
  else
    match afterLast ':' host with
    | some port =>
      if !validOptionalPort (':' :: port) then .error .invalidPort
      else unescape .host host
    | none => unescape .host host

/-- `parseAuthority`, of which the host is kept. -/
def parseAuthority (authority : List Char) : Except Error (List Char) :=
  match afterLast '@' authority with
  | none => parseHost authority
  | some h =>
    match parseHost h with
    | .error e => .error e
    | .ok host =>
      let userinfo := beforeLast '@' authority
      if !validUserinfo userinfo then .error .invalidUserinfo
      else
        match unescapeCheck .other (cut ':' userinfo).1,
          unescapeCheck .other (cut ':' userinfo).2 with
        | some e, _ => .error e
        | none, some e => .error e
        | none, none => .ok host

/-- The pieces of a query between `&`. -/
def splitAmp : List Char → List Char → List (List Char)
  | [], cur => [cur]
  | c :: cs, cur => if c = '&' then cur :: splitAmp cs [] else splitAmp cs (cur ++ [c])

/-- The loop of `parseQuery` over the pieces: a piece that is empty, holds a
`;` or does not unescape is left out. -/
def parsePairs : List (List Char) → Except Error Values
  | [] => .ok []
  | piece :: rest =>
    match parsePairs rest with
    | .error e => .error e
    | .ok vs =>
      if ';' ∈ piece ∨ piece = [] then .ok vs
      else
        match unescapeCheck .queryComponent (cut '=' piece).1,
          unescapeCheck .queryComponent (cut '=' piece).2 with
        | none, none =>
          match utf8Decode (unescapeBytes .queryComponent (cut '=' piece).1),
            utf8Decode (unescapeBytes .queryComponent (cut '=' piece).2) with
          | some k, some v => .ok ((k, v) :: vs)
          | _, _ => .error .notText
        | _, _ => .ok vs

/-- `ParseQuery`, whose error the method `Query()` drops.  (Releases of Go that
bound the number of pairs of a query are not followed here: every pair is
kept.) -/
def parseQuery (rawQuery : List Char) : Except Error Values :=
  parsePairs (splitAmp rawQuery [])

/-- The function `parse(rawURL, false)` of `net/url`, as far as the fields
`Host` and `RawQuery` go: the pair of their values. -/
def parse (rawURL : List Char) : Except Error (List Char × List Char) :=
  if rawURL.any (fun c => c.toNat < 0x20 || c.toNat == 0x7F) then
    .error .invalidControlCharacter
  else if rawURL = ['*'] then .ok ([], [])
  else
    match getScheme rawURL 0 rawURL with
    | .error e => .error e
    | .ok (scheme, rest0) =>
      let force := rest0.getLast? = some '?' ∧ rest0.count '?' = 1
      let rest := if force then rest0.dropLast else (cut '?' rest0).1
      let rawQuery := if force then [] else (cut '?' rest0).2
      if rest.head? ≠ some '/' ∧ scheme ≠ [] then .ok ([], rawQuery)
      else if rest.head? ≠ some '/' ∧ ':' ∈ (cut '/' rest).1 then
        .error .firstPathSegmentColon
      else if (scheme ≠ [] ∨ rest.take 3 ≠ ['/', '/', '/']) ∧ rest.take 2 = ['/', '/'] then
        let authority := (rest.drop 2).takeWhile (· ≠ '/')
        let path := (rest.drop 2).dropWhile (· ≠ '/')
        match parseAuthority authority with
        | .error e => .error e
        | .ok host =>
          match unescapeCheck .other path with
          | some e => .error e
          | none => .ok (host, rawQuery)
      else
        match unescapeCheck .other rest with
        | some e => .error e
        | none => .ok ([], rawQuery)

/-- Go's `url.Parse` followed by the method `Query()`: the fragment is cut off,
the rest is parsed, the fragment is checked, and the query is read. -/
def Parse (rawURL : List Char) : Except Error URL :=
  match parse (cut '#' rawURL).1 with
  | .error e => .error e
  | .ok (host, rawQuery) =>
    match unescapeCheck .other (cut '#' rawURL).2 with
    | some e => .error e
    | none =>
      match parseQuery rawQuery with
      | .error e => .error e
      | .ok q => .ok ⟨host, q⟩

end url

/-! ## Results of calls -/

/-- The errors `Generate` returns. -/
inductive Error where
  /-- "no secret key provided" -/
  | noSecretKey
  /-- "bad secret key: illegal base32 data at input byte `offset`" -/
  | badSecretKey (offset : Nat)
  /-- "unable to compute HMAC: ..." -/
  | unableToComputeHMAC
  /-- "invalid algorithm. Please use any one of SHA1/SHA256/SHA512" -/
  | invalidAlgorithm
deriving DecidableEq

/-- Run-time panics. -/
inductive Panic where
  /-- integer divide by zero -/
  | divideByZero
  /-- index or slice bounds out of range -/
  | outOfRange
deriving DecidableEq

/-- What a call ends in: a value with a nil error, an error, or a panic. -/
inductive Result (α : Type) where
  | ok (v : α)
  | error (e : Error)
  | panic (p : Panic)
deriving DecidableEq

/-- The value of an `int64` expression whose mathematical value is `x`
(two's-complement wrap-around). -/
def wrapInt64 (x : Int) : Int := (x + 2 ^ 63) % 2 ^ 64 - 2 ^ 63

/-- The conversion `uint64(x)` of an `int64`. -/
def toUint64 (x : Int) : Nat := (x % 2 ^ 64).toNat

/-- The value `uint32(math.Pow10(n))`.  For `0 ≤ n ≤ 18` the float `10^n` is
exact and fits an `int64`; the conversion keeps its low 32 bits.  For `n < 0`
the float is below 1 and truncates to 0.  For `n ≥ 19` the float exceeds the
`int64` range, the conversion through `int64` gives `-2^63` (amd64) and the low
32 bits are 0. -/
def pow10Uint32 (n : Int) : Nat :=
  if n < 0 then 0 else if n ≤ 18 then 10 ^ n.toNat % 2 ^ 32 else 0

/-! ## Package `generator` -/

namespace generator

/-- The type `HashAlgorithm` is a string type. -/
abbrev HashAlgorithm := List Char

/-- The constant `SHA1`. -/
def SHA1 : HashAlgorithm := ['S', 'H', 'A', '1']

/-- The constant `SHA256`. -/
def SHA256 : HashAlgorithm := ['S', 'H', 'A', '2', '5', '6']

/-- The constant `SHA512`. -/
def SHA512 : HashAlgorithm := ['S', 'H', 'A', '5', '1', '2']

/-- `ToHashAlgorithm` converts a string into a `HashAlgorithm`; the empty
string gives `SHA1`. -/
def ToHashAlgorithm (tbl : Char → Char) (s : List Char) : HashAlgorithm :=
  if len s = 0 then SHA1 else strings.ToUpper tbl s

/-- The struct `GenerateOptions`. -/
structure GenerateOptions where
  Secret : List Char
  Counter : Int
  Digits : Int
  Algorithm : HashAlgorithm

/-- The `switch opts.Algorithm` of `Generate`: the hash handed to `hmac.New`,
`none` in the `default` case. -/
def selectHash (a : HashAlgorithm) : Option hmac.Hash :=
  if a = SHA1 then some .sha1
  else if a = SHA256 then some .sha256
  else if a = SHA512 then some .sha512
  else none

/-- `binary.BigEndian.Uint32` of four bytes. -/
def Uint32 (b0 b1 b2 b3 : Nat) : Nat :=
  b3 ||| (b2 <<< 8) ||| (b1 <<< 16) ||| (b0 <<< 24)

/-- Lines 79–83 of `Generate`: `offset := hash[len(hash)-1] & 0xF`,
`hash = hash[offset : offset+4]`, `hash[0] = hash[0] & 0x7F`,
`decimal := binary.BigEndian.Uint32(hash)`. -/
def truncate (hash : List Nat) : Result Nat :=
  match hash.getLast? with
  | none => .panic .outOfRange
  | some last =>
    let offset := last &&& 0xF
    if hash.length < offset + 4 then .panic .outOfRange
    else
      match (hash.drop offset).take 4 with
      | [b0, b1, b2, b3] => .ok (Uint32 (b0 &&& 0x7F) b1 b2 b3)
      | _ => .panic .outOfRange

/-- `Generate` generates a Time or Counter based OTP code. -/
def Generate (opts : GenerateOptions) : Result (List Char) :=
  if opts.Secret = [] then .error .noSecretKey
  else
    let counterbytes := bytesBE 8 (toUint64 opts.Counter)
    match base32.DecodeString opts.Secret with
    | (_, some offset) => .error (.badSecretKey offset)
    | (secretKey, none) =>
      match selectHash opts.Algorithm with
      | none => .error .invalidAlgorithm
      | some h =>
        let hash := hmac.Sum h secretKey counterbytes
        match truncate hash with
        | .error e => .error e
        | .panic p => .panic p
        | .ok decimal =>
          let m := pow10Uint32 opts.Digits
          if m = 0 then .panic .divideByZero
          else
            let otp := decimal % m
            .ok (fmt.zeroPad opts.Digits.toNat otp)

end generator

/-! ## Package `totp` -/

namespace totp

/-- `Options` represents Time-based OTP. -/
structure Options where
  Secret : List Char
  Digits : Int
  Algorithm : List Char
  Period : Int
  UnixTime : Int
deriving DecidableEq

/-- `computeCounter` calculates the counter value for TOTP; `now` is the
reading `time.Now().Unix()` of the wall clock. -/
def computeCounter (now : Int) (unixTime period : Int) : Result Int :=
  let t0 : Int := 0
  let t := if unixTime ≠ 0 then unixTime else wrapInt64 (now - t0)
  if period = 0 then .panic .divideByZero else .ok (wrapInt64 (t.tdiv period))

/-- `New` generates a TOTP code. -/
def New (tbl : Char → Char) (now : Int) (opts : Options) : Result (List Char) :=
  let opts := if opts.Digits = 0 then { opts with Digits := 6 } else opts
  let opts := if opts.Period = 0 then { opts with Period := 30 } else opts
  match computeCounter now opts.UnixTime opts.Period with
  | .error e => .error e
  | .panic p => .panic p
  | .ok counter =>
    generator.Generate {
      Secret := opts.Secret
      Counter := counter
      Digits := opts.Digits
      Algorithm := generator.ToHashAlgorithm tbl opts.Algorithm }

/-- The first lines of `ParseKey`, also written out in `ParseURI`: white space
removed, upper-cased, padded with `=` to a multiple of 8 bytes. -/
def normalize (tbl : Char → Char) (s : List Char) : List Char :=
  let clean := strings.ToUpper tbl (strings.Join (strings.Fields s) [])
  let n := len clean % 8
  if n ≠ 0 then clean ++ List.replicate (8 - n) '=' else clean

/-- `ParseKey` parses a key encoded as base32: whitespace is ignored, case is
normalized, and padding is added if required. -/
def ParseKey (tbl : Char → Char) (s : List Char) : List Nat × Option Nat :=
  base32.DecodeString (normalize tbl s)

/-- The errors `ParseURI` returns. -/
inductive ParseURIError where
  /-- the error of `url.Parse` -/
  | parse (e : url.Error)
  /-- "the only kind of the credential supported is: totp" -/
  | unsupportedKind
  /-- "secret cannot be empty" -/
  | secretEmpty
  /-- the error of `strconv.Atoi` or `strconv.ParseInt` -/
  | number (e : strconv.NumError)
deriving DecidableEq

/-- `ParseURI` parses an `otpauth` URI.  The parameters stand for the library:
`tbl` for the upper-case table above ASCII, `orbit` for the case-folding orbits
above ASCII, `parse` for `url.Parse` with the method `Query()`. -/
def ParseURI (tbl : Char → Char) (orbit : Char → Char → Bool)
    (parse : List Char → Except url.Error url.URL) (u : List Char) :
    Except ParseURIError Options :=
  match parse u with
  | .error e => .error (.parse e)
  | .ok uri =>
    if !strings.EqualFold orbit uri.Host "totp".toList then .error .unsupportedKind
    else
      let q := uri.Query
      if len (q.Get "secret".toList) = 0 then .error .secretEmpty
      else
        let secret := strings.ToUpper tbl (strings.Join (strings.Fields (q.Get "secret".toList)) [])
        let n := len secret % 8
        let secret := if n ≠ 0 then secret ++ List.replicate (8 - n) '=' else secret
        let algorithm := q.Get "algorithm".toList
        let v := q.Get "digits".toList
        match (if len v > 0 then strconv.Atoi v else .ok 6) with
        | .error e => .error (.number e)
        | .ok digits =>
          let v := q.Get "period".toList
          match (if len v > 0 then strconv.ParseInt v else .ok 30) with
          | .error e => .error (.number e)
          | .ok period =>
            .ok { Secret := secret, Digits := digits, Algorithm := algorithm, Period := period,
                  UnixTime := 0 }

end totp

/-! ## Notions of the specification -/

namespace rfc4226

/-- Dynamic truncation in the words of RFC 4226, section 5.3: the low-order
four bits of the last byte of the HMAC value are the offset, the four bytes
from the offset on are read as a number, and its last 31 bits are returned. -/
def DT (hs : List Nat) : Nat :=
  let offset := hs.getD (hs.length - 1) 0 % 16
  beValue ((hs.drop offset).take 4) % 2 ^ 31

end rfc4226

/-- The name under which an algorithm is selected. -/
def hmac.Hash.name : hmac.Hash → List Char
  | .sha1 => generator.SHA1
  | .sha256 => generator.SHA256
  | .sha512 => generator.SHA512

/-- A text without its trailing `=` characters. -/
def trimPadding (s : List Char) : List Char :=
  (s.reverse.dropWhile (· == '=')).reverse

/-- The integer a text denotes in decimal: an optional sign `+` or `-`, then one
or more digits `0` to `9` (the code points 48 to 57), the value within the
range of a 64-bit signed integer; `none` for every other text. -/
def integerValue (s : List Char) : Option Int :=
  let body := if s.head? = some '+' ∨ s.head? = some '-' then s.tail else s
  if body ≠ [] ∧ ∀ c ∈ body, 48 ≤ c.toNat ∧ c.toNat ≤ 57 then
    let v : Int := if s.head? = some '-' then -(decimalValue body : Int) else decimalValue body
    if -2 ^ 63 ≤ v ∧ v < 2 ^ 63 then some v else none
  else none

/-! # Theorems -/

/-! ## Counter derivation -/

theorem wrapInt64_of_range (x : Int) (h1 : -2 ^ 63 ≤ x) (h2 : x < 2 ^ 63) :
    wrapInt64 x = x := by
  unfold wrapInt64
  norm_num at h1 h2 ⊢
  omega

theorem tdiv_neg_of_pos (t p : Int) : t.tdiv p = -((-t).tdiv p) := by
  rw [Int.neg_tdiv, Int.neg_neg]

theorem tdiv_abs_le (t p : Int) (hp : 0 < p) :
    -|t| ≤ t.tdiv p ∧ t.tdiv p ≤ |t| := by
  rcases le_or_lt 0 t with ht | ht
  · rw [Int.tdiv_eq_ediv ht hp.le, abs_of_nonneg ht]
    exact ⟨by have := Int.ediv_nonneg ht hp.le; omega, Int.ediv_le_self p ht⟩
  · have hn : 0 ≤ -t := by omega
    rw [tdiv_neg_of_pos, Int.tdiv_eq_ediv hn hp.le, abs_of_neg ht]
    have h1 := Int.ediv_nonneg hn hp.le
    have h2 := Int.ediv_le_self p hn
    omega

theorem tdiv_mono (t1 t2 p : Int) (hp : 0 < p) (h : t1 ≤ t2) : t1.tdiv p ≤ t2.tdiv p := by
  rcases le_or_lt 0 t1 with h1 | h1
  · rw [Int.tdiv_eq_ediv h1 hp.le, Int.tdiv_eq_ediv (h1.trans h) hp.le]
    exact Int.ediv_le_ediv hp h
  · have hn1 : 0 ≤ -t1 := by omega
    rcases le_or_lt 0 t2 with h2 | h2
    · have a := Int.tdiv_nonneg h2 hp.le
      rw [tdiv_neg_of_pos t1, Int.tdiv_eq_ediv hn1 hp.le]
      have b := Int.ediv_nonneg hn1 hp.le
      omega
    · have hn2 : 0 ≤ -t2 := by omega
      rw [tdiv_neg_of_pos t1, tdiv_neg_of_pos t2, Int.tdiv_eq_ediv hn1 hp.le,
        Int.tdiv_eq_ediv hn2 hp.le]
      have := Int.ediv_le_ediv hp (show -t2 ≤ -t1 by omega)
      omega

theorem computeCounter_supplied (now t p : Int) (ht : t ≠ 0) (hp : 0 < p)
    (hlo : -2 ^ 63 ≤ t) (hhi : t < 2 ^ 63) :
    totp.computeCounter now t p = .ok (t.tdiv p) := by
  have hb := tdiv_abs_le t p hp
  have habs : |t| ≤ 2 ^ 63 := abs_le.mpr ⟨by omega, by omega⟩
  unfold totp.computeCounter
  simp only [ne_eq, ht, not_false_eq_true, if_true, hp.ne', if_false]
  congr 1
  rcases le_or_lt 0 t with h0 | h0
  · rw [abs_of_nonneg h0] at hb
    exact wrapInt64_of_range _ (by omega) (by omega)
  · rw [abs_of_neg h0] at hb
    have : (-t).tdiv p = -(t.tdiv p) := Int.neg_tdiv t p
    have hn : 0 ≤ -t := by omega
    have h3 := Int.tdiv_nonneg hn hp.le
    apply wrapInt64_of_range _ (by omega) (by omega)

theorem floor_rat_div (t p : Int) (hp : 0 < p) : ⌊(t : ℚ) / (p : ℚ)⌋ = t / p := by
  obtain ⟨n, rfl⟩ := Int.eq_ofNat_of_zero_le hp.le
  exact_mod_cast Rat.floor_intCast_div_natCast t n

/-- C8, counterexample: at reference time -1 and period 30 the counter is 0
(the quotient truncated toward zero), while the floor of -1/30 is -1. -/
theorem C8_counterexample :
    totp.computeCounter 0 (-1) 30 = .ok 0 ∧ ⌊((-1 : Int) : ℚ) / ((30 : Int) : ℚ)⌋ = -1 := by
  refine ⟨by decide, ?_⟩
  rw [floor_rat_div _ _ (by norm_num)]
  decide

/-- C8, amended: for every supplied non-zero 64-bit reference time `t` and
positive 64-bit period `p`, `computeCounter` returns the quotient of `t` by `p`
truncated toward zero; this is the floor of `t / p` whenever `t` is positive
(also when `t` is not a multiple of `p`) or `p` divides `t`. -/
theorem C8_computeCounter_truncates (now t p : Int) (ht : t ≠ 0) (hp : 0 < p)
    (hlo : -2 ^ 63 ≤ t) (hhi : t < 2 ^ 63) :
    totp.computeCounter now t p = .ok (t.tdiv p) ∧
    ((0 < t ∨ p ∣ t) → totp.computeCounter now t p = .ok ⌊(t : ℚ) / (p : ℚ)⌋) := by
  refine ⟨computeCounter_supplied now t p ht hp hlo hhi, ?_⟩
  intro h
  rw [computeCounter_supplied now t p ht hp hlo hhi, floor_rat_div t p hp]
  rcases h with h | h
  · rw [Int.tdiv_eq_ediv h.le hp.le]
  · rw [Int.tdiv_eq_ediv_of_dvd h]

/-- C8, witness: reference time 59 and period 30. -/
theorem C8_computeCounter_truncates_witness :
    totp.computeCounter 0 59 30 = .ok (Int.tdiv 59 30) ∧
    ((0 < (59 : Int) ∨ (30 : Int) ∣ 59) →
      totp.computeCounter 0 59 30 = .ok ⌊((59 : Int) : ℚ) / ((30 : Int) : ℚ)⌋) :=
  C8_computeCounter_truncates 0 59 30 (by decide) (by decide) (by decide) (by decide)

/-- C9, period monotonicity: for every positive 64-bit period `p` and supplied
non-zero 64-bit reference times `t1 ≤ t2`, both calls of `computeCounter`
return, and the counter of `t1` is at most the counter of `t2` (whatever the
wall clock reads at either call). -/
theorem C9_computeCounter_monotone (now1 now2 t1 t2 p : Int) (hp : 0 < p)
    (h1 : t1 ≠ 0) (h2 : t2 ≠ 0) (hle : t1 ≤ t2)
    (hlo : -2 ^ 63 ≤ t1) (hhi : t2 < 2 ^ 63) :
    ∃ c1 c2, totp.computeCounter now1 t1 p = .ok c1 ∧
      totp.computeCounter now2 t2 p = .ok c2 ∧ c1 ≤ c2 :=
  ⟨t1.tdiv p, t2.tdiv p,
    computeCounter_supplied now1 t1 p h1 hp hlo (by omega),
    computeCounter_supplied now2 t2 p h2 hp (by omega) hhi,
    tdiv_mono t1 t2 p hp hle⟩

/-- C9, witness: reference times -31 and 59, period 30, two wall-clock readings. -/
theorem C9_computeCounter_monotone_witness :
    ∃ c1 c2, totp.computeCounter 5 (-31) 30 = .ok c1 ∧
      totp.computeCounter 7 59 30 = .ok c2 ∧ c1 ≤ c2 :=
  C9_computeCounter_monotone 5 7 (-31) 59 30 (by decide) (by decide) (by decide)
    (by decide) (by decide) (by decide)

/-! ## Default filling -/

theorem ToHashAlgorithm_empty (tbl : Char → Char) :
    generator.ToHashAlgorithm tbl [] = generator.SHA1 := rfl

theorem ToHashAlgorithm_SHA1 (tbl : Char → Char) :
    generator.ToHashAlgorithm tbl generator.SHA1 = generator.SHA1 := rfl

theorem New_eq (tbl : Char → Char) (now : Int) (o : totp.Options) :
    totp.New tbl now o =
      match totp.computeCounter now o.UnixTime (if o.Period = 0 then 30 else o.Period) with
      | .error e => .error e
      | .panic q => .panic q
      | .ok c =>
        generator.Generate ⟨o.Secret, c, if o.Digits = 0 then 6 else o.Digits,
          generator.ToHashAlgorithm tbl o.Algorithm⟩ := by
  unfold totp.New
  by_cases hd : o.Digits = 0 <;> by_cases hp : o.Period = 0 <;> simp [hd, hp]

/-- C10, default filling: for every secret `s` and reference time `t`, `New`
with `Digits = 0`, `Period = 0` and `Algorithm = ""` returns exactly what it
returns with `Digits = 6`, `Algorithm = "SHA1"`, `Period = 30`; and each of the
three defaults applies whatever the other two fields are. -/
theorem C10_default_filling (tbl : Char → Char) (now : Int) (s : List Char) (t : Int) :
    totp.New tbl now ⟨s, 0, [], 0, t⟩ = totp.New tbl now ⟨s, 6, generator.SHA1, 30, t⟩ ∧
    (∀ a p, totp.New tbl now ⟨s, 0, a, p, t⟩ = totp.New tbl now ⟨s, 6, a, p, t⟩) ∧
    (∀ d p, totp.New tbl now ⟨s, d, [], p, t⟩ = totp.New tbl now ⟨s, d, generator.SHA1, p, t⟩) ∧
    (∀ d a, totp.New tbl now ⟨s, d, a, 0, t⟩ = totp.New tbl now ⟨s, d, a, 30, t⟩) := by
  refine ⟨?_, ?_, ?_, ?_⟩
  · simp [New_eq, ToHashAlgorithm_empty, ToHashAlgorithm_SHA1]
  · intro a p
    simp [New_eq]
  · intro d p
    simp [New_eq, ToHashAlgorithm_empty, ToHashAlgorithm_SHA1]
  · intro d a
    simp [New_eq]

/-! ## Bytes of digests -/

theorem bytesBE_length (n x : Nat) : (bytesBE n x).length = n := by
  induction n with
  | zero => rfl
  | succ k ih => simp [bytesBE, ih]

theorem bytesBE_lt (n x : Nat) : ∀ b ∈ bytesBE n x, b < 256 := by
  induction n with
  | zero => simp [bytesBE]
  | succ k ih =>
    intro b hb
    simp only [bytesBE, List.mem_cons] at hb
    rcases hb with rfl | hb
    · exact Nat.mod_lt _ (by norm_num)
    · exact ih b hb

theorem sha1_Sum_length (msg : List Nat) : (sha1.Sum msg).length = 20 := by
  simp [sha1.Sum, bytesBE_length]

theorem sha1_Sum_lt (msg : List Nat) : ∀ b ∈ sha1.Sum msg, b < 256 := by
  intro b hb
  simp only [sha1.Sum, List.mem_append] at hb
  rcases hb with (((hb | hb) | hb) | hb) | hb <;> exact bytesBE_lt _ _ b hb

theorem sha2_Sum_length (P : sha2.Params) (msg : List Nat) :
    (sha2.Sum P msg).length = 8 * (P.w / 8) := by
  simp only [sha2.Sum, List.length_append, bytesBE_length]
  omega

theorem sha2_Sum_lt (P : sha2.Params) (msg : List Nat) : ∀ b ∈ sha2.Sum P msg, b < 256 := by
  intro b hb
  simp only [sha2.Sum, List.mem_append] at hb
  rcases hb with ((((((hb | hb) | hb) | hb) | hb) | hb) | hb) | hb <;>
    exact bytesBE_lt _ _ b hb

theorem hash_sum_length (h : hmac.Hash) (msg : List Nat) : (h.sum msg).length = h.size := by
  cases h
  · exact sha1_Sum_length msg
  · exact sha2_Sum_length sha2.p256 msg
  · exact sha2_Sum_length sha2.p512 msg

theorem hash_sum_lt (h : hmac.Hash) (msg : List Nat) : ∀ b ∈ h.sum msg, b < 256 := by
  cases h
  · exact sha1_Sum_lt msg
  · exact sha2_Sum_lt sha2.p256 msg
  · exact sha2_Sum_lt sha2.p512 msg

theorem hmac_Sum_length (h : hmac.Hash) (key msg : List Nat) :
    (hmac.Sum h key msg).length = h.size :=
  hash_sum_length h _

theorem hmac_Sum_lt (h : hmac.Hash) (key msg : List Nat) :
    ∀ b ∈ hmac.Sum h key msg, b < 256 :=
  hash_sum_lt h _

theorem hash_size_cases (h : hmac.Hash) : h.size = 20 ∨ h.size = 32 ∨ h.size = 64 := by
  cases h <;> simp [hmac.Hash.size]

/-! ## Dynamic truncation -/

theorem getD_lt_of_all_lt (l : List Nat) (i : Nat) (hl : ∀ b ∈ l, b < 256) :
    l.getD i 0 < 256 := by
  rcases Nat.lt_or_ge i l.length with h | h
  · rw [List.getD_eq_getElem l 0 h]
    exact hl _ (List.getElem_mem h)
  · rw [List.getD_eq_default l 0 h]
    norm_num

theorem take4_drop (l : List Nat) (o : Nat) (h : o + 4 ≤ l.length) :
    (l.drop o).take 4 = [l.getD o 0, l.getD (o + 1) 0, l.getD (o + 2) 0, l.getD (o + 3) 0] := by
  have e0 : l.getD o 0 = l[o] := List.getD_eq_getElem l 0 (by omega)
  have e1 : l.getD (o + 1) 0 = l[o + 1] := List.getD_eq_getElem l 0 (by omega)
  have e2 : l.getD (o + 2) 0 = l[o + 2] := List.getD_eq_getElem l 0 (by omega)
  have e3 : l.getD (o + 3) 0 = l[o + 3] := List.getD_eq_getElem l 0 (by omega)
  rw [e0, e1, e2, e3]
  apply List.ext_getElem
  · simp; omega
  · intro i h1 h2
    simp only [List.length_cons, List.length_nil] at h2
    have h3 : i = 0 ∨ i = 1 ∨ i = 2 ∨ i = 3 := by omega
    rcases h3 with rfl | rfl | rfl | rfl <;> simp

theorem Uint32_lt (b0 b1 b2 b3 : Nat) (h1 : b1 < 256) (h2 : b2 < 256) (h3 : b3 < 256) :
    generator.Uint32 (b0 &&& 0x7F) b1 b2 b3 < 2 ^ 31 := by
  unfold generator.Uint32
  have h0 : b0 &&& 0x7F ≤ 0x7F := Nat.and_le_right
  simp only [Nat.shiftLeft_eq]
  refine Nat.or_lt_two_pow (Nat.or_lt_two_pow (Nat.or_lt_two_pow ?_ ?_) ?_) ?_ <;> omega

/-- The value the claim writes: the four bytes at the offset, the top bit of the
first one cleared, most significant first. -/
theorem Uint32_eq_shifts (b0 b1 b2 b3 : Nat) :
    generator.Uint32 (b0 &&& 0x7F) b1 b2 b3 =
      (((b0 &&& 0x7F) <<< 24) ||| (b1 <<< 16) ||| (b2 <<< 8) ||| b3) := by
  unfold generator.Uint32
  generalize (b0 &&& 0x7F) <<< 24 = x
  generalize b1 <<< 16 = y
  generalize b2 <<< 8 = z
  rw [Nat.lor_comm ((b3 ||| z) ||| y) x, Nat.lor_comm (b3 ||| z) y, Nat.lor_comm b3 z,
    Nat.lor_assoc (x ||| y) z b3, Nat.lor_assoc x y (z ||| b3)]

theorem truncate_eq (hs : List Nat) (hlen : 20 ≤ hs.length) :
    generator.truncate hs =
      .ok (generator.Uint32 (hs.getD (hs.getD (hs.length - 1) 0 &&& 0xF) 0 &&& 0x7F)
        (hs.getD ((hs.getD (hs.length - 1) 0 &&& 0xF) + 1) 0)
        (hs.getD ((hs.getD (hs.length - 1) 0 &&& 0xF) + 2) 0)
        (hs.getD ((hs.getD (hs.length - 1) 0 &&& 0xF) + 3) 0)) := by
  have hlast : hs.getLast? = some (hs.getD (hs.length - 1) 0) := by
    rw [List.getLast?_eq_getElem?, List.getD_eq_getElem?_getD]
    have : hs.length - 1 < hs.length := by omega
    simp [List.getElem?_eq_getElem this]
  have ho : hs.getD (hs.length - 1) 0 &&& 0xF ≤ 0xF := Nat.and_le_right
  unfold generator.truncate
  rw [hlast]
  simp only []
  rw [if_neg (by omega), take4_drop hs _ (by omega)]

/-! ## Decimal rendering -/

theorem digitChar_toNat (d : Nat) (h : d < 10) : (Nat.digitChar d).toNat = 48 + d := by
  interval_cases d <;> rfl

theorem digitChar_isDigit (d : Nat) (h : d < 10) : (Nat.digitChar d).isDigit = true := by
  interval_cases d <;> rfl

theorem decimalValue_append (s : List Char) (c : Char) :
    decimalValue (s ++ [c]) = decimalValue s * 10 + (c.toNat - 48) := by
  simp [decimalValue, List.foldl_append]

theorem decimalValue_zeros (k : Nat) (s : List Char) :
    decimalValue (List.replicate k '0' ++ s) = decimalValue s := by
  induction k with
  | zero => simp
  | succ k ih =>
    have h0 : ('0' : Char).toNat - 48 = 0 := by decide
    simp only [decimalValue, List.replicate_succ, List.cons_append, List.foldl_cons] at ih ⊢
    rw [h0]
    exact ih

theorem decimal_value (f x : Nat) (h : x < 10 ^ f) : decimalValue (fmt.decimal f x) = x := by
  induction f generalizing x with
  | zero =>
    have : x = 0 := by simpa using h
    subst this
    rfl
  | succ f ih =>
    unfold fmt.decimal
    split_ifs with h10
    · simp [decimalValue, digitChar_toNat x h10]
    · have hx : x / 10 < 10 ^ f := by
        rw [Nat.div_lt_iff_lt_mul (by norm_num)]
        rw [pow_succ] at h
        exact h
      rw [decimalValue_append, ih _ hx, digitChar_toNat _ (Nat.mod_lt _ (by norm_num))]
      omega

theorem decimal_isDigit (f x : Nat) : ∀ c ∈ fmt.decimal f x, c.isDigit = true := by
  induction f generalizing x with
  | zero => simp [fmt.decimal]
  | succ f ih =>
    intro c hc
    unfold fmt.decimal at hc
    split_ifs at hc with h10
    · rw [List.mem_singleton] at hc
      subst hc
      exact digitChar_isDigit x h10
    · rw [List.mem_append, List.mem_singleton] at hc
      rcases hc with hc | rfl
      · exact ih _ c hc
      · exact digitChar_isDigit _ (Nat.mod_lt _ (by norm_num))

theorem decimal_length_le (f e x : Nat) (hx : x < 10 ^ e) (he : 0 < e) (hf : e ≤ f) :
    (fmt.decimal f x).length ≤ e := by
  induction f generalizing e x with
  | zero => omega
  | succ f ih =>
    unfold fmt.decimal
    split_ifs with h10
    · simpa using he
    · have he2 : 2 ≤ e := by
        by_contra hlt
        have : e = 1 := by omega
        subst this
        omega
      have hx2 : x / 10 < 10 ^ (e - 1) := by
        rw [Nat.div_lt_iff_lt_mul (by norm_num), ← pow_succ]
        rwa [Nat.sub_add_cancel (by omega)]
      have := ih (e - 1) (x / 10) hx2 (by omega) (by omega)
      simp only [List.length_append, List.length_singleton]
      omega

theorem zeroPad_value (w x : Nat) (hx : x < 10 ^ 20) : decimalValue (fmt.zeroPad w x) = x := by
  unfold fmt.zeroPad
  simp only []
  rw [decimalValue_zeros, decimal_value 20 x hx]

theorem zeroPad_isDigit (w x : Nat) : ∀ c ∈ fmt.zeroPad w x, c.isDigit = true := by
  intro c hc
  unfold fmt.zeroPad at hc
  simp only [List.mem_append] at hc
  rcases hc with hc | hc
  · rw [(List.mem_replicate.mp hc).2]
    rfl
  · exact decimal_isDigit 20 x c hc

theorem zeroPad_length (w x : Nat) (hx : x < 10 ^ w) (hw : 0 < w) (hw20 : w ≤ 20) :
    (fmt.zeroPad w x).length = w := by
  have := decimal_length_le 20 w x hx hw hw20
  unfold fmt.zeroPad
  simp only [List.length_append, List.length_replicate]
  omega

/-! ## The modulus -/

theorem pow10Uint32_small (d : Int) (h1 : 1 ≤ d) (h9 : d ≤ 9) :
    pow10Uint32 d = 10 ^ d.toNat := by
  interval_cases d <;> decide

theorem pow10Uint32_ten : pow10Uint32 10 = 1410065408 := by decide

theorem pow10Uint32_le (d : Int) (h1 : 1 ≤ d) (h10 : d ≤ 10) :
    0 < pow10Uint32 d ∧ pow10Uint32 d ≤ 10 ^ d.toNat := by
  interval_cases d <;> decide

/-! ## `Generate` on a well-formed request -/

theorem Generate_ok (o : generator.GenerateOptions) (key : List Nat) (h : hmac.Hash)
    (hne : o.Secret ≠ []) (hkey : base32.DecodeString o.Secret = (key, none))
    (halg : generator.selectHash o.Algorithm = some h) (hm : pow10Uint32 o.Digits ≠ 0) :
    ∃ v, generator.truncate (hmac.Sum h key (bytesBE 8 (toUint64 o.Counter))) = .ok v ∧
      v < 2 ^ 31 ∧
      generator.Generate o = .ok (fmt.zeroPad o.Digits.toNat (v % pow10Uint32 o.Digits)) := by
  have hlen := hmac_Sum_length h key (bytesBE 8 (toUint64 o.Counter))
  have hlt := hmac_Sum_lt h key (bytesBE 8 (toUint64 o.Counter))
  have h20 : 20 ≤ (hmac.Sum h key (bytesBE 8 (toUint64 o.Counter))).length := by
    rcases hash_size_cases h with e | e | e <;> omega
  refine ⟨_, truncate_eq _ h20, ?_, ?_⟩
  · exact Uint32_lt _ _ _ _ (getD_lt_of_all_lt _ _ hlt) (getD_lt_of_all_lt _ _ hlt)
      (getD_lt_of_all_lt _ _ hlt)
  · unfold generator.Generate
    rw [if_neg hne, hkey]
    simp only [halg, truncate_eq _ h20, if_neg hm]

/-! ## Bit operations as arithmetic -/

theorem shl_or_eq_add (a b i : Nat) (h : b < 2 ^ i) : (a <<< i) ||| b = a * 2 ^ i + b := by
  rw [Nat.shiftLeft_eq, Nat.mul_comm, ← Nat.mul_add_lt_is_or h]

theorem and_0x7F (x : Nat) : x &&& 0x7F = x % 128 :=
  Nat.and_pow_two_sub_one_eq_mod x 7

theorem and_0xF (x : Nat) : x &&& 0xF = x % 16 :=
  Nat.and_pow_two_sub_one_eq_mod x 4

theorem Uint32_eq_beValue (b0 b1 b2 b3 : Nat) (h1 : b1 < 256) (h2 : b2 < 256)
    (h3 : b3 < 256) :
    generator.Uint32 (b0 &&& 0x7F) b1 b2 b3 = beValue [b0, b1, b2, b3] % 2 ^ 31 := by
  rw [Uint32_eq_shifts, and_0x7F]
  have e1 : ((b0 % 128) <<< 24) ||| (b1 <<< 16) = (b0 % 128) * 2 ^ 24 + b1 * 2 ^ 16 := by
    rw [Nat.shiftLeft_eq b1, shl_or_eq_add _ _ _ (by omega)]
  have e2 : ((b0 % 128) * 2 ^ 24 + b1 * 2 ^ 16) ||| (b2 <<< 8)
      = ((b0 % 128) * 2 ^ 16 + b1 * 2 ^ 8 + b2) * 2 ^ 8 := by
    have : (b0 % 128) * 2 ^ 24 + b1 * 2 ^ 16 = ((b0 % 128) * 2 ^ 8 + b1) <<< 16 := by
      rw [Nat.shiftLeft_eq]; ring
    rw [this, Nat.shiftLeft_eq b2, shl_or_eq_add _ _ _ (by omega)]
    ring
  rw [e1, e2]
  have e3 : ((b0 % 128) * 2 ^ 16 + b1 * 2 ^ 8 + b2) * 2 ^ 8 ||| b3
      = ((b0 % 128) * 2 ^ 16 + b1 * 2 ^ 8 + b2) * 2 ^ 8 + b3 := by
    have := shl_or_eq_add ((b0 % 128) * 2 ^ 16 + b1 * 2 ^ 8 + b2) b3 8 (by omega)
    rwa [Nat.shiftLeft_eq] at this
  rw [e3]
  simp only [beValue, List.foldl_cons, List.foldl_nil]
  omega

theorem truncate_eq_DT (hs : List Nat) (hlen : 20 ≤ hs.length) (hlt : ∀ b ∈ hs, b < 256) :
    generator.truncate hs = .ok (rfc4226.DT hs) := by
  rw [truncate_eq hs hlen]
  have ho : hs.getD (hs.length - 1) 0 % 16 < 16 := Nat.mod_lt _ (by norm_num)
  unfold rfc4226.DT
  simp only [and_0xF]
  rw [take4_drop hs _ (by omega), ← and_0xF, Uint32_eq_beValue _ _ _ _
    (getD_lt_of_all_lt _ _ hlt) (getD_lt_of_all_lt _ _ hlt) (getD_lt_of_all_lt _ _ hlt)]

/-! ## The algorithm name -/

theorem utf8Encode_ne_nil (c : Char) : utf8Encode c ≠ [] := by
  unfold utf8Encode
  simp only []
  split_ifs <;> simp

theorem len_eq_zero_iff (s : List Char) : len s = 0 ↔ s = [] := by
  cases s with
  | nil => simp [len, bytesOf]
  | cons c cs =>
    have := utf8Encode_ne_nil c
    simp [len, bytesOf, this]

theorem unicode_ToUpper_of_ascii (tbl : Char → Char) (c : Char) (h : c.toUpper.toNat ≤ 0x7F) :
    unicode.ToUpper tbl c = c.toUpper := by
  unfold Char.toUpper at h ⊢
  unfold unicode.ToUpper
  simp only [ge_iff_le] at h ⊢
  by_cases hl : 97 ≤ c.toNat ∧ c.toNat ≤ 122
  · rw [if_pos hl, if_pos (by omega)]
  · rw [if_neg hl] at h ⊢
    rw [if_pos h]

theorem strings_ToUpper_of_ascii (tbl : Char → Char) (s : List Char)
    (h : ∀ c ∈ s.map Char.toUpper, c.toNat ≤ 0x7F) :
    strings.ToUpper tbl s = s.map Char.toUpper := by
  unfold strings.ToUpper
  apply List.map_congr_left
  intro c hc
  exact unicode_ToUpper_of_ascii tbl c (h _ (List.mem_map_of_mem _ hc))

theorem ToHashAlgorithm_of_name (tbl : Char → Char) (a : List Char) (h : hmac.Hash)
    (ha : a.map Char.toUpper = h.name) : generator.ToHashAlgorithm tbl a = h.name := by
  have hascii : ∀ c ∈ a.map Char.toUpper, c.toNat ≤ 0x7F := by
    rw [ha]
    cases h <;> decide
  have hne : a ≠ [] := by
    rintro rfl
    cases h <;> simp [hmac.Hash.name, generator.SHA1, generator.SHA256, generator.SHA512] at ha
  unfold generator.ToHashAlgorithm
  rw [if_neg (by rwa [len_eq_zero_iff]), strings_ToUpper_of_ascii tbl a hascii, ha]

theorem selectHash_name (h : hmac.Hash) : generator.selectHash h.name = some h := by
  cases h <;> decide

/-! ## Codes of `New` and `Generate` -/

theorem toUint64_wrapInt64 (x : Int) : toUint64 (wrapInt64 x) = toUint64 x := by
  unfold toUint64 wrapInt64
  congr 1
  norm_num
  omega

theorem computeCounter_supplied_wrap (now t p : Int) (ht : t ≠ 0) (hp : p ≠ 0) :
    totp.computeCounter now t p = .ok (wrapInt64 (t.tdiv p)) := by
  unfold totp.computeCounter
  simp only [ne_eq, ht, not_false_eq_true, if_true, hp, if_false]

/-- C1, counterexample: the empty secret is valid standard base32 (it decodes,
without error, to no bytes), yet `New` returns the missing-secret error for it
and no code. -/
theorem C1_counterexample :
    base32.DecodeString [] = ([], none) ∧
    totp.New id 0 ⟨[], 8, generator.SHA1, 30, 59⟩ = .error .noSecretKey := by
  decide

/-- C1, amended: for every Options with a non-empty secret that is valid
standard base32 (decoding to `key`), an algorithm name equal to SHA1, SHA256 or
SHA512 up to the case of its letters, a non-zero UnixTime `t`, a positive
Period `p` and Digits `d` in 1..9, `New` returns without error the RFC 6238
code: the `d`-character zero-padded decimal of
`DT(HMAC(key, 8-byte big-endian (t / p))) mod 10^d`, where `t / p` is the
quotient truncated toward zero. -/
theorem C1_New_rfc6238 (tbl : Char → Char) (now : Int) (o : totp.Options) (key : List Nat)
    (h : hmac.Hash) (hne : o.Secret ≠ [])
    (hkey : base32.DecodeString o.Secret = (key, none))
    (halg : o.Algorithm.map Char.toUpper = h.name)
    (ht : o.UnixTime ≠ 0) (hp : 0 < o.Period) (hd1 : 1 ≤ o.Digits) (hd9 : o.Digits ≤ 9) :
    ∃ code, totp.New tbl now o = .ok code ∧
      code = fmt.zeroPad o.Digits.toNat
        (rfc4226.DT (hmac.Sum h key (bytesBE 8 (toUint64 (o.UnixTime.tdiv o.Period))))
          % 10 ^ o.Digits.toNat) ∧
      (code.length : Int) = o.Digits ∧ (∀ c ∈ code, c.isDigit = true) ∧
      decimalValue code =
        rfc4226.DT (hmac.Sum h key (bytesBE 8 (toUint64 (o.UnixTime.tdiv o.Period))))
          % 10 ^ o.Digits.toNat := by
  have hd0 : o.Digits ≠ 0 := by omega
  have hm := pow10Uint32_small o.Digits hd1 hd9
  have hpos : 0 < 10 ^ o.Digits.toNat := Nat.pos_pow_of_pos _ (by norm_num)
  obtain ⟨v, hv, -, hG⟩ := Generate_ok
    ⟨o.Secret, wrapInt64 (o.UnixTime.tdiv o.Period), o.Digits,
      generator.ToHashAlgorithm tbl o.Algorithm⟩ key h hne hkey
    (by rw [ToHashAlgorithm_of_name tbl _ h halg]; exact selectHash_name h)
    (by rw [hm]; omega)
  simp only [toUint64_wrapInt64] at hv hG
  have h20 : 20 ≤ (hmac.Sum h key (bytesBE 8 (toUint64 (o.UnixTime.tdiv o.Period)))).length := by
    rw [hmac_Sum_length]
    rcases hash_size_cases h with e | e | e <;> omega
  rw [truncate_eq_DT _ h20 (hmac_Sum_lt _ _ _)] at hv
  injection hv with hv
  subst hv
  rw [hm] at hG
  have hlt : rfc4226.DT (hmac.Sum h key (bytesBE 8 (toUint64 (o.UnixTime.tdiv o.Period))))
      % 10 ^ o.Digits.toNat < 10 ^ o.Digits.toNat := Nat.mod_lt _ hpos
  have hw : 0 < o.Digits.toNat ∧ o.Digits.toNat ≤ 9 := by omega
  refine ⟨_, ?_, rfl, ?_, zeroPad_isDigit _ _, ?_⟩
  · rw [New_eq, if_neg hp.ne', if_neg hd0, computeCounter_supplied_wrap now _ _ ht hp.ne']
    exact hG
  · rw [zeroPad_length _ _ hlt hw.1 (by omega)]
    omega
  · apply zeroPad_value
    calc _ < 10 ^ o.Digits.toNat := hlt
      _ ≤ 10 ^ 20 := Nat.pow_le_pow_right (by norm_num) (by omega)

set_option maxRecDepth 100000 in
/-- C1, witness: the five RFC 6238 Appendix B vectors of the claim, with the keys
base32-encoded as `TestTOTP` does; the last one spells the algorithm in lower case. -/
theorem C1_New_rfc6238_witness :
    totp.New id 0 ⟨"GEZDGNBVGY3TQOJQGEZDGNBVGY3TQOJQ".toList, 8, "SHA1".toList, 30, 59⟩
      = .ok "94287082".toList ∧
    totp.New id 0 ⟨"GEZDGNBVGY3TQOJQGEZDGNBVGY3TQOJQGEZDGNBVGY3TQOJQGEZA====".toList, 8,
      "SHA256".toList, 30, 59⟩ = .ok "46119246".toList ∧
    totp.New id 0 ⟨("GEZDGNBVGY3TQOJQGEZDGNBVGY3TQOJQGEZDGNBVGY3TQOJQGEZDGNBVGY3TQOJQ" ++
      "GEZDGNBVGY3TQOJQGEZDGNBVGY3TQOJQGEZDGNA=").toList, 8, "SHA512".toList, 30, 59⟩
      = .ok "90693936".toList ∧
    totp.New id 0 ⟨"GEZDGNBVGY3TQOJQGEZDGNBVGY3TQOJQ".toList, 8, "SHA1".toList, 30, 1111111109⟩
      = .ok "07081804".toList ∧
    totp.New id 0 ⟨"GEZDGNBVGY3TQOJQGEZDGNBVGY3TQOJQ".toList, 8, "sha1".toList, 30, 1111111111⟩
      = .ok "14050471".toList := by
  refine ⟨?_, ?_, ?_, ?_, ?_⟩
  · obtain ⟨code, h1, h2, -⟩ := C1_New_rfc6238 id 0
      ⟨"GEZDGNBVGY3TQOJQGEZDGNBVGY3TQOJQ".toList, 8, "SHA1".toList, 30, 59⟩
      (bytesOf "12345678901234567890".toList) .sha1
      (by decide) (by decide!) (by decide) (by decide) (by decide) (by decide) (by decide)
    rw [h1, h2]
    decide!
  · obtain ⟨code, h1, h2, -⟩ := C1_New_rfc6238 id 0
      ⟨"GEZDGNBVGY3TQOJQGEZDGNBVGY3TQOJQGEZDGNBVGY3TQOJQGEZA====".toList, 8,
        "SHA256".toList, 30, 59⟩
      (bytesOf "12345678901234567890123456789012".toList) .sha256
      (by decide) (by decide!) (by decide) (by decide) (by decide) (by decide) (by decide)
    rw [h1, h2]
    decide!
  · obtain ⟨code, h1, h2, -⟩ := C1_New_rfc6238 id 0
      ⟨("GEZDGNBVGY3TQOJQGEZDGNBVGY3TQOJQGEZDGNBVGY3TQOJQGEZDGNBVGY3TQOJQ" ++
        "GEZDGNBVGY3TQOJQGEZDGNBVGY3TQOJQGEZDGNA=").toList, 8, "SHA512".toList, 30, 59⟩
      (bytesOf "1234567890123456789012345678901234567890123456789012345678901234".toList)
      .sha512
      (by decide) (by decide!) (by decide) (by decide) (by decide) (by decide) (by decide)
    rw [h1, h2]
    decide!
  · obtain ⟨code, h1, h2, -⟩ := C1_New_rfc6238 id 0
      ⟨"GEZDGNBVGY3TQOJQGEZDGNBVGY3TQOJQ".toList, 8, "SHA1".toList, 30, 1111111109⟩
      (bytesOf "12345678901234567890".toList) .sha1
      (by decide) (by decide!) (by decide) (by decide) (by decide) (by decide) (by decide)
    rw [h1, h2]
    decide!
  · obtain ⟨code, h1, h2, -⟩ := C1_New_rfc6238 id 0
      ⟨"GEZDGNBVGY3TQOJQGEZDGNBVGY3TQOJQ".toList, 8, "sha1".toList, 30, 1111111111⟩
      (bytesOf "12345678901234567890".toList) .sha1
      (by decide) (by decide!) (by decide) (by decide) (by decide) (by decide) (by decide)
    rw [h1, h2]
    decide!

/-- C2, length invariant: for every digits value `d` in 1..10, every counter,
every supported algorithm and every non-empty valid secret, `Generate` returns
a string of exactly `d` characters, each a decimal digit, leading zeros
included; the numeric code 82082 with 8 digits is rendered "00082082". -/
theorem C2_length_invariant (o : generator.GenerateOptions) (key : List Nat) (h : hmac.Hash)
    (hne : o.Secret ≠ []) (hkey : base32.DecodeString o.Secret = (key, none))
    (halg : generator.selectHash o.Algorithm = some h)
    (hd1 : 1 ≤ o.Digits) (hd10 : o.Digits ≤ 10) :
    (∃ code, generator.Generate o = .ok code ∧ (code.length : Int) = o.Digits ∧
      ∀ c ∈ code, c.isDigit = true) ∧
    fmt.zeroPad 8 82082 = "00082082".toList := by
  refine ⟨?_, by decide⟩
  obtain ⟨hm0, hmle⟩ := pow10Uint32_le o.Digits hd1 hd10
  obtain ⟨v, -, -, hG⟩ := Generate_ok o key h hne hkey halg hm0.ne'
  refine ⟨_, hG, ?_, zeroPad_isDigit _ _⟩
  have hlt : v % pow10Uint32 o.Digits < 10 ^ o.Digits.toNat :=
    lt_of_lt_of_le (Nat.mod_lt _ hm0) hmle
  rw [zeroPad_length _ _ hlt (by omega) (by omega)]
  omega

set_option maxRecDepth 100000 in
/-- C2, witness: the RFC 4226 test key, counter 3, ten digits. -/
theorem C2_length_invariant_witness :
    (∃ code, generator.Generate ⟨"GEZDGNBVGY3TQOJQGEZDGNBVGY3TQOJQ".toList, 3, 10,
        generator.SHA1⟩ = .ok code ∧ (code.length : Int) = 10 ∧
      ∀ c ∈ code, c.isDigit = true) ∧
    fmt.zeroPad 8 82082 = "00082082".toList :=
  C2_length_invariant ⟨"GEZDGNBVGY3TQOJQGEZDGNBVGY3TQOJQ".toList, 3, 10, generator.SHA1⟩
    (bytesOf "12345678901234567890".toList) .sha1 (by decide) (by decide!) (by decide)
    (by decide) (by decide)

set_option maxRecDepth 100000 in
/-- C3, evaluation at the failing input: with the RFC 4226 test key, counter 3
and 10 digits the truncated value is `v = 1726969429`, below `10^10`, so the
claim asks for the code "1726969429"; `Generate` reduces `v` modulo
`uint32(math.Pow10(10)) = 10^10 mod 2^32 = 1410065408` and returns
"0316904021". -/
theorem C3_ten_digits_evaluation :
    generator.truncate (hmac.Sum .sha1 (bytesOf "12345678901234567890".toList) (bytesBE 8 3))
      = .ok 1726969429 ∧
    pow10Uint32 10 = 1410065408 ∧
    generator.Generate ⟨"GEZDGNBVGY3TQOJQGEZDGNBVGY3TQOJQ".toList, 3, 10, generator.SHA1⟩
      = .ok "0316904021".toList ∧
    decimalValue "0316904021".toList ≠ 1726969429 % 10 ^ 10 := by
  decide!

/-- The part of C3 that holds: for every digits value `d` in 1..9 the string
`Generate` returns, read as a decimal number, is `v mod 10^d` for the 31-bit
truncated value `v` of the digest. -/
theorem Generate_value_small (o : generator.GenerateOptions) (key : List Nat) (h : hmac.Hash)
    (hne : o.Secret ≠ []) (hkey : base32.DecodeString o.Secret = (key, none))
    (halg : generator.selectHash o.Algorithm = some h)
    (hd1 : 1 ≤ o.Digits) (hd9 : o.Digits ≤ 9) :
    ∃ v code, generator.truncate (hmac.Sum h key (bytesBE 8 (toUint64 o.Counter))) = .ok v ∧
      v < 2 ^ 31 ∧ generator.Generate o = .ok code ∧
      decimalValue code = v % 10 ^ o.Digits.toNat := by
  have hm := pow10Uint32_small o.Digits hd1 hd9
  have hpos : 0 < 10 ^ o.Digits.toNat := Nat.pos_pow_of_pos _ (by norm_num)
  obtain ⟨v, hv, hv31, hG⟩ := Generate_ok o key h hne hkey halg (by rw [hm]; omega)
  refine ⟨v, _, hv, hv31, hG, ?_⟩
  rw [hm]
  apply zeroPad_value
  calc _ < 10 ^ o.Digits.toNat := Nat.mod_lt _ hpos
    _ ≤ 10 ^ 20 := Nat.pow_le_pow_right (by norm_num) (by omega)

/-- C4, dynamic truncation: for every digest `hs` the selected HMAC produces
(its length is 20, 32 or 64 bytes), with `off = hs[len(hs)-1] & 0x0F`, the
value `Generate` reduces modulo `uint32(math.Pow10(Digits))` is
`((hs[off] & 0x7F) << 24) | (hs[off+1] << 16) | (hs[off+2] << 8) | hs[off+3]`,
and this value is strictly less than `2^31`. -/
theorem C4_dynamic_truncation (o : generator.GenerateOptions) (key : List Nat) (h : hmac.Hash)
    (hs : List Nat) (off v : Nat)
    (hne : o.Secret ≠ []) (hkey : base32.DecodeString o.Secret = (key, none))
    (halg : generator.selectHash o.Algorithm = some h)
    (hm : pow10Uint32 o.Digits ≠ 0)
    (hhs : hs = hmac.Sum h key (bytesBE 8 (toUint64 o.Counter)))
    (hoff : off = hs.getD (hs.length - 1) 0 &&& 0x0F)
    (hv : v = (((hs.getD off 0 &&& 0x7F) <<< 24) ||| (hs.getD (off + 1) 0 <<< 16) |||
      (hs.getD (off + 2) 0 <<< 8) ||| hs.getD (off + 3) 0)) :
    (hs.length = 20 ∨ hs.length = 32 ∨ hs.length = 64) ∧
    generator.truncate hs = .ok v ∧ v < 2 ^ 31 ∧
    generator.Generate o = .ok (fmt.zeroPad o.Digits.toNat (v % pow10Uint32 o.Digits)) := by
  have hlen : hs.length = h.size := by rw [hhs]; exact hmac_Sum_length h key _
  have h20 : 20 ≤ hs.length := by
    rcases hash_size_cases h with e | e | e <;> omega
  have hveq : generator.truncate hs = .ok v := by
    rw [truncate_eq hs h20, Uint32_eq_shifts, hv, hoff]
  obtain ⟨v2, hv2, hlt, hG⟩ := Generate_ok o key h hne hkey halg hm
  rw [← hhs, hveq] at hv2
  injection hv2 with hv2
  subst hv2
  exact ⟨by rw [hlen]; exact hash_size_cases h, hveq, hlt, hG⟩

set_option maxRecDepth 100000 in
/-- C4, witness: the RFC 4226 test key and counter 1; the last byte of the digest is
`0xab`, the offset 11 and the truncated value 1094287082. -/
theorem C4_dynamic_truncation_witness :
    ((hmac.Sum .sha1 (bytesOf "12345678901234567890".toList) (bytesBE 8 1)).length = 20 ∨
      (hmac.Sum .sha1 (bytesOf "12345678901234567890".toList) (bytesBE 8 1)).length = 32 ∨
      (hmac.Sum .sha1 (bytesOf "12345678901234567890".toList) (bytesBE 8 1)).length = 64) ∧
    generator.truncate (hmac.Sum .sha1 (bytesOf "12345678901234567890".toList) (bytesBE 8 1))
      = .ok 1094287082 ∧ 1094287082 < 2 ^ 31 ∧
    generator.Generate ⟨"GEZDGNBVGY3TQOJQGEZDGNBVGY3TQOJQ".toList, 1, 8, generator.SHA1⟩
      = .ok (fmt.zeroPad (8 : Int).toNat (1094287082 % pow10Uint32 8)) :=
  C4_dynamic_truncation ⟨"GEZDGNBVGY3TQOJQGEZDGNBVGY3TQOJQ".toList, 1, 8, generator.SHA1⟩
    (bytesOf "12345678901234567890".toList) .sha1
    (hmac.Sum .sha1 (bytesOf "12345678901234567890".toList) (bytesBE 8 1)) 11 1094287082
    (by decide) (by decide!) (by decide) (by decide) (by decide!) (by decide!) (by decide!)

/-! ## Base32: the 5-bit groups -/

theorem and_0x1F (x : Nat) : x &&& 0x1F = x % 32 :=
  Nat.and_pow_two_sub_one_eq_mod x 5

theorem or_eq_add_of_dvd (i a b : Nat) (ha : 2 ^ i ∣ a) (hb : b < 2 ^ i) : a ||| b = a + b := by
  obtain ⟨c, rfl⟩ := ha
  exact (Nat.mul_add_lt_is_or hb c).symm

/-- The eight groups of a quantum, written with division and remainder. -/
theorem unpack_eq (src : List Nat) (hsrc : ∀ b ∈ src, b < 256) :
    base32.unpack src =
      [src.getD 0 0 / 8,
       src.getD 0 0 % 8 * 4 + src.getD 1 0 / 64,
       src.getD 1 0 / 2 % 32,
       src.getD 1 0 % 2 * 16 + src.getD 2 0 / 16,
       src.getD 2 0 % 16 * 2 + src.getD 3 0 / 128,
       src.getD 3 0 / 4 % 32,
       src.getD 3 0 % 4 * 8 + src.getD 4 0 / 32,
       src.getD 4 0 % 32] := by
  have h0 := getD_lt_of_all_lt src 0 hsrc
  have h1 := getD_lt_of_all_lt src 1 hsrc
  have h2 := getD_lt_of_all_lt src 2 hsrc
  have h3 := getD_lt_of_all_lt src 3 hsrc
  have h4 := getD_lt_of_all_lt src 4 hsrc
  unfold base32.unpack
  dsimp only
  generalize src.getD 0 0 = s0 at *
  generalize src.getD 1 0 = s1 at *
  generalize src.getD 2 0 = s2 at *
  generalize src.getD 3 0 = s3 at *
  generalize src.getD 4 0 = s4 at *
  simp only [Nat.shiftLeft_eq, Nat.shiftRight_eq_div_pow, and_0x1F]
  have e1 : s0 * 2 ^ 2 % 32 ||| s1 / 2 ^ 6 % 32 = s0 % 8 * 4 + s1 / 64 := by
    rw [or_eq_add_of_dvd 2 _ _ (by norm_num; omega) (by norm_num; omega)]; omega
  have e3 : s1 * 2 ^ 4 % 32 ||| s2 / 2 ^ 4 % 32 = s1 % 2 * 16 + s2 / 16 := by
    rw [or_eq_add_of_dvd 4 _ _ (by norm_num; omega) (by norm_num; omega)]; omega
  have e4 : s2 * 2 ^ 1 % 32 ||| s3 / 2 ^ 7 = s2 % 16 * 2 + s3 / 128 := by
    rw [or_eq_add_of_dvd 1 _ _ (by norm_num; omega) (by norm_num; omega)]; omega
  have e6 : s3 * 2 ^ 3 % 32 ||| s4 / 2 ^ 5 = s3 % 4 * 8 + s4 / 32 := by
    rw [or_eq_add_of_dvd 3 _ _ (by norm_num; omega) (by norm_num; omega)]; omega
  rw [e1, e3, e4, e6]

theorem unpack_lt (src : List Nat) (hsrc : ∀ b ∈ src, b < 256) :
    ∀ v ∈ base32.unpack src, v < 32 := by
  have h0 := getD_lt_of_all_lt src 0 hsrc
  have h1 := getD_lt_of_all_lt src 1 hsrc
  have h2 := getD_lt_of_all_lt src 2 hsrc
  have h3 := getD_lt_of_all_lt src 3 hsrc
  have h4 := getD_lt_of_all_lt src 4 hsrc
  rw [unpack_eq src hsrc]
  intro v hv
  simp only [List.mem_cons, List.mem_singleton, List.not_mem_nil, or_false] at hv
  rcases hv with rfl | rfl | rfl | rfl | rfl | rfl | rfl | rfl <;> omega

/-- The bytes packed from the groups of a quantum, written with division and
remainder. -/
theorem pack_eq (dlen : Nat) (d : List Nat) (hd : ∀ v ∈ d, v < 32) :
    base32.pack dlen d =
      [(d.getD 0 0 * 8 + d.getD 1 0 / 4) % 256,
       (d.getD 1 0 * 64 + d.getD 2 0 * 2 + d.getD 3 0 / 16) % 256,
       (d.getD 3 0 * 16 + d.getD 4 0 / 2) % 256,
       (d.getD 4 0 * 128 + d.getD 5 0 * 4 + d.getD 6 0 / 8) % 256,
       (d.getD 6 0 * 32 + d.getD 7 0) % 256].take
        (if dlen = 8 then 5 else if dlen = 7 then 4 else if dlen = 5 then 3
          else if dlen = 4 then 2 else if dlen = 2 then 1 else 0) := by
  have hlt : ∀ i, d.getD i 0 < 32 := by
    intro i
    rcases Nat.lt_or_ge i d.length with h | h
    · rw [List.getD_eq_getElem d 0 h]
      exact hd _ (List.getElem_mem h)
    · rw [List.getD_eq_default d 0 h]
      norm_num
  have h0 := hlt 0
  have h1 := hlt 1
  have h2 := hlt 2
  have h3 := hlt 3
  have h4 := hlt 4
  have h5 := hlt 5
  have h6 := hlt 6
  have h7 := hlt 7
  unfold base32.pack
  dsimp only
  generalize d.getD 0 0 = d0 at *
  generalize d.getD 1 0 = d1 at *
  generalize d.getD 2 0 = d2 at *
  generalize d.getD 3 0 = d3 at *
  generalize d.getD 4 0 = d4 at *
  generalize d.getD 5 0 = d5 at *
  generalize d.getD 6 0 = d6 at *
  generalize d.getD 7 0 = d7 at *
  simp only [Nat.shiftLeft_eq, Nat.shiftRight_eq_div_pow]
  have e0 : d0 * 2 ^ 3 ||| d1 / 2 ^ 2 = d0 * 8 + d1 / 4 := by
    rw [or_eq_add_of_dvd 3 _ _ (by norm_num) (by norm_num; omega)]
    norm_num
  have e1 : d1 * 2 ^ 6 ||| d2 * 2 ^ 1 ||| d3 / 2 ^ 4 = d1 * 64 + d2 * 2 + d3 / 16 := by
    rw [or_eq_add_of_dvd 6 (d1 * 2 ^ 6) (d2 * 2 ^ 1) (by norm_num) (by norm_num; omega),
      or_eq_add_of_dvd 1 _ _ (by norm_num; omega) (by norm_num; omega)]
    norm_num
  have e2 : d3 * 2 ^ 4 ||| d4 / 2 ^ 1 = d3 * 16 + d4 / 2 := by
    rw [or_eq_add_of_dvd 4 _ _ (by norm_num) (by norm_num; omega)]
    norm_num
  have e3 : d4 * 2 ^ 7 ||| d5 * 2 ^ 2 ||| d6 / 2 ^ 3 = d4 * 128 + d5 * 4 + d6 / 8 := by
    rw [or_eq_add_of_dvd 7 (d4 * 2 ^ 7) (d5 * 2 ^ 2) (by norm_num) (by norm_num; omega),
      or_eq_add_of_dvd 2 _ _ (by norm_num; omega) (by norm_num; omega)]
    norm_num
  have e4 : d6 * 2 ^ 5 ||| d7 = d6 * 32 + d7 := by
    rw [or_eq_add_of_dvd 5 _ _ (by norm_num) (by norm_num; omega)]
    norm_num
  rw [e0, e1, e2, e3, e4]

/-- Packing the groups of a quantum of one to five bytes gives the bytes
back. -/
theorem pack_unpack (src : List Nat) (hsrc : ∀ b ∈ src, b < 256) (h1 : 1 ≤ src.length)
    (h5 : src.length ≤ 5) :
    base32.pack (base32.dataChars src.length)
      ((base32.unpack src).take (base32.dataChars src.length)) = src := by
  have hlt : ∀ v ∈ (base32.unpack src).take (base32.dataChars src.length), v < 32 :=
    fun v hv => unpack_lt src hsrc v (List.mem_of_mem_take hv)
  rw [pack_eq _ _ hlt, unpack_eq src hsrc]
  match src, hsrc, h1, h5 with
  | [b0], hsrc, _, _ =>
    have := hsrc b0 (by simp)
    simp [base32.dataChars]
    omega
  | [b0, b1], hsrc, _, _ =>
    have := hsrc b0 (by simp)
    have := hsrc b1 (by simp)
    simp [base32.dataChars]
    omega
  | [b0, b1, b2], hsrc, _, _ =>
    have := hsrc b0 (by simp)
    have := hsrc b1 (by simp)
    have := hsrc b2 (by simp)
    simp [base32.dataChars]
    omega
  | [b0, b1, b2, b3], hsrc, _, _ =>
    have := hsrc b0 (by simp)
    have := hsrc b1 (by simp)
    have := hsrc b2 (by simp)
    have := hsrc b3 (by simp)
    simp [base32.dataChars]
    omega
  | [b0, b1, b2, b3, b4], hsrc, _, _ =>
    have := hsrc b0 (by simp)
    have := hsrc b1 (by simp)
    have := hsrc b2 (by simp)
    have := hsrc b3 (by simp)
    have := hsrc b4 (by simp)
    simp [base32.dataChars]
    omega

/-! ## Base32: the characters of an encoding -/

theorem encodeStd_facts : ∀ v < 32,
    utf8Encode (base32.encodeStd v) = [(base32.encodeStd v).toNat] ∧
    base32.decodeMap (base32.encodeStd v).toNat = v ∧
    (base32.encodeStd v).toNat ≠ 61 ∧
    (base32.encodeStd v).toNat ≠ 13 ∧ (base32.encodeStd v).toNat ≠ 10 ∧
    unicode.IsSpace (base32.encodeStd v) = false ∧
    (base32.encodeStd v).toNat ≤ 0x7F ∧
    ¬ (97 ≤ (base32.encodeStd v).toNat ∧ (base32.encodeStd v).toNat ≤ 122) := by
  decide

theorem bytesOf_append (a b : List Char) : bytesOf (a ++ b) = bytesOf a ++ bytesOf b := by
  induction a with
  | nil => rfl
  | cons c cs ih => simp [bytesOf, ih]

theorem bytesOf_encodeStd (vs : List Nat) (hvs : ∀ v ∈ vs, v < 32) :
    bytesOf (vs.map base32.encodeStd) = vs.map (fun v => (base32.encodeStd v).toNat) := by
  induction vs with
  | nil => rfl
  | cons v vs ih =>
    have hv := (encodeStd_facts v (hvs v (by simp))).1
    simp only [List.map_cons, bytesOf, hv, List.singleton_append]
    rw [ih (fun w hw => hvs w (List.mem_cons_of_mem _ hw))]

theorem bytesOf_padding (k : Nat) : bytesOf (List.replicate k '=') = List.replicate k 61 := by
  induction k with
  | zero => rfl
  | succ k ih =>
    have h : utf8Encode '=' = [61] := by decide
    simp only [List.replicate_succ, bytesOf, h, ih, List.singleton_append]

/-! ## Base32: decoding an encoding -/

theorem readQuantum_data (olen : Nat) (vs : List Nat) (hvs : ∀ v ∈ vs, v < 32)
    (r j : Nat) (rest dbuf : List Nat) :
    base32.readQuantum olen (vs.length + r) j
        (vs.map (fun v => (base32.encodeStd v).toNat) ++ rest) dbuf
      = base32.readQuantum olen r (j + vs.length) rest (dbuf ++ vs) := by
  induction vs generalizing j dbuf with
  | nil => simp
  | cons v vs ih =>
    have hv32 := hvs v (by simp)
    obtain ⟨-, hdec, h61, -⟩ := encodeStd_facts v hv32
    have hlen : (v :: vs).length + r = (vs.length + r) + 1 := by
      simp only [List.length_cons]; omega
    rw [hlen, List.map_cons, List.cons_append, base32.readQuantum]
    rw [if_neg (fun h => h61 h.1), hdec, if_neg (by omega),
      ih (fun w hw => hvs w (List.mem_cons_of_mem _ hw))]
    simp only [List.length_cons, List.append_assoc, List.singleton_append]
    congr 1
    omega

theorem badPadding_replicate (k n i : Nat) :
    base32.badPadding (List.replicate k 61) n i = none := by
  induction n generalizing i with
  | zero => rfl
  | succ n ih =>
    rw [base32.badPadding, if_neg, ih]
    rintro ⟨hi, hne⟩
    rw [List.length_replicate] at hi
    rw [List.getD_eq_getElem _ _ (by rwa [List.length_replicate])] at hne
    simp at hne

theorem readQuantum_padding (olen r j k : Nat) (dbuf : List Nat) (hj : 2 ≤ j)
    (hj3 : j ≠ 3) (hj6 : j ≠ 6) (hk : k + 1 + j = 8) :
    base32.readQuantum olen (r + 1) j (List.replicate (k + 1) 61) dbuf = .padded j dbuf := by
  rw [List.replicate_succ, base32.readQuantum]
  rw [if_pos ⟨rfl, hj, by rw [List.length_replicate]; omega⟩,
    if_neg (by rw [List.length_replicate]; omega), badPadding_replicate]
  simp only []
  rw [if_neg (by omega)]

theorem unpack_length (src : List Nat) : (base32.unpack src).length = 8 := rfl

theorem decodeLoop_short (olen fuel : Nat) (out src : List Nat) (hsrc : ∀ x ∈ src, x < 256)
    (h1 : 1 ≤ src.length) (h4 : src.length ≤ 4)
    (hfuel : (bytesOf (((base32.unpack src).take (base32.dataChars src.length)).map
      base32.encodeStd ++ List.replicate (8 - base32.dataChars src.length) '=')).length
        ≤ fuel) :
    base32.decodeLoop olen fuel
        (bytesOf (((base32.unpack src).take (base32.dataChars src.length)).map base32.encodeStd
          ++ List.replicate (8 - base32.dataChars src.length) '=')) out
      = (out ++ src, none) := by
  have hp := pack_unpack src hsrc h1 (by omega)
  have hv : ∀ v ∈ (base32.unpack src).take (base32.dataChars src.length), v < 32 :=
    fun v hv => unpack_lt src hsrc v (List.mem_of_mem_take hv)
  have hd : base32.dataChars src.length = 2 ∨ base32.dataChars src.length = 4 ∨
      base32.dataChars src.length = 5 ∨ base32.dataChars src.length = 7 := by
    have : src.length = 1 ∨ src.length = 2 ∨ src.length = 3 ∨ src.length = 4 := by omega
    rcases this with e | e | e | e <;> rw [e] <;> simp [base32.dataChars]
  have hvl : ((base32.unpack src).take (base32.dataChars src.length)).length
      = base32.dataChars src.length := by
    rw [List.length_take, unpack_length]
    omega
  rw [bytesOf_append, bytesOf_encodeStd _ hv, bytesOf_padding, List.length_append,
    List.length_map, List.length_replicate, hvl] at hfuel
  generalize base32.dataChars src.length = d at hp hv hd hvl hfuel ⊢
  generalize (base32.unpack src).take d = vs at hp hv hvl ⊢
  obtain ⟨f, rfl⟩ : ∃ f, fuel = f + 1 := ⟨fuel - 1, by omega⟩
  obtain ⟨k, hk⟩ : ∃ k, 8 - d = k + 1 := ⟨8 - d - 1, by omega⟩
  have hq := readQuantum_data olen vs hv (k + 1) 0 (List.replicate (k + 1) 61) []
  rw [hvl, show d + (k + 1) = 8 by omega] at hq
  rw [bytesOf_append, bytesOf_encodeStd _ hv, bytesOf_padding, hk, base32.decodeLoop,
    if_neg (by simp), hq, List.nil_append, Nat.zero_add,
    readQuantum_padding olen k d k vs (by omega) (by omega) (by omega) (by omega)]
  simp only [hp]

/-- The decoding loop gives back the bytes an encoding was made of. -/
theorem decodeLoop_encode (olen : Nat) :
    ∀ (b : List Nat) (fuel : Nat) (out : List Nat), (∀ x ∈ b, x < 256) →
      (bytesOf (base32.EncodeToString b)).length ≤ fuel →
      base32.decodeLoop olen fuel (bytesOf (base32.EncodeToString b)) out = (out ++ b, none)
  | [], fuel, out, _, _ => by
    cases fuel <;> simp [base32.EncodeToString, bytesOf, base32.decodeLoop]
  | b0 :: b1 :: b2 :: b3 :: b4 :: rest, fuel, out, hb, hfuel => by
    have h5 : ∀ x ∈ [b0, b1, b2, b3, b4], x < 256 := by
      intro x hx
      apply hb
      simp only [List.mem_cons, List.mem_singleton, List.not_mem_nil, or_false] at hx ⊢
      tauto
    have hrest : ∀ x ∈ rest, x < 256 := by
      intro x hx
      apply hb
      simp [hx]
    have hv := unpack_lt _ h5
    have hul : (base32.unpack [b0, b1, b2, b3, b4]).length = 8 := rfl
    rw [base32.EncodeToString, bytesOf_append, bytesOf_encodeStd _ hv] at hfuel ⊢
    rw [List.length_append, List.length_map, hul] at hfuel
    obtain ⟨f, rfl⟩ : ∃ f, fuel = f + 1 := ⟨fuel - 1, by omega⟩
    have hq := readQuantum_data olen (base32.unpack [b0, b1, b2, b3, b4]) hv 0 0
      (bytesOf (base32.EncodeToString rest)) []
    rw [hul] at hq
    rw [base32.decodeLoop, if_neg (by simp [base32.unpack]), hq]
    simp only [base32.readQuantum, List.nil_append]
    rw [decodeLoop_encode olen rest f _ hrest (by omega)]
    have hp := pack_unpack [b0, b1, b2, b3, b4] h5 (by simp) (by simp)
    simp only [List.length_cons, List.length_nil, base32.dataChars] at hp
    rw [show List.take 8 (base32.unpack [b0, b1, b2, b3, b4])
      = base32.unpack [b0, b1, b2, b3, b4] from rfl] at hp
    rw [hp]
    simp
  | [b0], fuel, out, hb, hfuel =>
    decodeLoop_short olen fuel out [b0] hb (by simp) (by simp) hfuel
  | [b0, b1], fuel, out, hb, hfuel =>
    decodeLoop_short olen fuel out [b0, b1] hb (by simp) (by simp) hfuel
  | [b0, b1, b2], fuel, out, hb, hfuel =>
    decodeLoop_short olen fuel out [b0, b1, b2] hb (by simp) (by simp) hfuel
  | [b0, b1, b2, b3], fuel, out, hb, hfuel =>
    decodeLoop_short olen fuel out [b0, b1, b2, b3] hb (by simp) (by simp) hfuel

/-! ## Normalization of a secret -/

theorem Join_nil : strings.Join [] [] = [] := rfl

theorem Join_cons (x : List Char) (xs : List (List Char)) :
    strings.Join (x :: xs) [] = x ++ strings.Join xs [] := by
  cases xs with
  | nil => simp [strings.Join, List.intercalate, List.intersperse]
  | cons y ys => simp [strings.Join, List.intercalate, List.intersperse]

theorem Join_fieldsFrom (s cur : List Char) :
    strings.Join (strings.fieldsFrom s cur) [] =
      cur ++ s.filter (fun c => !unicode.IsSpace c) := by
  induction s generalizing cur with
  | nil =>
    unfold strings.fieldsFrom
    cases cur with
    | nil => simp [Join_nil]
    | cons c cs => simp [Join_cons, Join_nil]
  | cons c cs ih =>
    unfold strings.fieldsFrom
    by_cases hsp : unicode.IsSpace c = true
    · rw [if_pos hsp]
      cases cur with
      | nil => simp [ih, hsp]
      | cons d ds => simp [Join_cons, ih, hsp]
    · rw [if_neg hsp, ih]
      simp [hsp]

theorem Join_Fields (s : List Char) :
    strings.Join (strings.Fields s) [] = s.filter (fun c => !unicode.IsSpace c) := by
  rw [strings.Fields, Join_fieldsFrom, List.nil_append]

theorem normalize_of_clean (tbl : Char → Char) (s : List Char)
    (hsp : ∀ c ∈ s, unicode.IsSpace c = false) (hup : ∀ c ∈ s, unicode.ToUpper tbl c = c) :
    totp.normalize tbl s =
      if len s % 8 ≠ 0 then s ++ List.replicate (8 - len s % 8) '=' else s := by
  have h1 : strings.Join (strings.Fields s) [] = s := by
    rw [Join_Fields, List.filter_eq_self]
    intro c hc
    simp [hsp c hc]
  have h2 : strings.ToUpper tbl s = s := by
    unfold strings.ToUpper
    conv_rhs => rw [← List.map_id s]
    exact List.map_congr_left hup
  unfold totp.normalize
  rw [h1, h2]

theorem trimPadding_append (d : List Char) (k : Nat) (hd : ∀ c ∈ d, c ≠ '=') :
    trimPadding (d ++ List.replicate k '=') = d := by
  unfold trimPadding
  rw [List.reverse_append, List.reverse_replicate]
  have h1 : ∀ (l : List Char), (List.replicate k '=' ++ l).dropWhile (· == '=')
      = l.dropWhile (· == '=') := by
    intro l
    induction k with
    | zero => simp
    | succ k ih => simp [List.replicate_succ, List.dropWhile_cons, ih]
  have h2 : d.reverse.dropWhile (· == '=') = d.reverse := by
    cases hr : d.reverse with
    | nil => rfl
    | cons c cs =>
      have hc : c ≠ '=' := hd c (by
        rw [← List.mem_reverse, hr]
        simp)
      simp [List.dropWhile_cons, hc]
  rw [h1, h2, List.reverse_reverse]

/-! ## Round trip through base32 -/

/-- An encoding consists of characters of the alphabet, then fewer than eight
`=`, a multiple of eight characters in all. -/
theorem EncodeToString_shape :
    ∀ (b : List Nat), (∀ x ∈ b, x < 256) →
      ∃ (vs : List Nat) (k : Nat),
        base32.EncodeToString b = vs.map base32.encodeStd ++ List.replicate k '=' ∧
        (∀ v ∈ vs, v < 32) ∧ k < 8 ∧ (vs.length + k) % 8 = 0
  | [], _ => ⟨[], 0, rfl, by simp, by norm_num, rfl⟩
  | b0 :: b1 :: b2 :: b3 :: b4 :: rest, hb => by
    have h5 : ∀ x ∈ [b0, b1, b2, b3, b4], x < 256 := by
      intro x hx
      apply hb
      simp only [List.mem_cons, List.mem_singleton, List.not_mem_nil, or_false] at hx ⊢
      tauto
    obtain ⟨vs, k, he, hv, hk, hm⟩ := EncodeToString_shape rest (fun x hx => hb x (by simp [hx]))
    refine ⟨base32.unpack [b0, b1, b2, b3, b4] ++ vs, k, ?_, ?_, hk, ?_⟩
    · rw [base32.EncodeToString, he, List.map_append, List.append_assoc]
    · intro v hv'
      rcases List.mem_append.mp hv' with h | h
      · exact unpack_lt _ h5 v h
      · exact hv v h
    · rw [List.length_append, unpack_length]
      omega
  | [b0], hb =>
    ⟨(base32.unpack [b0]).take 2, 6, rfl,
      fun v hv => unpack_lt _ hb v (List.mem_of_mem_take hv), by norm_num,
      by rw [List.length_take, unpack_length]; rfl⟩
  | [b0, b1], hb =>
    ⟨(base32.unpack [b0, b1]).take 4, 4, rfl,
      fun v hv => unpack_lt _ hb v (List.mem_of_mem_take hv), by norm_num,
      by rw [List.length_take, unpack_length]; rfl⟩
  | [b0, b1, b2], hb =>
    ⟨(base32.unpack [b0, b1, b2]).take 5, 3, rfl,
      fun v hv => unpack_lt _ hb v (List.mem_of_mem_take hv), by norm_num,
      by rw [List.length_take, unpack_length]; rfl⟩
  | [b0, b1, b2, b3], hb =>
    ⟨(base32.unpack [b0, b1, b2, b3]).take 7, 1, rfl,
      fun v hv => unpack_lt _ hb v (List.mem_of_mem_take hv), by norm_num,
      by rw [List.length_take, unpack_length]; rfl⟩

theorem stripNewlines_of_none (src : List Nat) (h : ∀ x ∈ src, x ≠ 13 ∧ x ≠ 10) :
    base32.stripNewlines src = src := by
  unfold base32.stripNewlines
  rw [List.filter_eq_self]
  intro x hx
  have := h x hx
  simp [this.1, this.2]

theorem DecodeString_EncodeToString (b : List Nat) (hb : ∀ x ∈ b, x < 256) :
    base32.DecodeString (base32.EncodeToString b) = (b, none) := by
  obtain ⟨vs, k, he, hv, -, -⟩ := EncodeToString_shape b hb
  have hs : base32.stripNewlines (bytesOf (base32.EncodeToString b))
      = bytesOf (base32.EncodeToString b) := by
    apply stripNewlines_of_none
    rw [he, bytesOf_append, bytesOf_encodeStd _ hv, bytesOf_padding]
    intro x hx
    rcases List.mem_append.mp hx with h | h
    · obtain ⟨v, hvm, rfl⟩ := List.mem_map.mp h
      obtain ⟨-, -, -, h13, h10, -⟩ := encodeStd_facts v (hv v hvm)
      exact ⟨h13, h10⟩
    · rw [(List.mem_replicate.mp h).2]
      decide
  unfold base32.DecodeString
  simp only [hs]
  rw [decodeLoop_encode _ b _ [] hb (le_refl _), List.nil_append]

theorem normalize_padded (tbl : Char → Char) (vs : List Nat) (k : Nat) (hv : ∀ v ∈ vs, v < 32)
    (hk : k < 8) (hm : (vs.length + k) % 8 = 0) :
    totp.normalize tbl (vs.map base32.encodeStd ++ List.replicate k '=')
      = vs.map base32.encodeStd ++ List.replicate k '=' ∧
    totp.normalize tbl (vs.map base32.encodeStd)
      = vs.map base32.encodeStd ++ List.replicate k '=' := by
  have hsp : ∀ c ∈ vs.map base32.encodeStd, unicode.IsSpace c = false := by
    intro c hc
    obtain ⟨v, hvm, rfl⟩ := List.mem_map.mp hc
    exact (encodeStd_facts v (hv v hvm)).2.2.2.2.2.1
  have hup : ∀ c ∈ vs.map base32.encodeStd, unicode.ToUpper tbl c = c := by
    intro c hc
    obtain ⟨v, hvm, rfl⟩ := List.mem_map.mp hc
    obtain ⟨-, -, -, -, -, -, h7, hl⟩ := encodeStd_facts v (hv v hvm)
    unfold unicode.ToUpper
    rw [if_pos h7, if_neg hl]
  have hlen1 : len (vs.map base32.encodeStd) = vs.length := by
    rw [len, bytesOf_encodeStd _ hv, List.length_map]
  have hlen2 : len (vs.map base32.encodeStd ++ List.replicate k '=') = vs.length + k := by
    rw [len, bytesOf_append, bytesOf_encodeStd _ hv, bytesOf_padding, List.length_append,
      List.length_map, List.length_replicate]
  constructor
  · rw [normalize_of_clean tbl _ ?_ ?_, hlen2, if_neg (by omega)]
    · intro c hc
      rcases List.mem_append.mp hc with h | h
      · exact hsp c h
      · rw [(List.mem_replicate.mp h).2]
        decide
    · intro c hc
      rcases List.mem_append.mp hc with h | h
      · exact hup c h
      · rw [(List.mem_replicate.mp h).2]
        rfl
  · rw [normalize_of_clean tbl _ hsp hup, hlen1]
    by_cases h0 : vs.length % 8 = 0
    · have : k = 0 := by omega
      subst this
      rw [if_neg (by omega)]
      simp
    · rw [if_pos h0]
      congr 2
      omega

/-- C7, round trip: for every byte sequence `b`, `ParseKey` applied to the
standard base32 encoding of `b` returns `b` without error, and it still returns
`b` when the trailing `=` padding of that encoding has been removed. -/
theorem C7_ParseKey_round_trip (tbl : Char → Char) (b : List Nat) (hb : ∀ x ∈ b, x < 256) :
    totp.ParseKey tbl (base32.EncodeToString b) = (b, none) ∧
    totp.ParseKey tbl (trimPadding (base32.EncodeToString b)) = (b, none) := by
  obtain ⟨vs, k, he, hv, hk, hm⟩ := EncodeToString_shape b hb
  obtain ⟨h1, h2⟩ := normalize_padded tbl vs k hv hk hm
  have hne : ∀ c ∈ vs.map base32.encodeStd, c ≠ '=' := by
    intro c hc
    obtain ⟨v, hvm, rfl⟩ := List.mem_map.mp hc
    obtain ⟨-, -, h61, -⟩ := encodeStd_facts v (hv v hvm)
    intro h
    rw [h] at h61
    exact h61 rfl
  unfold totp.ParseKey
  rw [he, trimPadding_append _ _ hne, h1, h2, ← he]
  exact ⟨DecodeString_EncodeToString b hb, DecodeString_EncodeToString b hb⟩

set_option maxRecDepth 100000 in
/-- C7, witness: the 20-byte key of `TestTOTP`, whose encoding has no padding, and
its 32-byte key, whose encoding ends in four `=`. -/
theorem C7_ParseKey_round_trip_witness :
    base32.EncodeToString (bytesOf "12345678901234567890".toList)
      = "GEZDGNBVGY3TQOJQGEZDGNBVGY3TQOJQ".toList ∧
    base32.EncodeToString (bytesOf "12345678901234567890123456789012".toList)
      = "GEZDGNBVGY3TQOJQGEZDGNBVGY3TQOJQGEZDGNBVGY3TQOJQGEZA====".toList ∧
    trimPadding (base32.EncodeToString (bytesOf "12345678901234567890123456789012".toList))
      = "GEZDGNBVGY3TQOJQGEZDGNBVGY3TQOJQGEZDGNBVGY3TQOJQGEZA".toList ∧
    (totp.ParseKey id (base32.EncodeToString (bytesOf "12345678901234567890".toList))
        = (bytesOf "12345678901234567890".toList, none) ∧
      totp.ParseKey id
          (trimPadding (base32.EncodeToString (bytesOf "12345678901234567890".toList)))
        = (bytesOf "12345678901234567890".toList, none)) ∧
    (totp.ParseKey id
        (base32.EncodeToString (bytesOf "12345678901234567890123456789012".toList))
        = (bytesOf "12345678901234567890123456789012".toList, none) ∧
      totp.ParseKey id (trimPadding
          (base32.EncodeToString (bytesOf "12345678901234567890123456789012".toList)))
        = (bytesOf "12345678901234567890123456789012".toList, none)) :=
  ⟨by decide!, by decide!, by decide!,
    C7_ParseKey_round_trip id (bytesOf "12345678901234567890".toList) (by decide!),
    C7_ParseKey_round_trip id (bytesOf "12345678901234567890123456789012".toList)
      (by decide!)⟩

/-! ## Normalization is idempotent -/

theorem ascii_ToUpper (tbl : Char → Char) (c : Char) (h : c.toNat ≤ 0x7F) :
    (unicode.ToUpper tbl c).toNat ≤ 0x7F ∧
    ¬ (97 ≤ (unicode.ToUpper tbl c).toNat ∧ (unicode.ToUpper tbl c).toNat ≤ 122) ∧
    (unicode.IsSpace c = false → unicode.IsSpace (unicode.ToUpper tbl c) = false) := by
  unfold unicode.ToUpper
  rw [if_pos h]
  by_cases hl : 97 ≤ c.toNat ∧ c.toNat ≤ 122
  · rw [if_pos hl]
    obtain ⟨h1, h2⟩ := hl
    have key : ∀ n, 97 ≤ n → n ≤ 122 → (Char.ofNat (n - 32)).toNat ≤ 0x7F ∧
        ¬ (97 ≤ (Char.ofNat (n - 32)).toNat ∧ (Char.ofNat (n - 32)).toNat ≤ 122) ∧
        unicode.IsSpace (Char.ofNat (n - 32)) = false := by
      intro n hn1 hn2
      interval_cases n <;> decide
    obtain ⟨k1, k2, k3⟩ := key c.toNat h1 h2
    exact ⟨k1, k2, fun _ => k3⟩
  · rw [if_neg hl]
    exact ⟨h, hl, id⟩

theorem ToUpper_idem (tbl : Char → Char)
    (hid : ∀ c, 0x7F < c.toNat → unicode.ToUpper tbl (tbl c) = tbl c) (c : Char) :
    unicode.ToUpper tbl (unicode.ToUpper tbl c) = unicode.ToUpper tbl c := by
  by_cases h : c.toNat ≤ 0x7F
  · obtain ⟨h1, h2, -⟩ := ascii_ToUpper tbl c h
    generalize unicode.ToUpper tbl c = u at h1 h2
    unfold unicode.ToUpper
    rw [if_pos h1, if_neg h2]
  · have e : unicode.ToUpper tbl c = tbl c := by
      unfold unicode.ToUpper
      rw [if_neg h]
    rw [e]
    exact hid c (by omega)

theorem ToUpper_not_space (tbl : Char → Char)
    (hsp : ∀ c, 0x7F < c.toNat → unicode.IsSpace c = false → unicode.IsSpace (tbl c) = false)
    (c : Char) (hc : unicode.IsSpace c = false) :
    unicode.IsSpace (unicode.ToUpper tbl c) = false := by
  by_cases h : c.toNat ≤ 0x7F
  · exact (ascii_ToUpper tbl c h).2.2 hc
  · have e : unicode.ToUpper tbl c = tbl c := by
      unfold unicode.ToUpper
      rw [if_neg h]
    rw [e]
    exact hsp c (by omega) hc

/-- C6, padding normalization: for every text `s`, `ParseKey(s)` returns the
same result (the same decoded bytes and the same error, if any) as `ParseKey`
applied to `s` with all whitespace removed and all letters upper-cased.  The
Unicode case table enters through two of its properties: above ASCII, the
upper-case form of a code point that is no white space is no white space, and
upper-casing it again changes nothing. -/
theorem C6_ParseKey_normalized (tbl : Char → Char) (s : List Char)
    (hsp : ∀ c, 0x7F < c.toNat → unicode.IsSpace c = false → unicode.IsSpace (tbl c) = false)
    (hid : ∀ c, 0x7F < c.toNat → unicode.ToUpper tbl (tbl c) = tbl c) :
    totp.ParseKey tbl s =
      totp.ParseKey tbl (strings.ToUpper tbl (strings.Join (strings.Fields s) [])) := by
  have hclean : ∀ c ∈ strings.ToUpper tbl (strings.Join (strings.Fields s) []),
      unicode.IsSpace c = false := by
    intro c hc
    rw [Join_Fields, strings.ToUpper] at hc
    obtain ⟨d, hd, rfl⟩ := List.mem_map.mp hc
    have hd2 := (List.mem_filter.mp hd).2
    exact ToUpper_not_space tbl hsp d (by simpa using hd2)
  have hupper : ∀ c ∈ strings.ToUpper tbl (strings.Join (strings.Fields s) []),
      unicode.ToUpper tbl c = c := by
    intro c hc
    rw [strings.ToUpper] at hc
    obtain ⟨d, -, rfl⟩ := List.mem_map.mp hc
    exact ToUpper_idem tbl hid d
  unfold totp.ParseKey
  rw [normalize_of_clean tbl _ hclean hupper]
  rfl

set_option maxRecDepth 100000 in
/-- C6, witness: a lower-case secret with blanks, a tab and a line feed; the case
table above ASCII is the identity. -/
theorem C6_ParseKey_normalized_witness :
    strings.ToUpper id (strings.Join (strings.Fields " jbsw y3dp\tehpk3pxp \n".toList) [])
      = "JBSWY3DPEHPK3PXP".toList ∧
    totp.ParseKey id "JBSWY3DPEHPK3PXP".toList
      = ([72, 101, 108, 108, 111, 33, 222, 173, 190, 239], none) ∧
    totp.ParseKey id " jbsw y3dp\tehpk3pxp \n".toList =
      totp.ParseKey id
        (strings.ToUpper id (strings.Join (strings.Fields " jbsw y3dp\tehpk3pxp \n".toList) [])) :=
  ⟨by decide!, by decide!,
    C6_ParseKey_normalized id " jbsw y3dp\tehpk3pxp \n".toList (fun _ _ h => h)
      (fun c hc => by
        show unicode.ToUpper id c = c
        unfold unicode.ToUpper
        rw [if_neg (by omega)]
        rfl)⟩

/-! ## Secrets that are not normalized -/

theorem readQuantum_no_padding (olen : Nat) :
    ∀ (r j : Nat) (src dbuf : List Nat), 61 ∉ src →
      (∃ off, base32.readQuantum olen r j src dbuf = .corrupt off) ∨
      (∃ d, r ≤ src.length ∧ base32.readQuantum olen r j src dbuf = .full d (src.drop r) ∧
        ∀ x ∈ src.take r, base32.decodeMap x ≠ 0xFF)
  | 0, j, src, dbuf, _ => Or.inr ⟨dbuf, Nat.zero_le _, rfl, by simp⟩
  | r + 1, j, [], dbuf, _ => Or.inl ⟨olen - j, rfl⟩
  | r + 1, j, c :: cs, dbuf, h => by
    have hc : c ≠ 61 := fun e => h (by simp [e])
    have hcs : 61 ∉ cs := fun e => h (List.mem_cons_of_mem _ e)
    rw [base32.readQuantum, if_neg (fun e => hc e.1)]
    by_cases hm : base32.decodeMap c = 0xFF
    · rw [if_pos hm]
      exact Or.inl ⟨_, rfl⟩
    · rw [if_neg hm]
      rcases readQuantum_no_padding olen r (j + 1) cs (dbuf ++ [base32.decodeMap c]) hcs with
        ⟨off, ho⟩ | ⟨d, hl, hd, hv⟩
      · exact Or.inl ⟨off, ho⟩
      · refine Or.inr ⟨d, by simpa using hl, by simpa using hd, ?_⟩
        intro x hx
        rw [List.take_succ_cons, List.mem_cons] at hx
        rcases hx with rfl | hx
        · exact hm
        · exact hv x hx

/-- Input without `=` that holds a byte outside the alphabet, or whose length
is not a multiple of eight, is rejected by the decoding loop. -/
theorem decodeLoop_rejects (olen : Nat) :
    ∀ (fuel : Nat) (src out : List Nat), 61 ∉ src → src.length ≤ fuel →
      ((∃ x ∈ src, base32.decodeMap x = 0xFF) ∨ src.length % 8 ≠ 0) →
      ∃ bytes off, base32.decodeLoop olen fuel src out = (bytes, some off)
  | 0, src, out, _, hf, hbad => by
    have : src = [] := List.eq_nil_of_length_eq_zero (by omega)
    subst this
    simp at hbad
  | fuel + 1, [], out, _, _, hbad => by simp at hbad
  | fuel + 1, c :: cs, out, h61, hf, hbad => by
    rw [base32.decodeLoop, if_neg (by simp)]
    rcases readQuantum_no_padding olen 8 0 (c :: cs) [] h61 with ⟨off, ho⟩ | ⟨d, hl, hd, hv⟩
    · rw [ho]
      exact ⟨out, off, rfl⟩
    · rw [hd]
      have h61' : 61 ∉ (c :: cs).drop 8 := fun e => h61 (List.mem_of_mem_drop e)
      have hlen : ((c :: cs).drop 8).length = (c :: cs).length - 8 := List.length_drop _ _
      apply decodeLoop_rejects olen fuel _ _ h61' (by simp only [List.length_cons] at hf hlen ⊢; omega)
      rcases hbad with ⟨x, hx, hxm⟩ | hmod
      · left
        rw [← List.take_append_drop 8 (c :: cs), List.mem_append] at hx
        rcases hx with hx | hx
        · exact absurd hxm (hv x hx)
        · exact ⟨x, hx, hxm⟩
      · right
        omega

theorem mem_bytesOf (x : Nat) (s : List Char) :
    x ∈ bytesOf s ↔ ∃ c ∈ s, x ∈ utf8Encode c := by
  induction s with
  | nil => simp [bytesOf]
  | cons c cs ih => simp [bytesOf, ih]

theorem utf8Encode_cases (c : Char) :
    (c.toNat < 0x80 ∧ utf8Encode c = [c.toNat]) ∨
    (0x80 ≤ c.toNat ∧ ∀ x ∈ utf8Encode c, 0x80 ≤ x) := by
  unfold utf8Encode
  dsimp only
  by_cases h1 : c.toNat < 0x80
  · left
    rw [if_pos h1]
    exact ⟨h1, rfl⟩
  · right
    refine ⟨by omega, ?_⟩
    rw [if_neg h1]
    intro x hx
    split_ifs at hx <;> simp only [List.mem_cons, List.mem_singleton, List.not_mem_nil,
      or_false] at hx <;> omega

theorem toNat_eq_iff (c : Char) (n : Nat) (h : c.toNat = n) : c = Char.ofNat n := by
  rw [← h, Char.ofNat_toNat]

/-- A secret without `=` that holds a character outside the alphabet `A` to
`Z`, `2` to `7` other than CR and LF (a lower-case letter, a white space, every
code point above ASCII), or whose length (CR and LF not counted) is not a
multiple of eight, does not decode. -/
theorem DecodeString_rejects (s : List Char) (hpad : '=' ∉ s)
    (hbad : (∃ c ∈ s, ¬ (65 ≤ c.toNat ∧ c.toNat ≤ 90) ∧ ¬ (50 ≤ c.toNat ∧ c.toNat ≤ 55) ∧
        c ≠ '\r' ∧ c ≠ '\n') ∨
      (base32.stripNewlines (bytesOf s)).length % 8 ≠ 0) :
    ∃ bytes off, base32.DecodeString s = (bytes, some off) := by
  unfold base32.DecodeString
  dsimp only
  apply decodeLoop_rejects _ _ _ _ ?_ (le_refl _) ?_
  · intro h
    have h2 := (List.mem_filter.mp h).1
    obtain ⟨c, hc, hx⟩ := (mem_bytesOf 61 s).mp h2
    rcases utf8Encode_cases c with ⟨-, he⟩ | ⟨-, hge⟩
    · rw [he, List.mem_singleton] at hx
      have := toNat_eq_iff c 61 hx.symm
      apply hpad
      rw [this] at hc
      exact hc
    · have := hge 61 hx
      omega
  · rcases hbad with ⟨c, hc, hA, h2, hr, hn⟩ | hlen
    · left
      have key : ∃ x ∈ utf8Encode c, base32.decodeMap x = 0xFF ∧ x ≠ 13 ∧ x ≠ 10 := by
        rcases utf8Encode_cases c with ⟨hlt, he⟩ | ⟨hge, hall⟩
        · have h13 : c.toNat ≠ 13 := fun e => hr (toNat_eq_iff c 13 e)
          have h10 : c.toNat ≠ 10 := fun e => hn (toNat_eq_iff c 10 e)
          refine ⟨c.toNat, by rw [he]; simp, ?_, h13, h10⟩
          unfold base32.decodeMap
          rw [if_neg hA, if_neg h2]
        · obtain ⟨x, hx⟩ := List.exists_mem_of_ne_nil _ (utf8Encode_ne_nil c)
          have := hall x hx
          refine ⟨x, hx, ?_, by omega, by omega⟩
          unfold base32.decodeMap
          rw [if_neg (by omega), if_neg (by omega)]
      obtain ⟨x, hx, hm, h13, h10⟩ := key
      refine ⟨x, ?_, hm⟩
      unfold base32.stripNewlines
      rw [List.mem_filter]
      exact ⟨(mem_bytesOf x s).mpr ⟨c, hc, hx⟩, by simp [h13, h10]⟩
    · right
      exact hlen

theorem computeCounter_ok (now t p : Int) (hp : p ≠ 0) :
    ∃ c, totp.computeCounter now t p = .ok c := by
  unfold totp.computeCounter
  dsimp only
  rw [if_neg hp]
  exact ⟨_, rfl⟩

theorem New_of_decode_error (tbl : Char → Char) (now : Int) (o : totp.Options)
    (bytes : List Nat) (off : Nat) (hne : o.Secret ≠ [])
    (hdec : base32.DecodeString o.Secret = (bytes, some off)) :
    totp.New tbl now o = .error (.badSecretKey off) := by
  have hp : (if o.Period = 0 then 30 else o.Period) ≠ 0 := by
    split_ifs with h
    · norm_num
    · exact h
  obtain ⟨c, hc⟩ := computeCounter_ok now o.UnixTime _ hp
  rw [New_eq, hc]
  dsimp only
  unfold generator.Generate
  dsimp only
  rw [if_neg hne, hdec]

/-- How far `New` is from normalizing: for every Digits, Algorithm, Period,
UnixTime and clock, `New` on a secret without `=` that holds a character
outside `A` to `Z`, `2` to `7` other than CR and LF, or whose byte length (CR
and LF not counted) is not a multiple of 8, returns the bad-secret-key error,
whatever its normalized form decodes to. -/
theorem New_rejects_unnormalized (tbl : Char → Char) (now : Int) (s : List Char) (d : Int)
    (a : List Char) (p t : Int) (hpad : '=' ∉ s)
    (hbad : (∃ c ∈ s, ¬ (65 ≤ c.toNat ∧ c.toNat ≤ 90) ∧ ¬ (50 ≤ c.toNat ∧ c.toNat ≤ 55) ∧
        c ≠ '\r' ∧ c ≠ '\n') ∨
      (base32.stripNewlines (bytesOf s)).length % 8 ≠ 0) :
    ∃ off, totp.New tbl now ⟨s, d, a, p, t⟩ = .error (.badSecretKey off) := by
  obtain ⟨bytes, off, hdec⟩ := DecodeString_rejects s hpad hbad
  have hne : s ≠ [] := by
    rintro rfl
    rcases hbad with ⟨c, hc, -⟩ | h
    · simp at hc
    · exact h rfl
  exact ⟨off, New_of_decode_error tbl now ⟨s, d, a, p, t⟩ bytes off hne hdec⟩

set_option maxRecDepth 100000 in
/-- C5, evaluation at the failing input: the normalized form of the lower-case
secret "jbswy3dpehpk3pxp" is "JBSWY3DPEHPK3PXP", and `ParseKey` decodes the
lower-case text to the ten bytes of the key; `New` on the normalized form
returns the code 45451783, but `New` on the lower-case text returns the
bad-secret-key error (illegal base32 data at input byte 0), because `Generate`
decodes `Secret` as it stands.  The same happens with an embedded blank (error
at byte 8) and with the padding left off (the secret of `TestParseURI`, error
at byte 24, where the normalized form gives 331676). -/
theorem C5_unnormalized_secret_evaluation :
    totp.normalize id "jbswy3dpehpk3pxp".toList = "JBSWY3DPEHPK3PXP".toList ∧
    totp.ParseKey id "jbswy3dpehpk3pxp".toList
      = ([72, 101, 108, 108, 111, 33, 222, 173, 190, 239], none) ∧
    base32.DecodeString "jbswy3dpehpk3pxp".toList = ([], some 0) ∧
    totp.New id 0 ⟨"jbswy3dpehpk3pxp".toList, 8, [], 15, 32158800000⟩
      = .error (.badSecretKey 0) ∧
    totp.New id 0 ⟨totp.normalize id "jbswy3dpehpk3pxp".toList, 8, [], 15, 32158800000⟩
      = .ok "45451783".toList ∧
    totp.New id 0 ⟨"JBSWY3DP EHPK3PXP".toList, 8, [], 15, 32158800000⟩
      = .error (.badSecretKey 8) ∧
    totp.New id 0 ⟨totp.normalize id "JBSWY3DP EHPK3PXP".toList, 8, [], 15, 32158800000⟩
      = .ok "45451783".toList ∧
    totp.normalize id "IRXW4J3UEBKGK3DMEBAW46KPNZSSC".toList
      = "IRXW4J3UEBKGK3DMEBAW46KPNZSSC===".toList ∧
    totp.New id 0 ⟨"IRXW4J3UEBKGK3DMEBAW46KPNZSSC".toList, 6, [], 30, 32158800⟩
      = .error (.badSecretKey 24) ∧
    totp.New id 0 ⟨totp.normalize id "IRXW4J3UEBKGK3DMEBAW46KPNZSSC".toList, 6, [], 30,
      32158800⟩ = .ok "331676".toList := by
  decide!

/-! ## Failure modes of generation -/

theorem Generate_divide_by_zero (o : generator.GenerateOptions) (key : List Nat) (h : hmac.Hash)
    (hne : o.Secret ≠ []) (hkey : base32.DecodeString o.Secret = (key, none))
    (halg : generator.selectHash o.Algorithm = some h) (hm : pow10Uint32 o.Digits = 0) :
    generator.Generate o = .panic .divideByZero := by
  have h20 : 20 ≤ (hmac.Sum h key (bytesBE 8 (toUint64 o.Counter))).length := by
    rw [hmac_Sum_length]
    rcases hash_size_cases h with e | e | e <;> omega
  unfold generator.Generate
  rw [if_neg hne, hkey]
  simp only [halg, truncate_eq _ h20, if_pos hm]

theorem pow10Uint32_pos (d : Int) (h0 : 0 ≤ d) (h18 : d ≤ 18) : 0 < pow10Uint32 d := by
  interval_cases d <;> decide

/-- Where generation does return: a non-empty valid secret, a supported
algorithm and Digits from 0 to 18 (0 stands for 6) give a code, whatever
Period, UnixTime and the clock are. -/
theorem New_returns (tbl : Char → Char) (now : Int) (o : totp.Options) (key : List Nat)
    (h : hmac.Hash) (hne : o.Secret ≠ [])
    (hkey : base32.DecodeString o.Secret = (key, none))
    (halg : generator.selectHash (generator.ToHashAlgorithm tbl o.Algorithm) = some h)
    (hd0 : 0 ≤ o.Digits) (hd18 : o.Digits ≤ 18) :
    ∃ code, totp.New tbl now o = .ok code := by
  have hp : (if o.Period = 0 then 30 else o.Period) ≠ 0 := by
    split_ifs with hz
    · norm_num
    · exact hz
  obtain ⟨c, hc⟩ := computeCounter_ok now o.UnixTime _ hp
  have hd : 0 ≤ (if o.Digits = 0 then 6 else o.Digits) ∧
      (if o.Digits = 0 then 6 else o.Digits) ≤ 18 := by
    split_ifs <;> omega
  obtain ⟨v, -, -, hG⟩ := Generate_ok
    ⟨o.Secret, c, if o.Digits = 0 then 6 else o.Digits,
      generator.ToHashAlgorithm tbl o.Algorithm⟩ key h hne hkey halg
    (pow10Uint32_pos _ hd.1 hd.2).ne'
  rw [New_eq, hc]
  exact ⟨_, hG⟩

set_option maxRecDepth 100000 in
/-- C11, evaluation at the failing input: the secret "JBSWY3DPEHPK3PXP" is
non-empty valid base32 and the algorithm is SHA1, but with Digits = -1 the
modulus `uint32(math.Pow10(-1))` is `uint32(0.1) = 0` and the modulo panics
with an integer divide by zero, in `Generate` and so in `New`. -/
theorem C11_negative_digits_evaluation :
    base32.DecodeString "JBSWY3DPEHPK3PXP".toList
      = ([72, 101, 108, 108, 111, 33, 222, 173, 190, 239], none) ∧
    generator.selectHash (generator.ToHashAlgorithm id "SHA1".toList) = some .sha1 ∧
    pow10Uint32 (-1) = 0 ∧
    generator.Generate ⟨"JBSWY3DPEHPK3PXP".toList, 1, -1, generator.SHA1⟩
      = .panic .divideByZero ∧
    totp.New id 0 ⟨"JBSWY3DPEHPK3PXP".toList, -1, "SHA1".toList, 30, 59⟩
      = .panic .divideByZero := by
  decide!

/-- C12, missing secret: for every request whose secret is the empty string,
`Generate` and `New` fail with the missing-secret error, whatever the counter,
the digits, the algorithm name (recognized or not), the period, the reference
time and the clock are. -/
theorem C12_missing_secret (tbl : Char → Char) (now : Int) (c d : Int) (a : List Char)
    (p t : Int) :
    generator.Generate ⟨[], c, d, a⟩ = .error .noSecretKey ∧
    totp.New tbl now ⟨[], d, a, p, t⟩ = .error .noSecretKey := by
  have hG : ∀ o : generator.GenerateOptions, o.Secret = [] →
      generator.Generate o = .error .noSecretKey := by
    intro o ho
    unfold generator.Generate
    rw [if_pos ho]
  refine ⟨hG _ rfl, ?_⟩
  have hp : (if p = 0 then 30 else p) ≠ 0 := by
    split_ifs with hz
    · norm_num
    · exact hz
  obtain ⟨c', hc⟩ := computeCounter_ok now t _ hp
  rw [New_eq]
  simp only []
  rw [hc]
  exact hG _ rfl

/-- C13, counterexample: the secret "a" is not empty and "MD5" is no supported
algorithm, yet generation fails with the bad-secret-key error: the secret is
decoded before the algorithm is selected. -/
theorem C13_counterexample :
    generator.ToHashAlgorithm id "MD5".toList = "MD5".toList ∧
    generator.selectHash "MD5".toList = none ∧
    generator.Generate ⟨"a".toList, 1, 6, "MD5".toList⟩ = .error (.badSecretKey 0) ∧
    totp.New id 0 ⟨"a".toList, 6, "MD5".toList, 30, 59⟩ = .error (.badSecretKey 0) := by
  decide

/-- C13, amended: for every request with a non-empty secret that is valid
base32 and an algorithm name that, after canonicalization (empty maps to SHA1,
otherwise upper-cased), is not one of SHA1, SHA256, SHA512, generation fails
with the invalid-algorithm error, whatever the counter and the digits are (no
hash is computed, no modulus taken). -/
theorem C13_invalid_algorithm (tbl : Char → Char) (now : Int) (o : totp.Options)
    (key : List Nat) (hne : o.Secret ≠ [])
    (hkey : base32.DecodeString o.Secret = (key, none))
    (h1 : generator.ToHashAlgorithm tbl o.Algorithm ≠ generator.SHA1)
    (h256 : generator.ToHashAlgorithm tbl o.Algorithm ≠ generator.SHA256)
    (h512 : generator.ToHashAlgorithm tbl o.Algorithm ≠ generator.SHA512) :
    totp.New tbl now o = .error .invalidAlgorithm ∧
    ∀ c d, generator.Generate ⟨o.Secret, c, d, generator.ToHashAlgorithm tbl o.Algorithm⟩
      = .error .invalidAlgorithm := by
  have hsel : generator.selectHash (generator.ToHashAlgorithm tbl o.Algorithm) = none := by
    unfold generator.selectHash
    rw [if_neg h1, if_neg h256, if_neg h512]
  have hG : ∀ c d, generator.Generate
      ⟨o.Secret, c, d, generator.ToHashAlgorithm tbl o.Algorithm⟩ = .error .invalidAlgorithm := by
    intro c d
    unfold generator.Generate
    rw [if_neg hne, hkey]
    simp only [hsel]
  refine ⟨?_, hG⟩
  have hp : (if o.Period = 0 then 30 else o.Period) ≠ 0 := by
    split_ifs with hz
    · norm_num
    · exact hz
  obtain ⟨c, hc⟩ := computeCounter_ok now o.UnixTime _ hp
  rw [New_eq, hc]
  exact hG _ _

/-- C13, witness: the valid secret "JBSWY3DPEHPK3PXP" with the algorithm name
"md5", also with Digits = -1. -/
theorem C13_invalid_algorithm_witness :
    totp.New id 0 ⟨"JBSWY3DPEHPK3PXP".toList, 6, "md5".toList, 30, 59⟩
      = .error .invalidAlgorithm ∧
    ∀ c d, generator.Generate ⟨"JBSWY3DPEHPK3PXP".toList, c, d,
      generator.ToHashAlgorithm id "md5".toList⟩ = .error .invalidAlgorithm :=
  C13_invalid_algorithm id 0 ⟨"JBSWY3DPEHPK3PXP".toList, 6, "md5".toList, 30, 59⟩
    [72, 101, 108, 108, 111, 33, 222, 173, 190, 239] (by decide) (by decide) (by decide)
    (by decide) (by decide)

/-! ## Text from bytes -/

theorem utf8DecodeFrom_lead (a l b : Nat) (bs : List Nat) :
    utf8DecodeFrom 0 a l (b :: bs) =
      if b < 0x80 then (utf8DecodeFrom 0 0 0 bs).map (fun r => Char.ofNat b :: r)
      else if 0xC0 ≤ b ∧ b < 0xE0 then utf8DecodeFrom 1 (b - 0xC0) 0x80 bs
      else if 0xE0 ≤ b ∧ b < 0xF0 then utf8DecodeFrom 2 (b - 0xE0) 0x800 bs
      else if 0xF0 ≤ b ∧ b < 0xF8 then utf8DecodeFrom 3 (b - 0xF0) 0x10000 bs
      else none := by
  rw [utf8DecodeFrom]

theorem utf8DecodeFrom_last (acc lo b : Nat) (bs : List Nat) (hb : 0x80 ≤ b ∧ b < 0xC0)
    (hv : lo ≤ acc * 64 + (b - 0x80) ∧ acc * 64 + (b - 0x80) < 0x110000 ∧
      ¬ (0xD800 ≤ acc * 64 + (b - 0x80) ∧ acc * 64 + (b - 0x80) < 0xE000)) :
    utf8DecodeFrom 1 acc lo (b :: bs) =
      (utf8DecodeFrom 0 0 0 bs).map (fun r => Char.ofNat (acc * 64 + (b - 0x80)) :: r) := by
  show utf8DecodeFrom (0 + 1) acc lo (b :: bs) = _
  rw [utf8DecodeFrom, if_pos hb, if_pos rfl, if_pos hv]

theorem utf8DecodeFrom_cont (need acc lo b : Nat) (bs : List Nat) (hb : 0x80 ≤ b ∧ b < 0xC0) :
    utf8DecodeFrom (need + 2) acc lo (b :: bs) =
      utf8DecodeFrom (need + 1) (acc * 64 + (b - 0x80)) lo bs := by
  show utf8DecodeFrom (need + 1 + 1) acc lo (b :: bs) = _
  rw [utf8DecodeFrom, if_pos hb, if_neg (Nat.succ_ne_zero need)]

theorem utf8DecodeFrom_encode (c : Char) (rest : List Nat) :
    utf8DecodeFrom 0 0 0 (utf8Encode c ++ rest) =
      (utf8DecodeFrom 0 0 0 rest).map (fun r => c :: r) := by
  have hv : c.toNat < 0xD800 ∨ (0xDFFF < c.toNat ∧ c.toNat < 0x110000) := c.valid
  have hc : Char.ofNat c.toNat = c := Char.ofNat_toNat c
  unfold utf8Encode
  dsimp only
  generalize c.toNat = n at hv hc
  by_cases h1 : n < 0x80
  · rw [if_pos h1, List.singleton_append, utf8DecodeFrom_lead, if_pos h1, hc]
  · rw [if_neg h1]
    by_cases h2 : n < 0x800
    · rw [if_pos h2]
      have e : (0xC0 + n / 64 - 0xC0) * 64 + (0x80 + n % 64 - 0x80) = n := by omega
      rw [List.cons_append, List.singleton_append, utf8DecodeFrom_lead, if_neg (by omega),
        if_pos (by omega),
        utf8DecodeFrom_last _ _ _ _ (by omega) (by rw [e]; omega), e, hc]
    · rw [if_neg h2]
      by_cases h3 : n < 0x10000
      · rw [if_pos h3]
        have e : ((0xE0 + n / 4096 - 0xE0) * 64 + (0x80 + n / 64 % 64 - 0x80)) * 64 +
            (0x80 + n % 64 - 0x80) = n := by omega
        rw [List.cons_append, List.cons_append, List.singleton_append, utf8DecodeFrom_lead,
          if_neg (by omega), if_neg (by omega), if_pos (by omega),
          utf8DecodeFrom_cont 0 _ _ _ _ (by omega),
          utf8DecodeFrom_last _ _ _ _ (by omega) (by rw [e]; omega), e, hc]
      · rw [if_neg h3]
        have e : (((0xF0 + n / 262144 - 0xF0) * 64 + (0x80 + n / 4096 % 64 - 0x80)) * 64 +
            (0x80 + n / 64 % 64 - 0x80)) * 64 + (0x80 + n % 64 - 0x80) = n := by omega
        rw [List.cons_append, List.cons_append, List.cons_append, List.singleton_append,
          utf8DecodeFrom_lead, if_neg (by omega), if_neg (by omega), if_neg (by omega),
          if_pos (by omega), utf8DecodeFrom_cont 1 _ _ _ _ (by omega),
          utf8DecodeFrom_cont 0 _ _ _ _ (by omega),
          utf8DecodeFrom_last _ _ _ _ (by omega) (by rw [e]; omega), e, hc]

/-- Decoding the bytes of a text gives the text back: `utf8Decode` inverts the
embedding of Go strings. -/
theorem utf8Decode_bytesOf (s : List Char) : utf8Decode (bytesOf s) = some s := by
  induction s with
  | nil => rfl
  | cons c cs ih =>
    unfold utf8Decode at ih ⊢
    rw [bytesOf, utf8DecodeFrom_encode, ih]
    rfl

/-! ## Integers in text -/

theorem digit?_of_digit (c : Char) (h : 48 ≤ c.toNat ∧ c.toNat ≤ 57) :
    strconv.digit? c = some (c.toNat - 48) := by
  simp [strconv.digit?, h]

theorem digit?_of_not_digit (c : Char) (h : ¬ (48 ≤ c.toNat ∧ c.toNat ≤ 57)) :
    strconv.digit? c = none := by
  simp only [strconv.digit?, if_neg h]

theorem digits_foldl_ge (s : List Char) (n : Nat) :
    n ≤ s.foldl (fun acc c => acc * 10 + (c.toNat - 48)) n := by
  induction s generalizing n with
  | nil => simp
  | cons c cs ih =>
    simp only [List.foldl_cons]
    exact le_trans (by omega) (ih _)

theorem digits_foldl_lt (s : List Char) (n : Nat)
    (hs : ∀ c ∈ s, 48 ≤ c.toNat ∧ c.toNat ≤ 57) :
    s.foldl (fun acc c => acc * 10 + (c.toNat - 48)) n < (n + 1) * 10 ^ s.length := by
  induction s generalizing n with
  | nil => simp
  | cons c cs ih =>
    simp only [List.foldl_cons, List.length_cons]
    have hc := hs c (List.mem_cons_self _ _)
    have h := ih (n * 10 + (c.toNat - 48)) (fun x hx => hs x (List.mem_cons_of_mem _ hx))
    have h2 : (n * 10 + (c.toNat - 48) + 1) * 10 ^ cs.length ≤ (n + 1) * 10 ^ (cs.length + 1) := by
      rw [pow_succ, ← mul_assoc, mul_comm ((n + 1) * 10 ^ cs.length) 10, ← mul_assoc]
      exact Nat.mul_le_mul_right _ (by omega)
    omega

theorem decimalValue_lt (s : List Char) (hs : ∀ c ∈ s, 48 ≤ c.toNat ∧ c.toNat ≤ 57) :
    decimalValue s < 10 ^ s.length := by
  have := digits_foldl_lt s 0 hs
  simpa [decimalValue] using this

/-- On a text of digits the loop of `ParseUint` returns the value, unless the
value exceeds 64 bits. -/
theorem parseUintLoop_digits (s : List Char) (n : Nat) (hn : n ≤ 2 ^ 64 - 1)
    (hs : ∀ c ∈ s, 48 ≤ c.toNat ∧ c.toNat ≤ 57) :
    strconv.parseUintLoop n s =
      if s.foldl (fun acc c => acc * 10 + (c.toNat - 48)) n ≤ 2 ^ 64 - 1 then
        .ok (s.foldl (fun acc c => acc * 10 + (c.toNat - 48)) n)
      else .error .range := by
  induction s generalizing n with
  | nil =>
    simp only [strconv.parseUintLoop, List.foldl_nil]
    rw [if_pos hn]
  | cons c cs ih =>
    have hc := hs c (List.mem_cons_self _ _)
    have hcs : ∀ x ∈ cs, 48 ≤ x.toNat ∧ x.toNat ≤ 57 :=
      fun x hx => hs x (List.mem_cons_of_mem _ hx)
    have hge := digits_foldl_ge cs (n * 10 + (c.toNat - 48))
    simp only [strconv.parseUintLoop, digit?_of_digit c hc, List.foldl_cons]
    by_cases h1 : n ≥ (2 ^ 64 - 1) / 10 + 1
    · rw [if_pos h1, if_neg]
      have : (2 ^ 64 - 1) / 10 + 1 = 1844674407370955162 := by norm_num
      omega
    · rw [if_neg h1]
      by_cases h2 : n * 10 + (c.toNat - 48) > 2 ^ 64 - 1
      · rw [if_pos h2, if_neg]
        omega
      · rw [if_neg h2]
        exact ih _ (by omega) hcs

/-- On a text with a character that is no digit the loop of `ParseUint`
returns an error. -/
theorem parseUintLoop_not_digits (s : List Char) (n : Nat)
    (hs : ¬ ∀ c ∈ s, 48 ≤ c.toNat ∧ c.toNat ≤ 57) :
    ∃ k, strconv.parseUintLoop n s = .error k := by
  induction s generalizing n with
  | nil => simp at hs
  | cons c cs ih =>
    by_cases hc : 48 ≤ c.toNat ∧ c.toNat ≤ 57
    · have hcs : ¬ ∀ x ∈ cs, 48 ≤ x.toNat ∧ x.toNat ≤ 57 := by
        intro h
        apply hs
        intro x hx
        rcases List.mem_cons.1 hx with rfl | hx
        · exact hc
        · exact h x hx
      simp only [strconv.parseUintLoop, digit?_of_digit c hc]
      split_ifs
      · exact ⟨_, rfl⟩
      · exact ⟨_, rfl⟩
      · exact ih _ hcs
    · exact ⟨.invalid, by simp only [strconv.parseUintLoop, digit?_of_not_digit c hc]⟩

theorem atoiLoop_digits (s : List Char) (n : Nat)
    (hs : ∀ c ∈ s, 48 ≤ c.toNat ∧ c.toNat ≤ 57) :
    strconv.atoiLoop n s = some (s.foldl (fun acc c => acc * 10 + (c.toNat - 48)) n) := by
  induction s generalizing n with
  | nil => rfl
  | cons c cs ih =>
    simp only [strconv.atoiLoop, digit?_of_digit c (hs c (List.mem_cons_self _ _)),
      List.foldl_cons]
    exact ih _ (fun x hx => hs x (List.mem_cons_of_mem _ hx))

theorem atoiLoop_not_digits (s : List Char) (n : Nat)
    (hs : ¬ ∀ c ∈ s, 48 ≤ c.toNat ∧ c.toNat ≤ 57) :
    strconv.atoiLoop n s = none := by
  induction s generalizing n with
  | nil => simp at hs
  | cons c cs ih =>
    by_cases hc : 48 ≤ c.toNat ∧ c.toNat ≤ 57
    · have hcs : ¬ ∀ x ∈ cs, 48 ≤ x.toNat ∧ x.toNat ≤ 57 := by
        intro h
        apply hs
        intro x hx
        rcases List.mem_cons.1 hx with rfl | hx
        · exact hc
        · exact h x hx
      simp only [strconv.atoiLoop, digit?_of_digit c hc]
      exact ih _ hcs
    · simp only [strconv.atoiLoop, digit?_of_not_digit c hc]

theorem ParseUint_digits (b : List Char) (hb : b ≠ [])
    (hd : ∀ c ∈ b, 48 ≤ c.toNat ∧ c.toNat ≤ 57) :
    strconv.ParseUint b =
      if decimalValue b ≤ 2 ^ 64 - 1 then .ok (decimalValue b) else .error .range := by
  rw [strconv.ParseUint, if_neg hb, parseUintLoop_digits b 0 (by norm_num) hd]
  rfl

theorem ParseUint_not_digits (b : List Char)
    (hd : ¬ (b ≠ [] ∧ ∀ c ∈ b, 48 ≤ c.toNat ∧ c.toNat ≤ 57)) :
    ∃ k, strconv.ParseUint b = .error k := by
  unfold strconv.ParseUint
  by_cases hb : b = []
  · exact ⟨.invalid, by rw [if_pos hb]⟩
  · rw [if_neg hb]
    exact parseUintLoop_not_digits b 0 (fun h => hd ⟨hb, h⟩)

/-- `ParseInt(s, 10, 64)` returns the integer the text denotes, and an error
for a text that denotes none. -/
theorem parseInt64_spec (s : List Char) :
    (∀ v, integerValue s = some v → strconv.parseInt64 s = .ok v) ∧
    (integerValue s = none → ∃ k, strconv.parseInt64 s = .error k) := by
  unfold integerValue strconv.parseInt64
  dsimp only
  by_cases hs : s = []
  · subst hs
    simp
  rw [if_neg hs]
  generalize (if s.head? = some '+' ∨ s.head? = some '-' then s.tail else s) = b
  by_cases hd : b ≠ [] ∧ ∀ c ∈ b, 48 ≤ c.toNat ∧ c.toNat ≤ 57
  · rw [if_pos hd, ParseUint_digits b hd.1 hd.2]
    by_cases hneg : s.head? = some '-'
    · simp only [hneg, if_true, true_and, not_true_eq_false, false_and, if_false]
      by_cases h64 : decimalValue b ≤ 2 ^ 64 - 1
      · rw [if_pos h64]
        by_cases h63 : decimalValue b > 2 ^ 63
        · simp only [if_pos h63]
          rw [if_neg (by omega)]
          simp
        · simp only [if_neg h63]
          rw [if_pos (by omega)]
          simp
      · rw [if_neg h64, if_neg (by omega)]
        simp
    · simp only [hneg, if_false, false_and, not_false_eq_true, true_and]
      by_cases h64 : decimalValue b ≤ 2 ^ 64 - 1
      · rw [if_pos h64]
        by_cases h63 : decimalValue b ≥ 2 ^ 63
        · simp only [if_pos h63]
          rw [if_neg (by omega)]
          simp
        · simp only [if_neg h63]
          rw [if_pos (by omega)]
          simp
      · rw [if_neg h64, if_neg (by omega)]
        simp
  · rw [if_neg hd]
    obtain ⟨k, hk⟩ := ParseUint_not_digits b hd
    rw [hk]
    refine ⟨fun v h => by simp at h, fun _ => ?_⟩
    cases k
    · exact ⟨_, rfl⟩
    · exact ⟨_, rfl⟩

theorem ParseInt_spec (s : List Char) :
    (∀ v, integerValue s = some v → strconv.ParseInt s = .ok v) ∧
    (integerValue s = none → ∃ k, strconv.ParseInt s = .error ⟨.ParseInt, k⟩) := by
  obtain ⟨h1, h2⟩ := parseInt64_spec s
  refine ⟨fun v hv => ?_, fun hn => ?_⟩
  · rw [strconv.ParseInt, h1 v hv]
  · obtain ⟨k, hk⟩ := h2 hn
    exact ⟨k, by rw [strconv.ParseInt, hk]⟩

theorem length_le_len (s : List Char) : s.length ≤ len s := by
  induction s with
  | nil => simp
  | cons c cs ih =>
    have h := utf8Encode_ne_nil c
    have h1 : 1 ≤ (utf8Encode c).length := by
      rcases hc : utf8Encode c with _ | ⟨x, xs⟩
      · exact absurd hc h
      · simp
    simp only [len, bytesOf, List.length_append, List.length_cons] at ih ⊢
    omega

/-- `Atoi` returns the integer the text denotes, and an error for a text that
denotes none, on its fast path as on its slow path. -/
theorem Atoi_spec (s : List Char) :
    (∀ v, integerValue s = some v → strconv.Atoi s = .ok v) ∧
    (integerValue s = none → ∃ k, strconv.Atoi s = .error ⟨.Atoi, k⟩) := by
  by_cases hf : 0 < len s ∧ len s < 19
  · have hlen := length_le_len s
    unfold integerValue strconv.Atoi
    dsimp only
    rw [if_pos hf]
    have hor : (s.head? = some '-' ∨ s.head? = some '+') ↔
        (s.head? = some '+' ∨ s.head? = some '-') := or_comm
    simp only [hor]
    have hbl : (if s.head? = some '+' ∨ s.head? = some '-' then s.tail else s).length
        ≤ s.length := by
      split_ifs
      · simp
      · exact le_refl _
    generalize (if s.head? = some '+' ∨ s.head? = some '-' then s.tail else s) = b at hbl ⊢
    by_cases hb : b = []
    · subst hb
      simp
    · rw [if_neg hb]
      by_cases hd : ∀ c ∈ b, 48 ≤ c.toNat ∧ c.toNat ≤ 57
      · rw [if_pos ⟨hb, hd⟩, atoiLoop_digits b 0 hd]
        have hv : decimalValue b < 10 ^ 18 :=
          lt_of_lt_of_le (decimalValue_lt b hd) (Nat.pow_le_pow_right (by norm_num) (by omega))
        have hfold : b.foldl (fun acc c => acc * 10 + (c.toNat - 48)) 0 = decimalValue b := rfl
        simp only [hfold]
        by_cases hneg : s.head? = some '-'
        · simp only [hneg, if_true]
          rw [if_pos (by constructor <;> omega)]
          simp
        · simp only [hneg, if_false]
          rw [if_pos (by constructor <;> omega)]
          simp
      · rw [if_neg (fun h => hd h.2), atoiLoop_not_digits b 0 hd]
        simp
  · obtain ⟨h1, h2⟩ := parseInt64_spec s
    refine ⟨fun v hv => ?_, fun hn => ?_⟩
    · rw [strconv.Atoi, if_neg hf, h1 v hv]
    · obtain ⟨k, hk⟩ := h2 hn
      exact ⟨k, by rw [strconv.Atoi, if_neg hf, hk]⟩

theorem Values.Get_of_missing (q : url.Values) (k : List Char) (h : ∀ p ∈ q, p.1 ≠ k) :
    url.Values.Get q k = [] := by
  induction q with
  | nil => rfl
  | cons p ps ih =>
    obtain ⟨a, b⟩ := p
    have ha : a ≠ k := h (a, b) (List.mem_cons_self _ _)
    simp only [url.Values.Get, if_neg ha]
    exact ih (fun x hx => h x (List.mem_cons_of_mem _ hx))

/-- A pair under another key does not change what `Get` returns. -/
theorem Values.Get_insert (q1 q2 : url.Values) (k v key : List Char) (h : k ≠ key) :
    url.Values.Get (q1 ++ (k, v) :: q2) key = url.Values.Get (q1 ++ q2) key := by
  induction q1 with
  | nil => simp only [List.nil_append, url.Values.Get, if_neg h]
  | cons p ps ih =>
    obtain ⟨a, b⟩ := p
    show (if a = key then b else url.Values.Get (ps ++ (k, v) :: q2) key) =
      (if a = key then b else url.Values.Get (ps ++ q2) key)
    rw [ih]

/-! ## `ParseURI` -/

theorem len_pos_iff (s : List Char) : len s > 0 ↔ s ≠ [] := by
  rw [gt_iff_lt, Nat.pos_iff_ne_zero, Ne, len_eq_zero_iff]

/-- What the check of `digits` in `ParseURI` yields. -/
theorem digits_value (v : List Char) :
    (v = [] → (if len v > 0 then strconv.Atoi v else .ok 6) = .ok 6) ∧
    (∀ d, v ≠ [] → integerValue v = some d →
      (if len v > 0 then strconv.Atoi v else .ok 6) = .ok d) ∧
    (v ≠ [] → integerValue v = none →
      ∃ k, (if len v > 0 then strconv.Atoi v else .ok 6) = .error ⟨.Atoi, k⟩) := by
  refine ⟨fun h => ?_, fun d h hd => ?_, fun h hn => ?_⟩
  · rw [if_neg (fun hl => (len_pos_iff v).1 hl h)]
  · rw [if_pos ((len_pos_iff v).2 h)]
    exact (Atoi_spec v).1 d hd
  · rw [if_pos ((len_pos_iff v).2 h)]
    exact (Atoi_spec v).2 hn

/-- What the check of `period` in `ParseURI` yields. -/
theorem period_value (v : List Char) :
    (v = [] → (if len v > 0 then strconv.ParseInt v else .ok 30) = .ok 30) ∧
    (∀ d, v ≠ [] → integerValue v = some d →
      (if len v > 0 then strconv.ParseInt v else .ok 30) = .ok d) ∧
    (v ≠ [] → integerValue v = none →
      ∃ k, (if len v > 0 then strconv.ParseInt v else .ok 30) = .error ⟨.ParseInt, k⟩) := by
  refine ⟨fun h => ?_, fun d h hd => ?_, fun h hn => ?_⟩
  · rw [if_neg (fun hl => (len_pos_iff v).1 hl h)]
  · rw [if_pos ((len_pos_iff v).2 h)]
    exact (ParseInt_spec v).1 d hd
  · rw [if_pos ((len_pos_iff v).2 h)]
    exact (ParseInt_spec v).2 hn

theorem ParseURI_parse_error (tbl : Char → Char) (orbit : Char → Char → Bool)
    (parse : List Char → Except url.Error url.URL) (u : List Char) (e : url.Error)
    (hp : parse u = .error e) :
    totp.ParseURI tbl orbit parse u = .error (.parse e) := by
  simp only [totp.ParseURI, hp]

theorem ParseURI_kind (tbl : Char → Char) (orbit : Char → Char → Bool)
    (parse : List Char → Except url.Error url.URL) (u : List Char) (uri : url.URL)
    (hp : parse u = .ok uri) (hh : strings.EqualFold orbit uri.Host "totp".toList = false) :
    totp.ParseURI tbl orbit parse u = .error .unsupportedKind := by
  simp only [totp.ParseURI, hp, hh, Bool.not_false, if_true]

theorem ParseURI_secret_empty (tbl : Char → Char) (orbit : Char → Char → Bool)
    (parse : List Char → Except url.Error url.URL) (u : List Char) (uri : url.URL)
    (hp : parse u = .ok uri) (hh : strings.EqualFold orbit uri.Host "totp".toList = true)
    (hs : uri.Query.Get "secret".toList = []) :
    totp.ParseURI tbl orbit parse u = .error .secretEmpty := by
  simp only [totp.ParseURI, hp, hh, hs]
  rfl

/-- With the host `totp` and a secret value that is not empty, `ParseURI`
goes on to the numbers: first `digits`, then `period`. -/
theorem ParseURI_numbers (tbl : Char → Char) (orbit : Char → Char → Bool)
    (parse : List Char → Except url.Error url.URL) (u : List Char) (uri : url.URL)
    (hp : parse u = .ok uri) (hh : strings.EqualFold orbit uri.Host "totp".toList = true)
    (hs : uri.Query.Get "secret".toList ≠ []) :
    totp.ParseURI tbl orbit parse u =
      match (if len (uri.Query.Get "digits".toList) > 0
          then strconv.Atoi (uri.Query.Get "digits".toList) else .ok 6) with
      | .error e => .error (.number e)
      | .ok digits =>
        match (if len (uri.Query.Get "period".toList) > 0
            then strconv.ParseInt (uri.Query.Get "period".toList) else .ok 30) with
        | .error e => .error (.number e)
        | .ok period =>
          .ok ⟨totp.normalize tbl (uri.Query.Get "secret".toList), digits,
            uri.Query.Get "algorithm".toList, period, 0⟩ := by
  have hl : ¬ len (uri.Query.Get "secret".toList) = 0 := fun h => hs ((len_eq_zero_iff _).1 h)
  simp only [totp.ParseURI, hp, hh, Bool.not_true, if_neg hl]
  rfl

/-- The outcome of `ParseURI` when host and secret pass: an error of `Atoi`
for a bad `digits`, else an error of `ParseInt` for a bad `period`, else the
options. -/
theorem ParseURI_outcome (tbl : Char → Char) (orbit : Char → Char → Bool)
    (parse : List Char → Except url.Error url.URL) (u : List Char) (uri : url.URL)
    (hp : parse u = .ok uri) (hh : strings.EqualFold orbit uri.Host "totp".toList = true)
    (hs : uri.Query.Get "secret".toList ≠ []) :
    (uri.Query.Get "digits".toList ≠ [] ∧ integerValue (uri.Query.Get "digits".toList) = none →
      ∃ k, totp.ParseURI tbl orbit parse u = .error (.number ⟨.Atoi, k⟩)) ∧
    (¬ (uri.Query.Get "digits".toList ≠ [] ∧
        integerValue (uri.Query.Get "digits".toList) = none) →
      uri.Query.Get "period".toList ≠ [] ∧ integerValue (uri.Query.Get "period".toList) = none →
      ∃ k, totp.ParseURI tbl orbit parse u = .error (.number ⟨.ParseInt, k⟩)) ∧
    (¬ (uri.Query.Get "digits".toList ≠ [] ∧
        integerValue (uri.Query.Get "digits".toList) = none) →
      ¬ (uri.Query.Get "period".toList ≠ [] ∧
        integerValue (uri.Query.Get "period".toList) = none) →
      totp.ParseURI tbl orbit parse u =
        .ok ⟨totp.normalize tbl (uri.Query.Get "secret".toList),
          if uri.Query.Get "digits".toList = [] then 6
            else (integerValue (uri.Query.Get "digits".toList)).getD 0,
          uri.Query.Get "algorithm".toList,
          if uri.Query.Get "period".toList = [] then 30
            else (integerValue (uri.Query.Get "period".toList)).getD 0, 0⟩) := by
  rw [ParseURI_numbers tbl orbit parse u uri hp hh hs]
  generalize uri.Query.Get "digits".toList = dv
  generalize uri.Query.Get "period".toList = pv
  obtain ⟨d1, d2, d3⟩ := digits_value dv
  obtain ⟨p1, p2, p3⟩ := period_value pv
  have hD : ¬ (dv ≠ [] ∧ integerValue dv = none) →
      (if len dv > 0 then strconv.Atoi dv else .ok 6) =
        .ok (if dv = [] then 6 else (integerValue dv).getD 0) := by
    intro hnb
    by_cases hd : dv = []
    · rw [d1 hd, if_pos hd]
    · rw [if_neg hd]
      rcases hi : integerValue dv with _ | d
      · exact absurd ⟨hd, hi⟩ hnb
      · exact d2 d hd hi
  have hP : ¬ (pv ≠ [] ∧ integerValue pv = none) →
      (if len pv > 0 then strconv.ParseInt pv else .ok 30) =
        .ok (if pv = [] then 30 else (integerValue pv).getD 0) := by
    intro hnb
    by_cases hd : pv = []
    · rw [p1 hd, if_pos hd]
    · rw [if_neg hd]
      rcases hi : integerValue pv with _ | d
      · exact absurd ⟨hd, hi⟩ hnb
      · exact p2 d hd hi
  refine ⟨fun hb => ?_, fun hnb hb => ?_, fun hnd hnp => ?_⟩
  · obtain ⟨k, hk⟩ := d3 hb.1 hb.2
    exact ⟨k, by rw [hk]⟩
  · obtain ⟨k, hk⟩ := p3 hb.1 hb.2
    exact ⟨k, by rw [hD hnb, hk]⟩
  · rw [hD hnd, hP hnp]

/-- The outcomes of `ParseURI` on a URI that parses with the host `totp`. -/
theorem ParseURI_after_kind (tbl : Char → Char) (orbit : Char → Char → Bool)
    (parse : List Char → Except url.Error url.URL) (u : List Char) (uri : url.URL)
    (hp : parse u = .ok uri) (hh : strings.EqualFold orbit uri.Host "totp".toList = true) :
    (uri.Query.Get "secret".toList = [] ∧
      totp.ParseURI tbl orbit parse u = .error .secretEmpty) ∨
    (uri.Query.Get "secret".toList ≠ [] ∧
      ((uri.Query.Get "digits".toList ≠ [] ∧
          integerValue (uri.Query.Get "digits".toList) = none) ∨
        (uri.Query.Get "period".toList ≠ [] ∧
          integerValue (uri.Query.Get "period".toList) = none)) ∧
      ∃ e, totp.ParseURI tbl orbit parse u = .error (.number e)) ∨
    (uri.Query.Get "secret".toList ≠ [] ∧
      ¬ (uri.Query.Get "digits".toList ≠ [] ∧
          integerValue (uri.Query.Get "digits".toList) = none) ∧
      ¬ (uri.Query.Get "period".toList ≠ [] ∧
          integerValue (uri.Query.Get "period".toList) = none) ∧
      totp.ParseURI tbl orbit parse u =
        .ok ⟨totp.normalize tbl (uri.Query.Get "secret".toList),
          if uri.Query.Get "digits".toList = [] then 6
            else (integerValue (uri.Query.Get "digits".toList)).getD 0,
          uri.Query.Get "algorithm".toList,
          if uri.Query.Get "period".toList = [] then 30
            else (integerValue (uri.Query.Get "period".toList)).getD 0, 0⟩) := by
  by_cases hs : uri.Query.Get "secret".toList = []
  · exact Or.inl ⟨hs, ParseURI_secret_empty tbl orbit parse u uri hp hh hs⟩
  · obtain ⟨h1, h2, h3⟩ := ParseURI_outcome tbl orbit parse u uri hp hh hs
    by_cases hd : uri.Query.Get "digits".toList ≠ [] ∧
        integerValue (uri.Query.Get "digits".toList) = none
    · obtain ⟨k, hk⟩ := h1 hd
      exact Or.inr (Or.inl ⟨hs, Or.inl hd, _, hk⟩)
    · by_cases hpd : uri.Query.Get "period".toList ≠ [] ∧
          integerValue (uri.Query.Get "period".toList) = none
      · obtain ⟨k, hk⟩ := h2 hd hpd
        exact Or.inr (Or.inl ⟨hs, Or.inr hpd, _, hk⟩)
      · exact Or.inr (Or.inr ⟨hs, hd, hpd, h3 hd hpd⟩)

/-- C14, the order of the checks of `ParseURI`: on a URI that `url.Parse`
accepts, `ParseURI` fails with the unsupported-kind error exactly when the host
is not equal to `totp` under case folding (whatever the query holds); with the
host `totp`, it fails with "secret cannot be empty" exactly when `Get` returns
the empty text for `secret`, which it does when the key is missing; with a
secret that is not empty, it fails with the error of the integer parser exactly
when the value of `digits` or of `period` is not empty and denotes no integer;
in the remaining case it returns options.  A pair under a key other than
`secret`, `algorithm`, `digits` and `period`, added anywhere in the query, does
not change the outcome. -/
theorem C14_outcome_order (tbl : Char → Char) (orbit : Char → Char → Bool)
    (parse : List Char → Except url.Error url.URL) (u : List Char) (uri : url.URL)
    (hp : parse u = .ok uri) :
    (totp.ParseURI tbl orbit parse u = .error .unsupportedKind ↔
      strings.EqualFold orbit uri.Host "totp".toList = false) ∧
    (strings.EqualFold orbit uri.Host "totp".toList = true →
      (totp.ParseURI tbl orbit parse u = .error .secretEmpty ↔
        uri.Query.Get "secret".toList = []) ∧
      ((∀ p ∈ uri.Query, p.1 ≠ "secret".toList) →
        totp.ParseURI tbl orbit parse u = .error .secretEmpty) ∧
      (uri.Query.Get "secret".toList ≠ [] →
        ((∃ e, totp.ParseURI tbl orbit parse u = .error (.number e)) ↔
          (uri.Query.Get "digits".toList ≠ [] ∧
            integerValue (uri.Query.Get "digits".toList) = none) ∨
          (uri.Query.Get "period".toList ≠ [] ∧
            integerValue (uri.Query.Get "period".toList) = none)) ∧
        (¬ ((uri.Query.Get "digits".toList ≠ [] ∧
              integerValue (uri.Query.Get "digits".toList) = none) ∨
            (uri.Query.Get "period".toList ≠ [] ∧
              integerValue (uri.Query.Get "period".toList) = none)) →
          ∃ o, totp.ParseURI tbl orbit parse u = .ok o))) ∧
    (∀ (q1 q2 : url.Values) (k v u' : List Char), uri.Query = q1 ++ q2 →
      k ≠ "secret".toList → k ≠ "algorithm".toList → k ≠ "digits".toList →
      k ≠ "period".toList → parse u' = .ok ⟨uri.Host, q1 ++ (k, v) :: q2⟩ →
      totp.ParseURI tbl orbit parse u' = totp.ParseURI tbl orbit parse u) := by
  refine ⟨⟨fun h => ?_, fun h => ParseURI_kind tbl orbit parse u uri hp h⟩, fun hh => ?_, ?_⟩
  · by_contra hne
    have hh : strings.EqualFold orbit uri.Host "totp".toList = true := by
      simpa using hne
    rcases ParseURI_after_kind tbl orbit parse u uri hp hh with
      ⟨-, e⟩ | ⟨-, -, e', e⟩ | ⟨-, -, -, e⟩ <;> rw [e] at h <;> cases h
  · have key := ParseURI_after_kind tbl orbit parse u uri hp hh
    refine ⟨⟨fun h => ?_, fun h => ParseURI_secret_empty tbl orbit parse u uri hp hh h⟩,
      fun h => ParseURI_secret_empty tbl orbit parse u uri hp hh
        (Values.Get_of_missing _ _ h), fun hs => ⟨⟨fun ⟨e, h⟩ => ?_, fun h => ?_⟩, fun h => ?_⟩⟩
    · rcases key with ⟨hs, -⟩ | ⟨-, -, e', e⟩ | ⟨-, -, -, e⟩
      · exact hs
      · rw [e] at h; cases h
      · rw [e] at h; cases h
    · rcases key with ⟨hs', -⟩ | ⟨-, hb, -⟩ | ⟨-, -, -, e'⟩
      · exact absurd hs' hs
      · exact hb
      · rw [e'] at h; cases h
    · rcases key with ⟨hs', -⟩ | ⟨-, -, e⟩ | ⟨-, hd, hpd, -⟩
      · exact absurd hs' hs
      · exact e
      · rcases h with h | h
        · exact absurd h hd
        · exact absurd h hpd
    · rcases key with ⟨hs', -⟩ | ⟨-, hb, -⟩ | ⟨-, -, -, e⟩
      · exact absurd hs' hs
      · exact absurd hb h
      · exact ⟨_, e⟩
  · intro q1 q2 k v u' hq h1 h2 h3 h4 hp'
    simp only [totp.ParseURI, hp, hp', hq, Values.Get_insert q1 q2 k v _ h1,
      Values.Get_insert q1 q2 k v _ h2, Values.Get_insert q1 q2 k v _ h3,
      Values.Get_insert q1 q2 k v _ h4]

set_option maxRecDepth 100000 in
/-- C14, witness: the host `hotp` without a secret gives the unsupported-kind
error; the host `TOTP` without a secret gives "secret cannot be empty"; a value
of `digits` or of `period` that is no integer gives the error of `Atoi` or of
`ParseInt`; the key `issuer` changes none of these. -/
theorem C14_outcome_order_witness :
    url.Parse "otpauth://hotp/Acme?issuer=Acme".toList
      = .ok ⟨"hotp".toList, [("issuer".toList, "Acme".toList)]⟩ ∧
    totp.ParseURI id (fun _ _ => false) url.Parse "otpauth://hotp/Acme?issuer=Acme".toList
      = .error .unsupportedKind ∧
    totp.ParseURI id (fun _ _ => false) url.Parse "otpauth://TOTP/Acme?issuer=Acme".toList
      = .error .secretEmpty ∧
    totp.ParseURI id (fun _ _ => false) url.Parse "otpauth://totp/Acme?secret=".toList
      = .error .secretEmpty ∧
    totp.ParseURI id (fun _ _ => false) url.Parse
        "otpauth://totp/Acme?secret=JBSWY3DPEHPK3PXP&digits=six&period=x".toList
      = .error (.number ⟨.Atoi, .invalid⟩) ∧
    totp.ParseURI id (fun _ _ => false) url.Parse
        "otpauth://totp/Acme?secret=JBSWY3DPEHPK3PXP&issuer=Acme&period=30s".toList
      = .error (.number ⟨.ParseInt, .invalid⟩) ∧
    totp.ParseURI id (fun _ _ => false) url.Parse
        "otpauth://totp/Acme?secret=JBSWY3DPEHPK3PXP&period=9223372036854775808".toList
      = .error (.number ⟨.ParseInt, .range⟩) ∧
    totp.ParseURI id (fun _ _ => false) url.Parse
        "otpauth://totp/Acme?issuer=Acme&secret=JBSWY3DPEHPK3PXP&digits=&period=".toList
      = .ok ⟨"JBSWY3DPEHPK3PXP".toList, 6, [], 30, 0⟩ ∧
    (totp.ParseURI id (fun _ _ => false) url.Parse "otpauth://hotp/Acme?issuer=Acme".toList
        = .error .unsupportedKind ↔
      strings.EqualFold (fun _ _ => false) "hotp".toList "totp".toList = false) :=
  ⟨rfl, rfl, rfl, rfl, rfl, rfl, rfl, rfl,
    (C14_outcome_order id (fun _ _ => false) url.Parse "otpauth://hotp/Acme?issuer=Acme".toList
      ⟨"hotp".toList, [("issuer".toList, "Acme".toList)]⟩ rfl).1⟩

/-- What `ParseURI` has checked when it returns options, and the options. -/
theorem ParseURI_accepted (tbl : Char → Char) (orbit : Char → Char → Bool)
    (parse : List Char → Except url.Error url.URL) (u : List Char) (o : totp.Options)
    (h : totp.ParseURI tbl orbit parse u = .ok o) :
    ∃ uri, parse u = .ok uri ∧
      strings.EqualFold orbit uri.Host "totp".toList = true ∧
      uri.Query.Get "secret".toList ≠ [] ∧
      ¬ (uri.Query.Get "digits".toList ≠ [] ∧
          integerValue (uri.Query.Get "digits".toList) = none) ∧
      ¬ (uri.Query.Get "period".toList ≠ [] ∧
          integerValue (uri.Query.Get "period".toList) = none) ∧
      o = ⟨totp.normalize tbl (uri.Query.Get "secret".toList),
          if uri.Query.Get "digits".toList = [] then 6
            else (integerValue (uri.Query.Get "digits".toList)).getD 0,
          uri.Query.Get "algorithm".toList,
          if uri.Query.Get "period".toList = [] then 30
            else (integerValue (uri.Query.Get "period".toList)).getD 0, 0⟩ := by
  rcases hp : parse u with e | uri
  · rw [ParseURI_parse_error tbl orbit parse u e hp] at h
    cases h
  · refine ⟨uri, rfl, ?_⟩
    by_cases hh : strings.EqualFold orbit uri.Host "totp".toList = true
    · rcases ParseURI_after_kind tbl orbit parse u uri hp hh with
        ⟨-, e⟩ | ⟨-, -, e', e⟩ | ⟨hs, hd, hpd, e⟩
      · rw [e] at h; cases h
      · rw [e] at h; cases h
      · rw [e] at h
        exact ⟨hh, hs, hd, hpd, (Except.ok.inj h).symm⟩
    · rw [ParseURI_kind tbl orbit parse u uri hp (by simpa using hh)] at h
      cases h

/-- C15, the options of an accepted URI: when `ParseURI` returns options for a
URI, the URI parses, and with the values `Get` returns from the query,
`Digits` is 6 when `digits` is absent or empty and else the integer its value
denotes, `Period` is 30 when `period` is absent or empty and else the integer
its value denotes, `Algorithm` is the value of `algorithm` unchanged, empty
when the key is absent, and `UnixTime` is 0. -/
theorem C15_accepted_options (tbl : Char → Char) (orbit : Char → Char → Bool)
    (parse : List Char → Except url.Error url.URL) (u : List Char) (o : totp.Options)
    (h : totp.ParseURI tbl orbit parse u = .ok o) :
    ∃ uri, parse u = .ok uri ∧
      ((∀ p ∈ uri.Query, p.1 ≠ "digits".toList) → o.Digits = 6) ∧
      (uri.Query.Get "digits".toList = [] → o.Digits = 6) ∧
      (uri.Query.Get "digits".toList ≠ [] →
        integerValue (uri.Query.Get "digits".toList) = some o.Digits) ∧
      ((∀ p ∈ uri.Query, p.1 ≠ "period".toList) → o.Period = 30) ∧
      (uri.Query.Get "period".toList = [] → o.Period = 30) ∧
      (uri.Query.Get "period".toList ≠ [] →
        integerValue (uri.Query.Get "period".toList) = some o.Period) ∧
      o.Algorithm = uri.Query.Get "algorithm".toList ∧
      ((∀ p ∈ uri.Query, p.1 ≠ "algorithm".toList) → o.Algorithm = []) ∧
      o.UnixTime = 0 := by
  obtain ⟨uri, hp, -, -, hd, hpd, rfl⟩ := ParseURI_accepted tbl orbit parse u o h
  have hD : uri.Query.Get "digits".toList = [] →
      (if uri.Query.Get "digits".toList = [] then (6 : Int)
        else (integerValue (uri.Query.Get "digits".toList)).getD 0) = 6 := fun e => if_pos e
  have hP : uri.Query.Get "period".toList = [] →
      (if uri.Query.Get "period".toList = [] then (30 : Int)
        else (integerValue (uri.Query.Get "period".toList)).getD 0) = 30 := fun e => if_pos e
  refine ⟨uri, hp, fun hm => hD (Values.Get_of_missing _ _ hm), hD, fun hne => ?_,
    fun hm => hP (Values.Get_of_missing _ _ hm), hP, fun hne => ?_, rfl,
    fun hm => Values.Get_of_missing _ _ hm, rfl⟩
  · show integerValue (uri.Query.Get "digits".toList) = some (if _ then _ else _)
    rw [if_neg hne]
    rcases hi : integerValue (uri.Query.Get "digits".toList) with _ | d
    · exact absurd ⟨hne, hi⟩ hd
    · rfl
  · show integerValue (uri.Query.Get "period".toList) = some (if _ then _ else _)
    rw [if_neg hne]
    rcases hi : integerValue (uri.Query.Get "period".toList) with _ | d
    · exact absurd ⟨hne, hi⟩ hpd
    · rfl

set_option maxRecDepth 100000 in
/-- C15, witness: the URI of `ExampleParseURI` yields `Digits` 6, `Period` 30
and the empty `Algorithm`, and `New` on it with `UnixTime` 32158800 returns
331676; the second and the fourth URI of `TestParseURI` yield the numbers and
the name they hold, and the codes 82659370 and 408133. -/
theorem C15_accepted_options_witness :
    totp.ParseURI id (fun _ _ => false) url.Parse
        "otpauth://totp/Acme?secret=IRXW4J3UEBKGK3DMEBAW46KPNZSSC".toList
      = .ok ⟨"IRXW4J3UEBKGK3DMEBAW46KPNZSSC===".toList, 6, [], 30, 0⟩ ∧
    totp.New id 0 ⟨"IRXW4J3UEBKGK3DMEBAW46KPNZSSC===".toList, 6, [], 30, 32158800⟩
      = .ok "331676".toList ∧
    totp.ParseURI id (fun _ _ => false) url.Parse
        "otpauth://totp/Acme?secret=IRXW4J3UEBKGK3DMEBAW46KPNZSSC&digits=8&period=15".toList
      = .ok ⟨"IRXW4J3UEBKGK3DMEBAW46KPNZSSC===".toList, 8, [], 15, 0⟩ ∧
    totp.New id 0 ⟨"IRXW4J3UEBKGK3DMEBAW46KPNZSSC===".toList, 8, [], 15, 32158800⟩
      = .ok "82659370".toList ∧
    totp.ParseURI id (fun _ _ => false) url.Parse
        "otpauth://totp/Acme?secret=IRXW4J3UEBKGK3DMEBAW46KPNZSSC&algorithm=SHA256".toList
      = .ok ⟨"IRXW4J3UEBKGK3DMEBAW46KPNZSSC===".toList, 6, "SHA256".toList, 30, 0⟩ ∧
    totp.New id 0
        ⟨"IRXW4J3UEBKGK3DMEBAW46KPNZSSC===".toList, 6, "SHA256".toList, 30, 32158800⟩
      = .ok "408133".toList ∧
    ∃ uri, url.Parse "otpauth://totp/Acme?secret=IRXW4J3UEBKGK3DMEBAW46KPNZSSC".toList
        = .ok uri ∧
      ((∀ p ∈ uri.Query, p.1 ≠ "digits".toList) → (6 : Int) = 6) ∧
      (uri.Query.Get "digits".toList = [] → (6 : Int) = 6) ∧
      (uri.Query.Get "digits".toList ≠ [] →
        integerValue (uri.Query.Get "digits".toList) = some 6) ∧
      ((∀ p ∈ uri.Query, p.1 ≠ "period".toList) → (30 : Int) = 30) ∧
      (uri.Query.Get "period".toList = [] → (30 : Int) = 30) ∧
      (uri.Query.Get "period".toList ≠ [] →
        integerValue (uri.Query.Get "period".toList) = some 30) ∧
      ([] : List Char) = uri.Query.Get "algorithm".toList ∧
      ((∀ p ∈ uri.Query, p.1 ≠ "algorithm".toList) → ([] : List Char) = []) ∧
      (0 : Int) = 0 :=
  ⟨rfl, by decide!, rfl, by decide!, rfl, by decide!,
    C15_accepted_options id (fun _ _ => false) url.Parse
      "otpauth://totp/Acme?secret=IRXW4J3UEBKGK3DMEBAW46KPNZSSC".toList
      ⟨"IRXW4J3UEBKGK3DMEBAW46KPNZSSC===".toList, 6, [], 30, 0⟩ rfl⟩

/-! ## The secret of a URI -/

theorem len_append (a b : List Char) : len (a ++ b) = len a + len b := by
  simp only [len, bytesOf_append, List.length_append]

theorem len_replicate_pad (k : Nat) : len (List.replicate k '=') = k := by
  induction k with
  | zero => rfl
  | succ k ih =>
    have h : len (List.replicate (k + 1) '=') = len ['='] + len (List.replicate k '=') := by
      rw [← len_append]
      rfl
    rw [h, ih]
    have : len ['='] = 1 := by decide
    omega

/-- The normalized form of a text has a byte length that is a multiple of 8. -/
theorem len_normalize (tbl : Char → Char) (s : List Char) : len (totp.normalize tbl s) % 8 = 0 := by
  unfold totp.normalize
  dsimp only
  split_ifs with h
  · rw [len_append, len_replicate_pad]
    omega
  · omega

/-- The characters of the normalized form of a text are upper-case forms of
its characters that are no white space, and `=`. -/
theorem mem_normalize (tbl : Char → Char) (s : List Char) (c : Char)
    (hc : c ∈ totp.normalize tbl s) :
    c = '=' ∨ ∃ d ∈ s, unicode.IsSpace d = false ∧ c = unicode.ToUpper tbl d := by
  have hclean : c ∈ strings.ToUpper tbl (strings.Join (strings.Fields s) []) →
      ∃ d ∈ s, unicode.IsSpace d = false ∧ c = unicode.ToUpper tbl d := by
    intro h
    rw [Join_Fields, strings.ToUpper] at h
    obtain ⟨d, hd, rfl⟩ := List.mem_map.mp h
    obtain ⟨hd1, hd2⟩ := List.mem_filter.mp hd
    exact ⟨d, hd1, by simpa using hd2, rfl⟩
  unfold totp.normalize at hc
  dsimp only at hc
  split_ifs at hc with h
  · rcases List.mem_append.mp hc with h1 | h1
    · exact Or.inr (hclean h1)
    · exact Or.inl (List.eq_of_mem_replicate h1)
  · exact Or.inr (hclean hc)

/-- The normalized form of a text is empty exactly when the text consists of
white space. -/
theorem normalize_eq_nil_iff (tbl : Char → Char) (s : List Char) :
    totp.normalize tbl s = [] ↔ ∀ c ∈ s, unicode.IsSpace c = true := by
  have hclean : strings.ToUpper tbl (strings.Join (strings.Fields s) []) = [] ↔
      ∀ c ∈ s, unicode.IsSpace c = true := by
    rw [Join_Fields, strings.ToUpper, List.map_eq_nil_iff, List.filter_eq_nil_iff]
    constructor
    · intro h c hc
      simpa using h c hc
    · intro h c hc
      simpa using h c hc
  unfold totp.normalize
  dsimp only
  split_ifs with h
  · constructor
    · intro e
      exact hclean.1 (List.append_eq_nil.mp e).1
    · intro e
      rw [hclean.2 e] at h
      exact absurd rfl h
  · exact hclean

/-- C16, counterexample: the secret value `ß` (U+00DF, the lowercase letter
sharp s) is accepted, and the returned `Secret` is `ß======`: the letter has no
upper-case form in the Unicode tables, `unicode.ToUpper` returns it unchanged
(as the table `id` does), and it takes two of the eight bytes. -/
theorem C16_counterexample :
    url.Parse "otpauth://totp/Acme?secret=ß".toList
      = .ok ⟨"totp".toList, [("secret".toList, "ß".toList)]⟩ ∧
    totp.ParseURI id (fun _ _ => false) url.Parse "otpauth://totp/Acme?secret=ß".toList
      = .ok ⟨"ß======".toList, 6, [], 30, 0⟩ ∧
    'ß' ∈ "ß======".toList ∧ 'ß'.toNat = 0xDF ∧ unicode.ToUpper id 'ß' = 'ß' ∧
    len "ß======".toList = 8 :=
  ⟨rfl, rfl, by decide, rfl, rfl, rfl⟩

/-- C16, amended: for every accepted URI with the secret value `s`, the
returned `Secret` is the normalized form of `s` that `ParseKey` decodes, so
decoding it gives the result of `ParseKey(s)`; it holds no white space and no
character that upper-casing changes, so none of the letters `a` to `z`, and its
length in bytes is a multiple of 8.  The Unicode case table enters through two
of its properties: above ASCII, the upper-case form of a code point that is no
white space is no white space, and upper-casing it again changes nothing. -/
theorem C16_secret_normalized (tbl : Char → Char) (orbit : Char → Char → Bool)
    (parse : List Char → Except url.Error url.URL) (u : List Char) (o : totp.Options)
    (hsp : ∀ c, 0x7F < c.toNat → unicode.IsSpace c = false → unicode.IsSpace (tbl c) = false)
    (hid : ∀ c, 0x7F < c.toNat → unicode.ToUpper tbl (tbl c) = tbl c)
    (h : totp.ParseURI tbl orbit parse u = .ok o) :
    ∃ uri, parse u = .ok uri ∧
      o.Secret = totp.normalize tbl (uri.Query.Get "secret".toList) ∧
      base32.DecodeString o.Secret = totp.ParseKey tbl (uri.Query.Get "secret".toList) ∧
      (∀ c ∈ o.Secret, unicode.IsSpace c = false) ∧
      (∀ c ∈ o.Secret, unicode.ToUpper tbl c = c) ∧
      (∀ c ∈ o.Secret, ¬ (97 ≤ c.toNat ∧ c.toNat ≤ 122)) ∧
      len o.Secret % 8 = 0 := by
  obtain ⟨uri, hp, -, -, -, -, rfl⟩ := ParseURI_accepted tbl orbit parse u o h
  have hup : ∀ c ∈ totp.normalize tbl (uri.Query.Get "secret".toList),
      unicode.ToUpper tbl c = c := by
    intro c hc
    rcases mem_normalize tbl _ c hc with rfl | ⟨d, -, -, rfl⟩
    · rfl
    · exact ToUpper_idem tbl hid d
  refine ⟨uri, hp, rfl, rfl, fun c hc => ?_, hup, fun c hc hl => ?_, len_normalize tbl _⟩
  · rcases mem_normalize tbl _ c hc with rfl | ⟨d, -, hd, rfl⟩
    · rfl
    · exact ToUpper_not_space tbl hsp d hd
  · have h2 := (ascii_ToUpper tbl c (by omega)).2.1
    rw [hup c hc] at h2
    exact h2 hl

set_option maxRecDepth 100000 in
/-- C16, witness: a lower-case secret with an escaped blank and a `+`, which
is a blank in a query; the case table above ASCII is the identity. -/
theorem C16_secret_normalized_witness :
    url.Parse "otpauth://totp/Acme?secret=jbsw%20y3dp+ehpk3pxp".toList
      = .ok ⟨"totp".toList, [("secret".toList, "jbsw y3dp ehpk3pxp".toList)]⟩ ∧
    totp.ParseURI id (fun _ _ => false) url.Parse
        "otpauth://totp/Acme?secret=jbsw%20y3dp+ehpk3pxp".toList
      = .ok ⟨"JBSWY3DPEHPK3PXP".toList, 6, [], 30, 0⟩ ∧
    totp.ParseKey id "jbsw y3dp ehpk3pxp".toList
      = ([72, 101, 108, 108, 111, 33, 222, 173, 190, 239], none) ∧
    ∃ uri, url.Parse "otpauth://totp/Acme?secret=jbsw%20y3dp+ehpk3pxp".toList = .ok uri ∧
      "JBSWY3DPEHPK3PXP".toList = totp.normalize id (uri.Query.Get "secret".toList) ∧
      base32.DecodeString "JBSWY3DPEHPK3PXP".toList
        = totp.ParseKey id (uri.Query.Get "secret".toList) ∧
      (∀ c ∈ "JBSWY3DPEHPK3PXP".toList, unicode.IsSpace c = false) ∧
      (∀ c ∈ "JBSWY3DPEHPK3PXP".toList, unicode.ToUpper id c = c) ∧
      (∀ c ∈ "JBSWY3DPEHPK3PXP".toList, ¬ (97 ≤ c.toNat ∧ c.toNat ≤ 122)) ∧
      len "JBSWY3DPEHPK3PXP".toList % 8 = 0 :=
  ⟨rfl, rfl, by decide!,
    C16_secret_normalized id (fun _ _ => false) url.Parse
      "otpauth://totp/Acme?secret=jbsw%20y3dp+ehpk3pxp".toList
      ⟨"JBSWY3DPEHPK3PXP".toList, 6, [], 30, 0⟩ (fun _ _ h => h)
      (fun c hc => by
        show unicode.ToUpper id c = c
        unfold unicode.ToUpper
        rw [if_neg (by omega)]
        rfl) rfl⟩

/-! ## Determinism and the clock -/

/-- C17, determinism: for every Options with `UnixTime ≠ 0`, `New` returns the
identical result (the same string or the same error) under any two wall-clock
readings; and `Generate` returns the identical result for any two requests
with the same secret, counter, digits and algorithm. -/
theorem C17_determinism (tbl : Char → Char) (now1 now2 : Int) (o : totp.Options)
    (g1 g2 : generator.GenerateOptions) (ht : o.UnixTime ≠ 0)
    (hs : g1.Secret = g2.Secret) (hc : g1.Counter = g2.Counter)
    (hd : g1.Digits = g2.Digits) (ha : g1.Algorithm = g2.Algorithm) :
    totp.New tbl now1 o = totp.New tbl now2 o ∧
    generator.Generate g1 = generator.Generate g2 := by
  constructor
  · have hcc : ∀ p, totp.computeCounter now1 o.UnixTime p = totp.computeCounter now2 o.UnixTime p := by
      intro p
      unfold totp.computeCounter
      simp only [ne_eq, ht, not_false_eq_true, if_true]
    rw [New_eq, New_eq, hcc]
  · cases g1
    cases g2
    simp only at hs hc hd ha
    rw [hs, hc, hd, ha]

set_option maxRecDepth 100000 in
/-- C17, witness: the first vector of `TestTOTP` under the clock readings 0 and
1700000000. -/
theorem C17_determinism_witness :
    totp.New id 0 ⟨"GEZDGNBVGY3TQOJQGEZDGNBVGY3TQOJQ".toList, 8, "SHA1".toList, 30, 59⟩
      = totp.New id 1700000000
        ⟨"GEZDGNBVGY3TQOJQGEZDGNBVGY3TQOJQ".toList, 8, "SHA1".toList, 30, 59⟩ ∧
    generator.Generate ⟨"GEZDGNBVGY3TQOJQGEZDGNBVGY3TQOJQ".toList, 1, 8, generator.SHA1⟩
      = generator.Generate ⟨"GEZDGNBVGY3TQOJQGEZDGNBVGY3TQOJQ".toList, 1, 8, "SHA1".toList⟩ :=
  C17_determinism id 0 1700000000
    ⟨"GEZDGNBVGY3TQOJQGEZDGNBVGY3TQOJQ".toList, 8, "SHA1".toList, 30, 59⟩
    ⟨"GEZDGNBVGY3TQOJQGEZDGNBVGY3TQOJQ".toList, 1, 8, generator.SHA1⟩
    ⟨"GEZDGNBVGY3TQOJQGEZDGNBVGY3TQOJQ".toList, 1, 8, "SHA1".toList⟩
    (by decide) rfl rfl rfl (by decide)

theorem tdiv_eq_zero_iff (t p : Int) (hp : 0 < p) : t.tdiv p = 0 ↔ -p < t ∧ t < p := by
  rw [← Int.natAbs_eq_zero, Int.natAbs_tdiv]
  show t.natAbs / p.natAbs = 0 ↔ _
  rw [Nat.div_eq_zero_iff (by omega)]
  omega

theorem computeCounter_clock (now p : Int) (hp : 0 < p)
    (hlo : -2 ^ 63 ≤ now) (hhi : now < 2 ^ 63) :
    totp.computeCounter now 0 p = .ok (now.tdiv p) := by
  have hb := tdiv_abs_le now p hp
  have hw : wrapInt64 (now - 0) = now := by
    rw [Int.sub_zero]
    exact wrapInt64_of_range now hlo hhi
  unfold totp.computeCounter
  simp only [ne_eq, not_true_eq_false, if_false, hp.ne', hw]
  congr 1
  rcases le_or_lt 0 now with h0 | h0
  · rw [abs_of_nonneg h0] at hb
    exact wrapInt64_of_range _ (by omega) (by omega)
  · rw [abs_of_neg h0] at hb
    have hn : 0 ≤ -now := by omega
    have h3 := Int.tdiv_nonneg hn hp.le
    rw [Int.neg_tdiv] at h3
    exact wrapInt64_of_range _ (by omega) (by omega)

/-- C18, counterexample: with the reference time 0, period 30 and a clock that
reads -1 (one second before the epoch, outside `[0, 30)`), the counter is 0,
the counter of Unix time zero. -/
theorem C18_counterexample :
    totp.computeCounter (-1) 0 30 = .ok 0 ∧ ¬ ((0 : Int) ≤ -1 ∧ (-1 : Int) < 30) := by
  decide

/-- C18, amended: an explicit reference time of exactly 0 is treated as not
supplied: for every positive period `p` and every 64-bit wall-clock reading
`now`, `computeCounter(0, p)` is `now / p` (truncated toward zero) and `New`
with `UnixTime = 0` generates with this counter; the counter is 0, that of Unix
time zero, exactly when the clock reads a time strictly between `-p` and
`p`. -/
theorem C18_zero_time_is_clock (tbl : Char → Char) (now p : Int) (hp : 0 < p)
    (hlo : -2 ^ 63 ≤ now) (hhi : now < 2 ^ 63) :
    totp.computeCounter now 0 p = .ok (now.tdiv p) ∧
    (∀ s d a, totp.New tbl now ⟨s, d, a, p, 0⟩ =
      generator.Generate ⟨s, now.tdiv p, if d = 0 then 6 else d,
        generator.ToHashAlgorithm tbl a⟩) ∧
    (now.tdiv p = 0 ↔ -p < now ∧ now < p) := by
  refine ⟨computeCounter_clock now p hp hlo hhi, ?_, tdiv_eq_zero_iff now p hp⟩
  intro s d a
  rw [New_eq]
  simp only [if_neg hp.ne', computeCounter_clock now p hp hlo hhi]

/-- C18, witness: period 30 and a clock reading of 1700000000. -/
theorem C18_zero_time_is_clock_witness :
    totp.computeCounter 1700000000 0 30 = .ok (Int.tdiv 1700000000 30) ∧
    (∀ s d a, totp.New id 1700000000 ⟨s, d, a, 30, 0⟩ =
      generator.Generate ⟨s, Int.tdiv 1700000000 30, if d = 0 then 6 else d,
        generator.ToHashAlgorithm id a⟩) ∧
    (Int.tdiv 1700000000 30 = 0 ↔ -30 < (1700000000 : Int) ∧ (1700000000 : Int) < 30) :=
  C18_zero_time_is_clock id 1700000000 30 (by decide) (by decide) (by decide)

/-! ## The truncation slice -/

/-- C19, the dynamic-truncation slice is in bounds: for every digest of
length 20, 32 or 64 bytes, the offset `o = last byte & 0x0F` satisfies
`o + 4 ≤` the length of the digest, and the lines that slice `hash[o : o+4]`
and read four bytes big-endian return a value (they do not panic). -/
theorem C19_slice_in_bounds (hs : List Nat)
    (hlen : hs.length = 20 ∨ hs.length = 32 ∨ hs.length = 64) :
    (hs.getD (hs.length - 1) 0 &&& 0xF) + 4 ≤ hs.length ∧
    ((hs.drop (hs.getD (hs.length - 1) 0 &&& 0xF)).take 4).length = 4 ∧
    ∃ v, generator.truncate hs = .ok v := by
  have ho : hs.getD (hs.length - 1) 0 &&& 0xF ≤ 0xF := Nat.and_le_right
  have h20 : 20 ≤ hs.length := by omega
  refine ⟨by omega, ?_, _, truncate_eq hs h20⟩
  rw [take4_drop hs _ (by omega)]
  rfl

set_option maxRecDepth 100000 in
/-- C19, witness: the HMAC-SHA1 digest of the RFC 4226 test key and counter
1. -/
theorem C19_slice_in_bounds_witness :
    ((hmac.Sum .sha1 (bytesOf "12345678901234567890".toList) (bytesBE 8 1)).getD
        ((hmac.Sum .sha1 (bytesOf "12345678901234567890".toList) (bytesBE 8 1)).length - 1) 0
        &&& 0xF) + 4
      ≤ (hmac.Sum .sha1 (bytesOf "12345678901234567890".toList) (bytesBE 8 1)).length ∧
    (((hmac.Sum .sha1 (bytesOf "12345678901234567890".toList) (bytesBE 8 1)).drop
        ((hmac.Sum .sha1 (bytesOf "12345678901234567890".toList) (bytesBE 8 1)).getD
          ((hmac.Sum .sha1 (bytesOf "12345678901234567890".toList) (bytesBE 8 1)).length - 1) 0
          &&& 0xF)).take 4).length = 4 ∧
    ∃ v, generator.truncate
      (hmac.Sum .sha1 (bytesOf "12345678901234567890".toList) (bytesBE 8 1)) = .ok v :=
  C19_slice_in_bounds (hmac.Sum .sha1 (bytesOf "12345678901234567890".toList) (bytesBE 8 1))
    (Or.inl (by decide!))

/-! ## A secret of white space -/

/-- With the host `totp`, a secret value of white space only passes the check
of `ParseURI` and leaves the empty `Secret`. -/
theorem ParseURI_blank_secret (tbl : Char → Char) (orbit : Char → Char → Bool)
    (parse : List Char → Except url.Error url.URL) (u : List Char) (o : totp.Options)
    (h : totp.ParseURI tbl orbit parse u = .ok o) :
    ∃ uri, parse u = .ok uri ∧
      (o.Secret = [] ↔ ∀ c ∈ uri.Query.Get "secret".toList, unicode.IsSpace c = true) := by
  obtain ⟨uri, hp, -, -, -, -, rfl⟩ := ParseURI_accepted tbl orbit parse u o h
  exact ⟨uri, hp, normalize_eq_nil_iff tbl _⟩

set_option maxRecDepth 100000 in
/-- C20, evaluation at the failing input: the secret value of the URI
`otpauth://totp/Acme?secret=%20` is one blank; its length is 1, so the check
`len(q.Get("secret")) == 0` passes; stripping the white space then leaves the
empty text, and `ParseURI` returns options with the empty `Secret` and no
error.  `New` on these options, with any reference time, fails with "no secret
key provided".  The same holds for `secret=+`. -/
theorem C20_blank_secret_evaluation :
    url.Parse "otpauth://totp/Acme?secret=%20".toList
      = .ok ⟨"totp".toList, [("secret".toList, " ".toList)]⟩ ∧
    len (url.Values.Get [("secret".toList, " ".toList)] "secret".toList) = 1 ∧
    strings.Fields " ".toList = [] ∧
    totp.ParseURI id (fun _ _ => false) url.Parse "otpauth://totp/Acme?secret=%20".toList
      = .ok ⟨[], 6, [], 30, 0⟩ ∧
    totp.ParseURI id (fun _ _ => false) url.Parse "otpauth://totp/Acme?secret=+".toList
      = .ok ⟨[], 6, [], 30, 0⟩ ∧
    totp.New id 0 ⟨[], 6, [], 30, 0⟩ = .error .noSecretKey ∧
    totp.New id 0 ⟨[], 6, [], 30, 59⟩ = .error .noSecretKey :=
  ⟨rfl, rfl, rfl, rfl, rfl, rfl, rfl⟩
